import Mathlib

/-!
Verification of the backup-pro filesystem synchronization engine.

The Python source is shallowly embedded as follows.

* Absolute filesystem paths are modelled as their list of name components below
  the root anchor; `[]` is the filesystem root `/`.  `expand_path` (environment
  variable expansion followed by absolutization) is modelled as the identity:
  paths are taken to be already expanded and absolute, so a `BackupPath`'s
  logical `path` and its `system_path` coincide, and `_refresh_backup_path` /
  the `evolve` copies (which only reset per-instance memo fields that the model
  threads explicitly) are identities.

* `os.stat_result` is modelled by the `StatResult` structure carrying the fields
  the engine reads.  Machine integers are `Nat`/`Int` (Python integers are
  unbounded, so no wrap-around modelling is needed).

* The live filesystem is modelled as a finite tree `FSTree`.  A node's
  `st = none` models a path whose `stat` raises an error other than
  `FileNotFoundError`; `children = none` models a directory whose `iterdir`
  raises.  A path that does not resolve in the tree models `FileNotFoundError`.
  Directory listings are kept in the stored order of the `children` list (the
  source sorts them by name; the order is irrelevant to the proved claims).

* Compiled exclusion regexes are modelled by the Boolean predicates they denote
  on paths.

* Fallible operations return `Option`/`Except`; caught-and-reported per-path
  exceptions follow the source's control flow (report and continue).
-/

namespace BackupPro

/-- Absolute path, as the list of components below the root anchor. -/
abbrev SysPath := List String

/-- Model of `os.stat_result` restricted to the fields the engine reads. -/
structure StatResult where
  st_mode : Nat
  st_mtime_ns : Int
  st_size : Nat
  st_uid : Nat
  st_gid : Nat
  st_dev : Nat
  st_ino : Nat
deriving Repr, DecidableEq

/-- `stat.S_IFMT`: the file-type bits of a mode word. -/
def S_IFMT (m : Nat) : Nat := m &&& 0o170000

/-- `stat.S_ISDIR`. -/
def S_ISDIR (m : Nat) : Bool := S_IFMT m == 0o040000

/-- `stat.S_ISREG`. -/
def S_ISREG (m : Nat) : Bool := S_IFMT m == 0o100000

/-- `stat.S_ISLNK`. -/
def S_ISLNK (m : Nat) : Bool := S_IFMT m == 0o120000

/-- `BaseArchiveHandler._is_supported_type`. -/
def is_supported_type (st : StatResult) : Bool :=
  S_ISDIR st.st_mode || S_ISLNK st.st_mode || S_ISREG st.st_mode

/-- `repository.dao.ArchiveMetadata`.  The `user`/`group` fields hold the
normalized owner produced by `_resolve_system_user`/`_resolve_system_group`
during a backup walk: `none` when the owner is the invoking real user or the
id has no name, otherwise the name. -/
structure ArchiveMetadata where
  path : String
  group : Option String
  mode : Nat
  mtime_ns : Int
  size : Nat
  user : Option String
deriving Repr, DecidableEq

/-- `ArchiveMetadata.__eq__`: Python `//` is floor division, hence `Int.fdiv`. -/
def ArchiveMetadata.beq (a b : ArchiveMetadata) : Bool :=
  a.group == b.group && a.mode == b.mode
    && (a.mtime_ns.fdiv (10 ^ 9) == b.mtime_ns.fdiv (10 ^ 9))
    && a.path == b.path && a.size == b.size && a.user == b.user

/-- `ArchiveMetadata.is_data_different` (the `os.stat_result` overload). -/
def ArchiveMetadata.is_data_different (a : ArchiveMetadata) (st : StatResult) : Bool :=
  S_IFMT a.mode != S_IFMT st.st_mode
    || (a.mtime_ns.fdiv (10 ^ 9) != st.st_mtime_ns.fdiv (10 ^ 9))
    || a.size != st.st_size

/-- `repository.dao.IndexMetadata` (attrs equality is structural equality). -/
structure IndexMetadata where
  mtime : Int
  size : Nat
deriving Repr, DecidableEq

/-- `repository.dao.IndexSnapshot`; `metadata` is the snapshot's dict as an
association list (scan builds it with distinct keys). -/
structure IndexSnapshot where
  time : Int
  paths : List SysPath
  metadata : List (SysPath × IndexMetadata)
deriving Repr, DecidableEq

/-- Association-list lookup, the model of Python dict access `m.get(k)`. -/
def alistGet {κ α : Type} [DecidableEq κ] (m : List (κ × α)) (k : κ) : Option α :=
  match m with
  | [] => none
  | (k2, v) :: rest => if k2 = k then some v else alistGet rest k

/-- `PurePath.is_relative_to`: `base` is an initial segment of `arg`. -/
def isRelativeTo (arg base : SysPath) : Bool :=
  match base, arg with
  | [], _ => true
  | _ :: _, [] => false
  | a :: bs, b :: qs => a == b && isRelativeTo qs bs

/-- Lexicographic order on paths (the order `sorted` uses on `Path` objects). -/
def pathLe : SysPath → SysPath → Bool
  | [], _ => true
  | _ :: _, [] => false
  | a :: as2, b :: bs => if a == b then pathLe as2 bs else decide (a < b)

/-- Insertion into a sorted list. -/
def insertLe {α : Type} (le : α → α → Bool) (x : α) : List α → List α
  | [] => [x]
  | y :: ys => if le x y then x :: y :: ys else y :: insertLe le x ys

/-- Insertion sort, the model of Python `sorted`. -/
def sortLe {α : Type} (le : α → α → Bool) (l : List α) : List α :=
  l.foldr (insertLe le) []

/-- Deduplication keeping first occurrences: turns the model's lists back into
the `set` values the source manipulates. -/
def dedupList (l : List SysPath) : List SysPath :=
  l.foldl (fun acc x => if x ∈ acc then acc else acc ++ [x]) []

/-! ## Snapshot store (`Repository` index-snapshot surface)

The persisted snapshots live one file per snapshot, named `{time}.json`;
`get_index_snapshot_times` lists the sorted file names, `get_index_snapshot t`
reads `{t}.json` and returns `None` exactly when the file is missing. -/

/-- The persisted index snapshots (each entry one `{time}.json` file, `time`
being the snapshot's own `time` as written by `set_index_snapshot`). -/
structure SnapshotStore where
  snapshots : List IndexSnapshot
deriving Repr

/-- `Repository.get_index_snapshot_times`. -/
def SnapshotStore.times (s : SnapshotStore) : List Int :=
  sortLe (fun a b => decide (a ≤ b)) (s.snapshots.map (·.time))

/-- `Repository.get_index_snapshot`. -/
def SnapshotStore.get (s : SnapshotStore) (t : Int) : Option IndexSnapshot :=
  s.snapshots.find? (fun sn => sn.time == t)

/-- `BackupProException` outcomes of `ScanHandler._get_snapshots`. -/
inductive ToolErr where
  /-- "Scan must be called prior to calculating diff." -/
  | noSnapshots
  /-- "There is no index with given time: {to_time}" -/
  | noIndexWithTime (t : Option Int)
  /-- "At least two scan snapshots are required ..." -/
  | needTwoSnapshots
  /-- Unreachable: `times[-2]` names a stored snapshot, so its lookup cannot
  miss; the source would synthesize a snapshot with a null time here and later
  crash comparing it with an integer. -/
  | unexpected
deriving Repr, DecidableEq

/-- `ScanHandler._get_snapshots`. -/
def get_snapshots (store : SnapshotStore) (from_time to_time : Option Int) :
    Except ToolErr (IndexSnapshot × IndexSnapshot) :=
  let snapshot_times := store.times
  match snapshot_times.getLast? with
  | none => .error .noSnapshots
  | some tLast =>
    let to_snapshot := match to_time with
      | some t => store.get t
      | none => store.get tLast
    match to_snapshot with
    | none => .error (.noIndexWithTime to_time)
    | some toSnap =>
      match from_time with
      | some t =>
        match store.get t with
        | some s => .ok (s, toSnap)
        | none => .ok ({ time := t, paths := [[]], metadata := [] }, toSnap)
      | none =>
        if snapshot_times.length < 2 then .error .needTwoSnapshots
        else
          match snapshot_times[snapshot_times.length - 2]? >>= store.get with
          | some s => .ok (s, toSnap)
          | none => .error .unexpected

/-- `ScanHandler._is_path_selected`. -/
def is_path_selected (paths : List SysPath) (arg : SysPath) : Bool :=
  paths.any (fun p => isRelativeTo arg p)

/-- `ScanHandler._calculate_common_paths`, as the list of elements of the
produced set. -/
def calculate_common_paths (paths1 paths2 : List SysPath) : List SysPath :=
  dedupList <| paths1.flatMap (fun p1 =>
    paths2.filterMap (fun p2 =>
      if isRelativeTo p1 p2 then some p1
      else if isRelativeTo p2 p1 then some p2
      else none))

/-- `ScanHandler._calculate_selected_paths`. -/
def calculate_selected_paths (from_paths to_paths selected_paths : List SysPath) :
    List SysPath :=
  let result := calculate_common_paths from_paths to_paths
  let result := if selected_paths.isEmpty then result
    else calculate_common_paths result selected_paths
  sortLe pathLe result

/-- `ScanHandler._calculate_diff`, as the list of elements of the produced set
(first the changed paths from the to-side, then the removed from-only paths;
the two parts are disjoint, so list membership is set membership). -/
def calculate_diff (from_snapshot to_snapshot : IndexSnapshot)
    (selected_paths : List SysPath) : List SysPath :=
  let from_time := from_snapshot.time
  let fromM := from_snapshot.metadata
  let toM := to_snapshot.metadata
  let changed := toM.filterMap (fun kv =>
    if is_path_selected selected_paths kv.1
       ∧ (((alistGet fromM kv.1).any (fun fm => fm ≠ kv.2)) ∨ kv.2.mtime > from_time)
    then some kv.1 else none)
  let removed := fromM.filterMap (fun kv =>
    if (alistGet toM kv.1) = none ∧ is_path_selected selected_paths kv.1
    then some kv.1 else none)
  changed ++ removed

/-- `ScanHandler.diff` (after `_get_snapshots` succeeded the result is the
sorted deduplicated diff set). -/
def ScanHandler.diff (store : SnapshotStore) (from_time to_time : Option Int)
    (paths : List SysPath) : Except ToolErr (List SysPath) :=
  match get_snapshots store from_time to_time with
  | .error e => .error e
  | .ok (fromS, toS) =>
    let selected := calculate_selected_paths fromS.paths toS.paths paths
    .ok (sortLe pathLe (dedupList (calculate_diff fromS toS selected)))

/-- The to-snapshot resolution step of `_get_snapshots`: the snapshot at the
explicit `to_time`, or else the one at the last (largest) stored time. -/
def resolveTo (store : SnapshotStore) (to_time : Option Int) : Option IndexSnapshot :=
  match to_time with
  | some t => store.get t
  | none => store.times.getLast?.bind store.get

/-! ## Basic lemmas about the list utilities -/

theorem mem_insertLe {α : Type} (le : α → α → Bool) (x y : α) (l : List α) :
    y ∈ insertLe le x l ↔ y = x ∨ y ∈ l := by
  induction l with
  | nil => simp [insertLe]
  | cons z zs ih =>
    by_cases h : le x z = true <;> simp [insertLe, h, ih] <;> tauto

theorem mem_sortLe {α : Type} (le : α → α → Bool) (y : α) (l : List α) :
    y ∈ sortLe le l ↔ y ∈ l := by
  induction l with
  | nil => simp [sortLe]
  | cons z zs ih => simp [sortLe, mem_insertLe] at *; rw [ih]

theorem length_insertLe {α : Type} (le : α → α → Bool) (x : α) (l : List α) :
    (insertLe le x l).length = l.length + 1 := by
  induction l with
  | nil => simp [insertLe]
  | cons z zs ih =>
    by_cases h : le x z = true <;> simp [insertLe, h, ih]

theorem length_sortLe {α : Type} (le : α → α → Bool) (l : List α) :
    (sortLe le l).length = l.length := by
  induction l with
  | nil => simp [sortLe]
  | cons z zs ih =>
    simp only [sortLe, List.foldr] at *
    rw [length_insertLe, ih]
    simp

theorem mem_dedupList (y : SysPath) (l : List SysPath) : y ∈ dedupList l ↔ y ∈ l := by
  have key : ∀ (l acc : List SysPath),
      y ∈ l.foldl (fun acc x => if x ∈ acc then acc else acc ++ [x]) acc
        ↔ y ∈ l ∨ y ∈ acc := by
    intro l
    induction l with
    | nil => simp
    | cons z zs ih =>
      intro acc
      by_cases h : z ∈ acc
      · rw [List.foldl_cons]
        simp only [if_pos h]
        rw [ih]
        constructor
        · tauto
        · rintro (h2 | h2)
          · rcases List.mem_cons.mp h2 with rfl | h3
            · exact Or.inr h
            · exact Or.inl h3
          · exact Or.inr h2
      · rw [List.foldl_cons]
        simp only [if_neg h]
        rw [ih]
        simp only [List.mem_append, List.mem_cons, List.mem_singleton]
        tauto
  simpa [dedupList] using key l []

theorem find?_isSome_of_mem {α : Type} (p : α → Bool) (l : List α) (x : α)
    (hx : x ∈ l) (hp : p x = true) : ∃ y, l.find? p = some y := by
  induction l with
  | nil => simp at hx
  | cons z zs ih =>
    by_cases h : p z = true
    · exact ⟨z, by simp [List.find?, h]⟩
    · rcases List.mem_cons.mp hx with rfl | hx2
      · exact absurd hp h
      · obtain ⟨y, hy⟩ := ih hx2
        exact ⟨y, by simp [List.find?, h, hy]⟩

theorem find?_some_pred {α : Type} (p : α → Bool) (l : List α) (y : α)
    (h : l.find? p = some y) : p y = true ∧ y ∈ l := by
  induction l with
  | nil => simp [List.find?] at h
  | cons z zs ih =>
    by_cases hz : p z = true
    · simp [List.find?, hz] at h
      subst h; exact ⟨hz, List.mem_cons_self _ _⟩
    · simp [List.find?, hz] at h
      obtain ⟨h1, h2⟩ := ih h
      exact ⟨h1, List.mem_cons_of_mem _ h2⟩

/-! ## Lemmas about the snapshot store -/

theorem mem_times (store : SnapshotStore) (t : Int) :
    t ∈ store.times ↔ t ∈ store.snapshots.map (·.time) := by
  simp [SnapshotStore.times, mem_sortLe]

theorem times_nil_iff (store : SnapshotStore) :
    store.times = [] ↔ store.snapshots = [] := by
  constructor
  · intro h
    have := length_sortLe (fun a b => decide (a ≤ b)) (store.snapshots.map (·.time))
    rw [show sortLe (fun a b => decide (a ≤ b)) (store.snapshots.map (·.time))
          = store.times from rfl, h] at this
    simpa using (List.eq_nil_of_length_eq_zero (by simpa using this.symm))
  · intro h
    simp [SnapshotStore.times, h, sortLe]

theorem get_eq_some (store : SnapshotStore) (t : Int) (s : IndexSnapshot)
    (h : store.get t = some s) : s.time = t ∧ s ∈ store.snapshots := by
  obtain ⟨h1, h2⟩ := find?_some_pred _ _ _ h
  exact ⟨by simpa using h1, h2⟩

theorem get_isSome_of_mem_times (store : SnapshotStore) (t : Int)
    (h : t ∈ store.times) : ∃ s, store.get t = some s := by
  rw [mem_times] at h
  obtain ⟨sn, hmem, ht⟩ := List.mem_map.mp h
  exact find?_isSome_of_mem _ _ sn hmem (by simpa using ht)

/-! ## C8 -/

/-- C8: two `ArchiveMetadata` values are equal under the source's custom
equality iff their `path`, `mode`, `group`, `user` and `size` fields match and
their modification times agree at one-second granularity (equal floor-seconds,
the nanosecond remainder being ignored). -/
theorem C8_archive_metadata_eq (a b : ArchiveMetadata) :
    ArchiveMetadata.beq a b = true ↔
      (a.path = b.path ∧ a.mode = b.mode ∧ a.group = b.group ∧ a.user = b.user
        ∧ a.size = b.size ∧ a.mtime_ns.fdiv (10 ^ 9) = b.mtime_ns.fdiv (10 ^ 9)) := by
  simp [ArchiveMetadata.beq]
  tauto

/-! ## C5 -/

/-- C5: diff snapshot resolution.  (1) With no snapshots stored at all,
`_get_snapshots` raises a tool-level error.  (2) With an explicit `to_time`
naming no stored snapshot, it raises a tool-level error.  (3) On success with
an explicit `to_time`, the to-snapshot is the stored snapshot at that time.
(4) On success without `to_time`, the to-snapshot is the most recent one
(last in the sorted time list).  (5) Without `from_time`, if fewer than two
snapshots exist (and the to-side resolves), it raises a tool-level error.
(6) Without `from_time`, with at least two snapshots (and the to-side
resolving), the from-snapshot is the second-most-recent stored snapshot. -/
theorem C5_get_snapshots_resolution (store : SnapshotStore) :
    (store.snapshots = [] →
      ∀ ft tt, get_snapshots store ft tt = .error .noSnapshots)
    ∧ (∀ t ft, store.snapshots ≠ [] → store.get t = none →
        get_snapshots store ft (some t) = .error (.noIndexWithTime (some t)))
    ∧ (∀ t ft fromS toS, get_snapshots store ft (some t) = .ok (fromS, toS) →
        store.get t = some toS)
    ∧ (∀ ft fromS toS, get_snapshots store ft none = .ok (fromS, toS) →
        ∃ tLast, store.times.getLast? = some tLast ∧ store.get tLast = some toS)
    ∧ (∀ tt toS, resolveTo store tt = some toS → store.times.length < 2 →
        get_snapshots store none tt = .error .needTwoSnapshots)
    ∧ (∀ tt toS, resolveTo store tt = some toS → 2 ≤ store.times.length →
        ∃ fromS t2, get_snapshots store none tt = .ok (fromS, toS)
          ∧ store.times[store.times.length - 2]? = some t2
          ∧ store.get t2 = some fromS) := by
  refine ⟨?_, ?_, ?_, ?_, ?_, ?_⟩
  · intro h ft tt
    have ht : store.times = [] := (times_nil_iff store).mpr h
    simp [get_snapshots, ht]
  · intro t ft hne hg
    have ht : store.times ≠ [] := fun h => hne ((times_nil_iff store).mp h)
    obtain ⟨tLast, hLast⟩ : ∃ tLast, store.times.getLast? = some tLast := by
      cases hl : store.times.getLast? with
      | none => exact absurd (List.getLast?_eq_none_iff.mp hl) ht
      | some x => exact ⟨x, rfl⟩
    simp [get_snapshots, hLast, hg]
  · intro t ft fromS toS h
    cases hl : store.times.getLast? with
    | none => simp [get_snapshots, hl] at h
    | some tLast =>
      cases hg : store.get t with
      | none => simp [get_snapshots, hl, hg] at h
      | some s =>
        cases ft with
        | none =>
          by_cases h2 : store.times.length < 2
          · simp [get_snapshots, hl, hg, h2] at h
          · cases hidx : store.times[store.times.length - 2]? >>= store.get with
            | none => simp [get_snapshots, hl, hg, h2, hidx] at h
            | some s2 =>
              simp [get_snapshots, hl, hg, h2, hidx] at h
              simp [h.2]
        | some t0 =>
          cases hg0 : store.get t0 with
          | none =>
            simp [get_snapshots, hl, hg, hg0] at h
            simp [h.2]
          | some s0 =>
            simp [get_snapshots, hl, hg, hg0] at h
            simp [h.2]
  · intro ft fromS toS h
    cases hl : store.times.getLast? with
    | none => simp [get_snapshots, hl] at h
    | some tLast =>
      cases hg : store.get tLast with
      | none => simp [get_snapshots, hl, hg] at h
      | some s =>
        refine ⟨tLast, rfl, ?_⟩
        cases ft with
        | none =>
          by_cases h2 : store.times.length < 2
          · simp [get_snapshots, hl, hg, h2] at h
          · cases hidx : store.times[store.times.length - 2]? >>= store.get with
            | none => simp [get_snapshots, hl, hg, h2, hidx] at h
            | some s2 =>
              simp [get_snapshots, hl, hg, h2, hidx] at h
              rw [hg, h.2]
        | some t0 =>
          cases hg0 : store.get t0 with
          | none =>
            simp [get_snapshots, hl, hg, hg0] at h
            rw [hg, h.2]
          | some s0 =>
            simp [get_snapshots, hl, hg, hg0] at h
            rw [hg, h.2]
  · intro tt toS hres h2
    obtain ⟨tLast, hLast⟩ : ∃ tLast, store.times.getLast? = some tLast := by
      cases hl : store.times.getLast? with
      | none =>
        cases tt with
        | none => simp [resolveTo, hl] at hres
        | some t =>
          have := (get_eq_some store t toS hres).2
          have hnil := List.getLast?_eq_none_iff.mp hl
          have : store.snapshots = [] := (times_nil_iff store).mp hnil
          simp [resolveTo, SnapshotStore.get, this, List.find?] at hres
      | some x => exact ⟨x, rfl⟩
    cases tt with
    | none =>
      have hget : store.get tLast = some toS := by
        simpa [resolveTo, hLast] using hres
      simp [get_snapshots, hLast, hget, h2]
    | some t =>
      have hget : store.get t = some toS := by simpa [resolveTo] using hres
      simp [get_snapshots, hLast, hget, h2]
  · intro tt toS hres h2
    obtain ⟨tLast, hLast⟩ : ∃ tLast, store.times.getLast? = some tLast := by
      cases hl : store.times.getLast? with
      | none =>
        exfalso
        have hnil := List.getLast?_eq_none_iff.mp hl
        rw [hnil] at h2
        simp at h2
      | some x => exact ⟨x, rfl⟩
    have hlt : ¬ store.times.length < 2 := by omega
    have hidxlt : store.times.length - 2 < store.times.length := by omega
    obtain ⟨t2, hidx⟩ : ∃ t2, store.times[store.times.length - 2]? = some t2 :=
      ⟨store.times[store.times.length - 2], List.getElem?_eq_getElem hidxlt⟩
    have ht2mem : t2 ∈ store.times := by
      have := List.getElem?_mem hidx
      exact this
    obtain ⟨fromS, hfrom⟩ := get_isSome_of_mem_times store t2 ht2mem
    refine ⟨fromS, t2, ?_, hidx, hfrom⟩
    cases tt with
    | none =>
      have hget : store.get tLast = some toS := by
        simpa [resolveTo, hLast] using hres
      simp [get_snapshots, hLast, hget, hlt, hidx, hfrom]
    | some t =>
      have hget : store.get t = some toS := by simpa [resolveTo] using hres
      simp [get_snapshots, hLast, hget, hlt, hidx, hfrom]

/-- C5 witness: with snapshots at times 10 and 20 stored and an explicit
`to_time = 99` matching none of them, resolution fails with the
no-index-with-given-time error. -/
theorem C5_get_snapshots_resolution_witness :
    get_snapshots ⟨[⟨10, [[]], []⟩, ⟨20, [[]], []⟩]⟩ none (some 99)
      = .error (.noIndexWithTime (some 99)) :=
  (C5_get_snapshots_resolution ⟨[⟨10, [[]], []⟩, ⟨20, [[]], []⟩]⟩).2.1 99 none
    (by decide) (by decide)

/-! ## C3 -/

theorem alistGet_mem {κ α : Type} [DecidableEq κ] (m : List (κ × α)) (k : κ) (v : α)
    (h : alistGet m k = some v) : (k, v) ∈ m := by
  induction m with
  | nil => simp [alistGet] at h
  | cons kv rest ih =>
    obtain ⟨k2, w⟩ := kv
    by_cases hk : k2 = k
    · subst hk
      simp [alistGet] at h
      simp [h]
    · simp [alistGet, hk] at h
      exact List.mem_cons_of_mem _ (ih h)

theorem alistGet_eq_none_iff {κ α : Type} [DecidableEq κ] (m : List (κ × α)) (k : κ) :
    alistGet m k = none ↔ ∀ v, (k, v) ∉ m := by
  induction m with
  | nil => simp [alistGet]
  | cons kv rest ih =>
    obtain ⟨k2, w⟩ := kv
    by_cases hk : k2 = k
    · subst hk
      constructor
      · intro h
        simp [alistGet] at h
      · intro h
        exact absurd (List.mem_cons_self _ _) (h w)
    · constructor
      · intro h v hv
        rcases List.mem_cons.mp hv with heq | hmem
        · exact hk (congrArg Prod.fst heq).symm
        · have h2 : alistGet rest k = none := by simpa [alistGet, hk] using h
          exact (ih.mp h2) v hmem
      · intro h
        have h2 : ∀ v, (k, v) ∉ rest := fun v hv => h v (List.mem_cons_of_mem _ hv)
        simpa [alistGet, hk] using ih.mpr h2

theorem alistGet_of_mem_nodup {κ α : Type} [DecidableEq κ] (m : List (κ × α))
    (k : κ) (v : α) (hnd : (m.map Prod.fst).Nodup) (h : (k, v) ∈ m) :
    alistGet m k = some v := by
  induction m with
  | nil => simp at h
  | cons kv rest ih =>
    obtain ⟨k2, w⟩ := kv
    rw [List.map_cons, List.nodup_cons] at hnd
    rcases List.mem_cons.mp h with heq | hmem
    · cases heq
      simp [alistGet]
    · have hk : k2 ≠ k := by
        intro hkk
        subst hkk
        exact hnd.1 (List.mem_map.mpr ⟨(k2, v), hmem, rfl⟩)
      simp only [alistGet, if_neg hk]
      exact ih hnd.2 hmem

theorem option_any_eq_true {α : Type} (o : Option α) (q : α → Bool) :
    o.any q = true ↔ ∃ x, o = some x ∧ q x = true := by
  cases o <;> simp [Option.any]

/-- Membership characterization for the diff set built by `_calculate_diff`. -/
theorem mem_calculate_diff (f t : IndexSnapshot) (sel : List SysPath) (p : SysPath) :
    p ∈ calculate_diff f t sel ↔
      ((∃ kv, kv ∈ t.metadata ∧ kv.1 = p ∧ is_path_selected sel p = true
          ∧ ((∃ fm, alistGet f.metadata p = some fm ∧ fm ≠ kv.2) ∨ kv.2.mtime > f.time))
        ∨ (∃ fm, (p, fm) ∈ f.metadata ∧ alistGet t.metadata p = none
            ∧ is_path_selected sel p = true)) := by
  constructor
  · intro hp
    rcases List.mem_append.mp hp with hp | hp
    · obtain ⟨kv, hkv, hif⟩ := List.mem_filterMap.mp hp
      left
      split at hif
      case isTrue hcond =>
        obtain ⟨hsel, hdisj⟩ := hcond
        cases hif
        refine ⟨kv, hkv, rfl, hsel, ?_⟩
        rcases hdisj with hany | hmt
        · obtain ⟨fm, hfm, hne⟩ := (option_any_eq_true _ _).mp hany
          exact Or.inl ⟨fm, hfm, of_decide_eq_true hne⟩
        · exact Or.inr hmt
      case isFalse hcond => cases hif
    · obtain ⟨kv, hkv, hif⟩ := List.mem_filterMap.mp hp
      right
      split at hif
      case isTrue hcond =>
        obtain ⟨hnone, hsel⟩ := hcond
        cases hif
        exact ⟨kv.2, hkv, hnone, hsel⟩
      case isFalse hcond => cases hif
  · rintro (⟨kv, hkv, hkvp, hsel, hdisj⟩ | ⟨fm, hfm, hnone, hsel⟩)
    · apply List.mem_append.mpr
      left
      apply List.mem_filterMap.mpr
      refine ⟨kv, hkv, ?_⟩
      rw [if_pos]
      · rw [hkvp]
      · subst hkvp
        refine ⟨hsel, ?_⟩
        rcases hdisj with ⟨fm, hfm, hne⟩ | hmt
        · exact Or.inl ((option_any_eq_true _ _).mpr ⟨fm, hfm, decide_eq_true hne⟩)
        · exact Or.inr hmt
    · apply List.mem_append.mpr
      right
      apply List.mem_filterMap.mpr
      exact ⟨(p, fm), hfm, by rw [if_pos ⟨hnone, hsel⟩]⟩

/-- A store with a single snapshot: time 100 over the whole filesystem,
containing only `/a` with mtime 50. -/
def c3Store : SnapshotStore :=
  ⟨[{ time := 100, paths := [[]], metadata := [(["a"], ⟨50, 1⟩)] }]⟩

/-- C3 counterexample: with `c3Store` and an explicit `from_time = 200`
matching no stored snapshot, the origin is the empty snapshot anchored at 200,
`/a` is present in the to-snapshot, within scope, and absent from the
from-snapshot — yet the diff result is empty, because an absent origin entry
alone does not mark a path: only `mtime > from_time` does, and 50 ≤ 200.
This refutes both the "absent from the from-snapshot ⇒ changed" part and the
"every currently-indexed path in scope is reported" part of the claim. -/
theorem C3_counterexample :
    get_snapshots c3Store (some 200) (some 100)
        = .ok ({ time := 200, paths := [[]], metadata := [] },
               { time := 100, paths := [[]], metadata := [(["a"], ⟨50, 1⟩)] })
      ∧ ScanHandler.diff c3Store (some 200) (some 100) [] = .ok [] := by
  constructor
  · rfl
  · rfl

/-- C3 (amended): for a path present in the to-snapshot and within the
comparison scope, diff marks it as changed iff it is present in the
from-snapshot with differing IndexMetadata, or its recorded mtime is strictly
newer than the from-snapshot's timestamp; absence from the from-snapshot alone
does not mark it.  When an explicit `from_time` matches no stored snapshot the
origin is treated as an empty snapshot anchored at that time, and a
currently-indexed path in scope is reported iff its recorded mtime is strictly
newer than that time. -/
theorem C3_diff_marking_amended :
    (∀ (f t : IndexSnapshot) (sel : List SysPath) (p : SysPath) (tm : IndexMetadata),
        (t.metadata.map Prod.fst).Nodup →
        (p, tm) ∈ t.metadata →
        is_path_selected sel p = true →
        (p ∈ calculate_diff f t sel ↔
          ((∃ fm, alistGet f.metadata p = some fm ∧ fm ≠ tm) ∨ tm.mtime > f.time)))
    ∧ (∀ (store : SnapshotStore) (t0 : Int) (tt : Option Int)
          (fromS toS : IndexSnapshot),
        store.get t0 = none →
        get_snapshots store (some t0) tt = .ok (fromS, toS) →
        fromS = { time := t0, paths := [[]], metadata := [] }
          ∧ ∀ (sel : List SysPath) (p : SysPath) (tm : IndexMetadata),
              (toS.metadata.map Prod.fst).Nodup →
              (p, tm) ∈ toS.metadata →
              is_path_selected sel p = true →
              (p ∈ calculate_diff fromS toS sel ↔ tm.mtime > t0)) := by
  have part1 : ∀ (f t : IndexSnapshot) (sel : List SysPath) (p : SysPath)
      (tm : IndexMetadata),
      (t.metadata.map Prod.fst).Nodup →
      (p, tm) ∈ t.metadata →
      is_path_selected sel p = true →
      (p ∈ calculate_diff f t sel ↔
        ((∃ fm, alistGet f.metadata p = some fm ∧ fm ≠ tm) ∨ tm.mtime > f.time)) := by
    intro f t sel p tm hnd hmem hsel
    rw [mem_calculate_diff]
    constructor
    · rintro (⟨kv, hkv, hkvp, _, hdisj⟩ | ⟨fm, _, hnone, _⟩)
      · have : kv = (p, tm) := by
          obtain ⟨k1, v1⟩ := kv
          cases hkvp
          have h1 := alistGet_of_mem_nodup t.metadata k1 v1 hnd hkv
          have h2 := alistGet_of_mem_nodup t.metadata k1 tm hnd hmem
          rw [h1] at h2
          cases h2
          rfl
        rw [this] at hdisj
        exact hdisj
      · exact absurd (alistGet_of_mem_nodup t.metadata p tm hnd hmem)
          (by rw [hnone]; exact fun h => Option.noConfusion h)
    · intro hdisj
      exact Or.inl ⟨(p, tm), hmem, rfl, hsel, hdisj⟩
  refine ⟨part1, ?_⟩
  intro store t0 tt fromS toS hget hok
  have hfrom : fromS = { time := t0, paths := [[]], metadata := [] } := by
    cases hl : store.times.getLast? with
    | none => simp [get_snapshots, hl] at hok
    | some tLast =>
      cases tt with
      | none =>
        cases hres : store.get tLast with
        | none => simp [get_snapshots, hl, hres] at hok
        | some s =>
          simp [get_snapshots, hl, hres, hget] at hok
          exact hok.1.symm
      | some t =>
        cases hres : store.get t with
        | none => simp [get_snapshots, hl, hres] at hok
        | some s =>
          simp [get_snapshots, hl, hres, hget] at hok
          exact hok.1.symm
  subst hfrom
  refine ⟨rfl, ?_⟩
  intro sel p tm hnd hmem hsel
  rw [part1 _ _ sel p tm hnd hmem hsel]
  simp [alistGet]

/-- C3 witness: instantiating the amended characterization on `c3Store`'s
snapshot, with the empty origin anchored at `from_time = 200`, the path `/a`
(mtime 50) is reported iff 50 > 200, i.e. not reported. -/
theorem C3_diff_marking_amended_witness :
    ¬ (["a"] ∈ calculate_diff { time := 200, paths := [[]], metadata := [] }
        { time := 100, paths := [[]], metadata := [(["a"], ⟨50, 1⟩)] } [[]]) := by
  have h := (C3_diff_marking_amended.2 c3Store 200 (some 100)
      { time := 200, paths := [[]], metadata := [] }
      { time := 100, paths := [[]], metadata := [(["a"], ⟨50, 1⟩)] }
      (by decide) C3_counterexample.1).2 [[]] ["a"] ⟨50, 1⟩
      (by decide) (by decide) (by decide)
  rw [h]
  decide

/-! ## Filesystem model and the backup engine (`BackupHandler`)

The live filesystem is a finite tree.  A node's `st = none` models a path whose
`stat` raises an error other than `FileNotFoundError`; `children = none` models
a directory whose `iterdir` raises; a path that does not resolve models
`FileNotFoundError`.  The per-run stat cache of `_stat_path` is semantically
transparent here because the model filesystem does not change during a walk. -/

/-- A filesystem subtree: optional stat data and optional named children. -/
inductive FSTree where
  | mk (st : Option StatResult) (children : Option (List (String × FSTree)))
deriving Repr

/-- Stat data at this node. -/
def FSTree.st : FSTree → Option StatResult
  | .mk s _ => s

/-- Children of this node, `none` when listing the directory raises. -/
def FSTree.children : FSTree → Option (List (String × FSTree))
  | .mk _ c => c

/-- Child lookup by name (directory entries have unique names on a real
filesystem; `FSTree.wfB` captures that). -/
def childLookup (cs : List (String × FSTree)) (n : String) : Option FSTree :=
  (cs.find? (fun c => c.1 == n)).map (·.2)

/-- Resolve a path in a subtree. -/
def FSTree.resolve (t : FSTree) : SysPath → Option FSTree
  | [] => some t
  | n :: rest =>
    match t.children with
    | none => none
    | some cs =>
      match childLookup cs n with
      | none => none
      | some c => FSTree.resolve c rest

mutual
/-- Well-formedness of the filesystem model: sibling names are distinct,
recursively. -/
def FSTree.wfB : FSTree → Bool
  | .mk _ none => true
  | .mk _ (some cs) => decide (cs.map Prod.fst).Nodup && wfChildren cs
termination_by t => sizeOf t

/-- Well-formedness of a children list. -/
def wfChildren : List (String × FSTree) → Bool
  | [] => true
  | (_, c) :: rest => FSTree.wfB c && wfChildren rest
termination_by cs => sizeOf cs
end

/-- The children listing at a path. -/
def childrenAt (fs : FSTree) (p : SysPath) : Option (List (String × FSTree)) :=
  (fs.resolve p).bind FSTree.children

/-- `BackupHandler._stat_path`: `none` for a vanished path
(`FileNotFoundError`), a stat error (reported and swallowed), or an
unsupported file type (reported and swallowed); `some` otherwise. -/
def statPath (fs : FSTree) (p : SysPath) : Option StatResult :=
  match fs.resolve p with
  | none => none
  | some t =>
    match t.st with
    | none => none
    | some r => if is_supported_type r then some r else none

/-- The system user/group database plus the invoking real ids
(`get_real_uid`/`get_real_gid`, `pwd`/`grp` lookups). -/
structure Sys where
  real_uid : Nat
  real_gid : Nat
  user_names : Nat → Option String
  group_names : Nat → Option String
  user_ids : String → Option Nat
  group_ids : String → Option Nat

/-- `_resolve_system_user` on the integer `st_uid` values the backup walk
feeds it: `None` for the invoking real user and for ids without a passwd
entry, else the user name.  (The memo dictionary is transparent: resolution is
pure.) -/
def resolve_system_user (sys : Sys) (uid : Nat) : Option String :=
  if uid = sys.real_uid then none else sys.user_names uid

/-- `_resolve_system_group`, as `_resolve_system_user`. -/
def resolve_system_group (sys : Sys) (gid : Nat) : Option String :=
  if gid = sys.real_gid then none else sys.group_names gid

/-- `_generate_archive_path`: the anchor-stripped posix string, directories
with a trailing separator. -/
def generate_archive_path (p : SysPath) (st_mode : Nat) : String :=
  if S_ISDIR st_mode then String.intercalate "/" p ++ "/"
  else String.intercalate "/" p

/-- `BackupHandler._generate_archive_metadata`. -/
def generate_archive_metadata (sys : Sys) (p : SysPath) (st : StatResult) :
    ArchiveMetadata :=
  { group := resolve_system_group sys st.st_gid
    mode := st.st_mode
    mtime_ns := st.st_mtime_ns
    path := generate_archive_path p st.st_mode
    size := st.st_size
    user := resolve_system_user sys st.st_uid }

/-- The metadata `_scan_path_metadata` computes for a path (`none` when the
probe fails): the pure value every `archive_metadata` entry carries. -/
def mdOf (sys : Sys) (fs : FSTree) (p : SysPath) : Option ArchiveMetadata :=
  (statPath fs p).map (generate_archive_metadata sys p)

/-- The exclusion configuration of a handler: explicit paths plus compiled
regex patterns, each pattern modelled by the predicate it denotes. -/
structure Excl where
  paths : List SysPath
  patterns : List (SysPath → Bool)

/-- `BaseArchiveHandler._is_path_excluded`. -/
def is_path_excluded (e : Excl) (p : SysPath) : Bool :=
  decide (p ∈ e.paths) || e.patterns.any (fun pat => pat p)

/-- The handler exclusion set built in `BackupHandler.__init__` /
`RestoreHandler.__init__`: the user-configured paths plus, unconditionally,
the configuration directory and the archive target file. -/
def mkHandlerExcl (user : List SysPath) (pats : List (SysPath → Bool))
    (conf_dir target_path : SysPath) : Excl :=
  ⟨user ++ [conf_dir, target_path], pats⟩

/-- The mutable state of a `BackupHandler` walk: the metadata map (an
insertion-ordered association list, keys inserted at most once), the worthy
set `result`, and the visited-set `scan_cache`. -/
structure BackupState where
  archive_metadata : List (SysPath × Option ArchiveMetadata)
  result : List SysPath
  scan_cache : List SysPath
deriving Repr

/-- `set.add`. -/
def resultAdd (l : List SysPath) (p : SysPath) : List SysPath :=
  if p ∈ l then l else l ++ [p]

/-- `set.discard`. -/
def resultDiscard (l : List SysPath) (p : SysPath) : List SysPath :=
  l.filter (fun q => decide (q ≠ p))

/-- `BackupPath.get_parent`: a parent node exists exactly for paths with at
least two components (the parent of a top-level path is the anchor, whose own
parent is itself, which the source treats as "no parent"). -/
def get_parent (p : SysPath) : Option SysPath :=
  if 2 ≤ p.length then some p.dropLast else none

/-- `BackupHandler._scan_path_metadata`: return the cached entry, else first
resolve the parent's metadata, then record this path's probe result (possibly
`none`) in the map. -/
def scan_path_metadata (sys : Sys) (fs : FSTree) (p : SysPath) (σ : BackupState) :
    BackupState × Option ArchiveMetadata :=
  match alistGet σ.archive_metadata p with
  | some md => (σ, md)
  | none =>
    let σ1 := match h : get_parent p with
      | some par => (scan_path_metadata sys fs par σ).1
      | none => σ
    let md := mdOf sys fs p
    ({ σ1 with archive_metadata := σ1.archive_metadata ++ [(p, md)] }, md)
termination_by p.length
decreasing_by
  simp only [get_parent] at h
  split at h
  · cases h
    rename_i h2
    have := List.length_dropLast p
    omega
  · cases h

mutual
/-- `BackupHandler._scan_path`.  `t` is the subtree of `fs` at `p` (callers
pass `fs.resolve p`, or the structurally matching child node); it feeds the
directory listing, while stat probing goes through `fs` as in the source. -/
def scan_path (sys : Sys) (fs : FSTree) (e : Excl) (t : Option FSTree)
    (p : SysPath) (σ : BackupState) : BackupState :=
  if p ∈ σ.scan_cache then σ
  else
    let σ := { σ with scan_cache := σ.scan_cache ++ [p] }
    if is_path_excluded e p then σ
    else
      let sm := scan_path_metadata sys fs p σ
      match sm.2 with
      | none => sm.1
      | some md =>
        if S_ISDIR md.mode then
          match t with
          | none => sm.1
          | some (.mk _ none) => sm.1
          | some (.mk _ (some cs)) =>
              let σ2 := scan_children sys fs e cs p sm.1
              if cs.all (fun c => decide ((p ++ [c.1]) ∈ σ2.result)) then
                { σ2 with result :=
                    resultAdd (cs.foldl (fun r c => resultDiscard r (p ++ [c.1]))
                      σ2.result) p }
              else σ2
        else { sm.1 with result := resultAdd sm.1.result p }
termination_by sizeOf t

/-- The per-child loop of `BackupHandler._scan_dir`. -/
def scan_children (sys : Sys) (fs : FSTree) (e : Excl)
    (cs : List (String × FSTree)) (p : SysPath) (σ : BackupState) : BackupState :=
  match cs with
  | [] => σ
  | (n, c) :: rest =>
    scan_children sys fs e rest p (scan_path sys fs e (some c) (p ++ [n]) σ)
termination_by sizeOf cs
end

/-- The walk phase of `BackupHandler.backup`: scan every tracked path from the
empty run state. -/
def backup_scan (sys : Sys) (fs : FSTree) (e : Excl) (tracked : List SysPath) :
    BackupState :=
  tracked.foldl (fun σ r => scan_path sys fs e (fs.resolve r) r σ) ⟨[], [], []⟩

/-- The null-stripping comprehension in `BackupHandler.backup`. -/
def strip_none (m : List (SysPath × Option ArchiveMetadata)) :
    List (SysPath × ArchiveMetadata) :=
  m.filterMap (fun kv => kv.2.map (fun v => (kv.1, v)))

/-- Python dict equality between two ArchiveMetadata maps (same key set,
values equal under `ArchiveMetadata.__eq__`); `_is_archive_changed` is its
negation. -/
def am_dict_eq (m1 m2 : List (SysPath × ArchiveMetadata)) : Bool :=
  m1.all (fun kv =>
    match alistGet m2 kv.1 with
    | some v => ArchiveMetadata.beq kv.2 v
    | none => false)
  && m2.all (fun kv => (alistGet m1 kv.1).isSome)

/-- The externally visible outcome of one `BackupHandler.backup` run. -/
structure BackupOutcome where
  /-- The ArchiveMetadata map persisted after the run. -/
  persisted : List (SysPath × ArchiveMetadata)
  /-- Whether `_generate_archive` ran (an archive file was written). -/
  archive_written : Bool
  /-- Whether the pre-existing archive file was deleted first (`force`). -/
  archive_deleted : Bool
  /-- The worthy set `self.result` produced by the walk. -/
  worthy : List SysPath
deriving Repr, DecidableEq

/-- `BackupHandler.backup`: walk, strip null entries, then regenerate the
archive (force-deleting the old file when `force`) exactly when `force` is set
or the fresh map differs from the persisted one. -/
def backup_run (sys : Sys) (fs : FSTree) (e : Excl) (tracked : List SysPath)
    (persisted : List (SysPath × ArchiveMetadata)) (force : Bool) :
    BackupOutcome :=
  let σ := backup_scan sys fs e tracked
  let fresh := strip_none σ.archive_metadata
  if force || !am_dict_eq fresh persisted then
    { persisted := fresh, archive_written := true, archive_deleted := force
      worthy := σ.result }
  else
    { persisted := persisted, archive_written := false, archive_deleted := false
      worthy := σ.result }

/-! ## Path and filesystem lemmas -/

/-- `a` is an initial segment of `b`. -/
def pfx (a b : SysPath) : Prop := ∃ r, a ++ r = b

theorem pfx_self (a : SysPath) : pfx a a := ⟨[], by simp⟩

theorem pfx_dropLast (p : SysPath) : pfx p.dropLast p := by
  cases h : p.getLast? with
  | none => simp [List.getLast?_eq_none_iff.mp h, pfx]
  | some x =>
    exact ⟨[x], List.dropLast_append_getLast? x h⟩

theorem pfx_snoc_cases (a q : SysPath) (n : String) (h : pfx a (q ++ [n])) :
    pfx a q ∨ a = q ++ [n] := by
  obtain ⟨r, hr⟩ := h
  cases r using List.reverseRecOn with
  | nil => right; simpa using hr
  | append_singleton r2 x _ =>
    left
    refine ⟨r2, ?_⟩
    have : a ++ (r2 ++ [x]) = q ++ [n] := hr
    rw [← List.append_assoc] at this
    have h2 := List.append_inj' this rfl
    exact h2.1

theorem pfx_length_le (a b : SysPath) (h : pfx a b) : a.length ≤ b.length := by
  obtain ⟨r, hr⟩ := h
  subst hr
  simp

/-- Resolution distributes over path concatenation. -/
theorem resolve_append (t : FSTree) (p q : SysPath) :
    t.resolve (p ++ q) = (t.resolve p).bind (fun u => u.resolve q) := by
  induction p generalizing t with
  | nil => simp [FSTree.resolve]
  | cons n rest ih =>
    cases t with
    | mk st cs =>
      cases cs with
      | none => simp [FSTree.resolve, FSTree.children]
      | some l =>
        simp only [List.cons_append, FSTree.resolve, FSTree.children]
        cases childLookup l n with
        | none => simp
        | some c => simpa using ih c

theorem childLookup_of_mem_nodup (cs : List (String × FSTree)) (n : String)
    (c : FSTree) (hnd : (cs.map Prod.fst).Nodup) (h : (n, c) ∈ cs) :
    childLookup cs n = some c := by
  induction cs with
  | nil => simp at h
  | cons kv rest ih =>
    obtain ⟨n2, c2⟩ := kv
    rw [List.map_cons, List.nodup_cons] at hnd
    rcases List.mem_cons.mp h with heq | hmem
    · cases heq
      simp [childLookup]
    · have hb : (n2 == n) = false := by
        apply beq_eq_false_iff_ne.mpr
        intro heq
        subst heq
        exact hnd.1 (List.mem_map.mpr ⟨(n2, c), hmem, rfl⟩)
      simp only [childLookup, List.find?, hb]
      simpa [childLookup] using ih hnd.2 hmem

theorem wfChildren_mem (cs : List (String × FSTree)) (h : wfChildren cs = true) :
    ∀ kv ∈ cs, FSTree.wfB kv.2 = true := by
  induction cs with
  | nil => simp
  | cons kv rest ih =>
    obtain ⟨n, c⟩ := kv
    rw [wfChildren, Bool.and_eq_true] at h
    intro kv2 hm
    rcases List.mem_cons.mp hm with heq | hmem
    · subst heq
      exact h.1
    · exact ih h.2 kv2 hmem

theorem wfB_children (t : FSTree) (cs : List (String × FSTree))
    (hwf : t.wfB = true) (h : t.children = some cs) :
    (cs.map Prod.fst).Nodup ∧ ∀ kv ∈ cs, FSTree.wfB kv.2 = true := by
  cases t with
  | mk st c =>
    cases c <;> simp [FSTree.children] at h
    subst h
    rw [FSTree.wfB, Bool.and_eq_true] at hwf
    exact ⟨by simpa using hwf.1, wfChildren_mem _ hwf.2⟩

theorem wfB_resolve (t : FSTree) (p : SysPath) (u : FSTree)
    (hwf : t.wfB = true) (h : t.resolve p = some u) : u.wfB = true := by
  induction p generalizing t with
  | nil =>
    simp [FSTree.resolve] at h
    subst h
    exact hwf
  | cons n rest ih =>
    cases t with
    | mk st cs =>
      cases cs with
      | none => simp [FSTree.resolve, FSTree.children] at h
      | some l =>
        simp only [FSTree.resolve, FSTree.children] at h
        cases hc : childLookup l n with
        | none => rw [hc] at h; cases h
        | some c =>
          rw [hc] at h
          obtain ⟨kv, hfind, hkv2⟩ :
              ∃ kv, l.find? (fun x => x.1 == n) = some kv ∧ kv.2 = c := by
            cases hf : l.find? (fun x => x.1 == n) with
            | none => simp [childLookup, hf] at hc
            | some kv =>
              simp [childLookup, hf] at hc
              exact ⟨kv, rfl, hc⟩
          have hkvmem := (find?_some_pred _ _ _ hfind).2
          have hwfc : FSTree.wfB kv.2 = true :=
            (wfB_children (.mk st (some l)) l hwf rfl).2 kv hkvmem
          rw [hkv2] at hwfc
          exact ih c hwfc h

/-- Resolving one step down into a well-formed listing. -/
theorem resolve_snoc (fs : FSTree) (p : SysPath) (node : FSTree)
    (cs : List (String × FSTree)) (n : String) (c : FSTree)
    (hres : fs.resolve p = some node) (hcs : node.children = some cs)
    (hnd : (cs.map Prod.fst).Nodup) (hmem : (n, c) ∈ cs) :
    fs.resolve (p ++ [n]) = some c := by
  rw [resolve_append, hres]
  show FSTree.resolve node [n] = some c
  cases node with
  | mk st ch =>
    cases ch with
    | none => simp [FSTree.children] at hcs
    | some l =>
      simp [FSTree.children] at hcs
      subst hcs
      simp only [FSTree.resolve, FSTree.children]
      rw [childLookup_of_mem_nodup l n c hnd hmem]

/-! ## Backup-walk invariants -/

/-- Every metadata-map entry's value is the pure probe result of its key. -/
def AmConsistent (sys : Sys) (fs : FSTree)
    (m : List (SysPath × Option ArchiveMetadata)) : Prop :=
  ∀ kv ∈ m, kv.2 = mdOf sys fs kv.1

theorem mem_resultAdd (l : List SysPath) (p x : SysPath) :
    x ∈ resultAdd l p ↔ x ∈ l ∨ x = p := by
  by_cases h : p ∈ l
  · simp only [resultAdd, if_pos h]
    constructor
    · exact Or.inl
    · rintro (hx | rfl)
      · exact hx
      · exact h
  · simp [resultAdd, if_neg h]

theorem mem_resultDiscard (l : List SysPath) (q x : SysPath) :
    x ∈ resultDiscard l q ↔ x ∈ l ∧ x ≠ q := by
  simp [resultDiscard]

theorem mem_discardAll (cs : List (String × FSTree)) (p : SysPath)
    (l : List SysPath) (x : SysPath)
    (h : x ∈ cs.foldl (fun r c => resultDiscard r (p ++ [c.1])) l) : x ∈ l := by
  induction cs generalizing l with
  | nil => simpa using h
  | cons c rest ih =>
    have := ih (resultDiscard l (p ++ [c.1])) (by simpa using h)
    exact (mem_resultDiscard _ _ _ |>.mp this).1

theorem alistGet_isSome_of_mem {κ α : Type} [DecidableEq κ]
    (m : List (κ × α)) (k : κ) (v : α) (h : (k, v) ∈ m) :
    ∃ w, alistGet m k = some w := by
  induction m with
  | nil => simp at h
  | cons kv rest ih =>
    obtain ⟨k2, w2⟩ := kv
    by_cases hk : k2 = k
    · exact ⟨w2, by simp [alistGet, hk]⟩
    · rcases List.mem_cons.mp h with heq | hmem
      · cases heq; exact absurd rfl hk
      · obtain ⟨w, hw⟩ := ih hmem
        exact ⟨w, by simpa [alistGet, hk] using hw⟩

theorem mem_strip_none (m : List (SysPath × Option ArchiveMetadata))
    (k : SysPath) (v : ArchiveMetadata) :
    (k, v) ∈ strip_none m ↔ (k, some v) ∈ m := by
  simp only [strip_none, List.mem_filterMap]
  constructor
  · rintro ⟨kv, hkv, hmap⟩
    cases hv : kv.2 with
    | none => rw [hv] at hmap; cases hmap
    | some w =>
      rw [hv] at hmap
      simp at hmap
      obtain ⟨h1, h2⟩ := hmap
      have : kv = (k, some v) := by
        obtain ⟨a, b⟩ := kv
        simp at hv h1
        simp [h1, hv, h2]
      exact this ▸ hkv
  · intro h
    exact ⟨(k, some v), h, rfl⟩

/-- `_scan_path_metadata` does not touch the worthy set or the visit cache. -/
theorem spm_frame (sys : Sys) (fs : FSTree) (p : SysPath) (σ : BackupState) :
    (scan_path_metadata sys fs p σ).1.result = σ.result
    ∧ (scan_path_metadata sys fs p σ).1.scan_cache = σ.scan_cache := by
  induction p, σ using scan_path_metadata.induct sys fs with
  | case1 p σ md h => simp [scan_path_metadata, h]
  | case2 p σ h ih =>
    rw [scan_path_metadata]
    rw [h]
    cases hp : get_parent p with
    | none => simp
    | some par =>
      simp only
      exact ⟨(ih par hp).1, (ih par hp).2⟩

/-- `_scan_path_metadata` only appends to the metadata map. -/
theorem spm_am_mono (sys : Sys) (fs : FSTree) (p : SysPath) (σ : BackupState) :
    ∀ kv ∈ σ.archive_metadata, kv ∈ (scan_path_metadata sys fs p σ).1.archive_metadata := by
  induction p, σ using scan_path_metadata.induct sys fs with
  | case1 p σ md h => simp [scan_path_metadata, h]
  | case2 p σ h ih =>
    intro kv hkv
    rw [scan_path_metadata, h]
    cases hp : get_parent p with
    | none => simp [hkv]
    | some par =>
      simp only [List.mem_append]
      exact Or.inl (ih par hp kv hkv)

/-- Keys added by `_scan_path_metadata` are initial segments of the probed
path (the path itself or its ancestors). -/
theorem spm_keys_pfx (sys : Sys) (fs : FSTree) (p : SysPath) (σ : BackupState) :
    ∀ kv ∈ (scan_path_metadata sys fs p σ).1.archive_metadata,
      kv ∈ σ.archive_metadata ∨ pfx kv.1 p := by
  induction p, σ using scan_path_metadata.induct sys fs with
  | case1 p σ md h =>
    intro kv hkv
    rw [scan_path_metadata, h] at hkv
    exact Or.inl hkv
  | case2 p σ h ih =>
    intro kv hkv
    rw [scan_path_metadata, h] at hkv
    cases hp : get_parent p with
    | none =>
      rw [hp] at hkv
      simp only [List.mem_append, List.mem_singleton] at hkv
      rcases hkv with hkv | hkv
      · exact Or.inl hkv
      · subst hkv; exact Or.inr (pfx_self p)
    | some par =>
      rw [hp] at hkv
      simp only [List.mem_append, List.mem_singleton] at hkv
      rcases hkv with hkv | hkv
      · rcases ih par hp kv hkv with hm | hpfx
        · exact Or.inl hm
        · refine Or.inr ?_
          have hpar : par = p.dropLast := by
            simp only [get_parent] at hp
            split at hp
            · cases hp; rfl
            · cases hp
          obtain ⟨r, hr⟩ := hpfx
          obtain ⟨r2, hr2⟩ := pfx_dropLast p
          exact ⟨r ++ r2, by rw [← List.append_assoc, hr, hpar, hr2]⟩
      · subst hkv; exact Or.inr (pfx_self p)

/-- `_scan_path_metadata` keeps the map consistent and returns the pure probe
value for its path. -/
theorem spm_consistent (sys : Sys) (fs : FSTree) (p : SysPath) (σ : BackupState) :
    AmConsistent sys fs σ.archive_metadata →
    AmConsistent sys fs (scan_path_metadata sys fs p σ).1.archive_metadata
    ∧ (scan_path_metadata sys fs p σ).2 = mdOf sys fs p := by
  induction p, σ using scan_path_metadata.induct sys fs with
  | case1 p σ md h =>
    intro hc
    refine ⟨by simpa [scan_path_metadata, h] using hc, ?_⟩
    have hmem := alistGet_mem _ _ _ h
    have := hc (p, md) hmem
    simp [scan_path_metadata, h]
    exact this
  | case2 p σ h ih =>
    intro hc
    rw [scan_path_metadata, h]
    cases hp : get_parent p with
    | none =>
      refine ⟨?_, by simp⟩
      intro kv hkv
      simp only [List.mem_append, List.mem_singleton] at hkv
      rcases hkv with hkv | hkv
      · exact hc kv hkv
      · subst hkv; rfl
    | some par =>
      refine ⟨?_, by simp⟩
      intro kv hkv
      simp only [List.mem_append, List.mem_singleton] at hkv
      rcases hkv with hkv | hkv
      · exact (ih par hp hc).1 kv hkv
      · subst hkv; rfl

/-- After `_scan_path_metadata`, the probed path is a key of the map. -/
theorem spm_key_present (sys : Sys) (fs : FSTree) (p : SysPath) (σ : BackupState) :
    ∃ v, (p, v) ∈ (scan_path_metadata sys fs p σ).1.archive_metadata := by
  cases h : alistGet σ.archive_metadata p with
  | some md =>
    exact ⟨md, by simp [scan_path_metadata, h]; exact alistGet_mem _ _ _ h⟩
  | none =>
    rw [scan_path_metadata, h]
    cases hp : get_parent p with
    | none => exact ⟨mdOf sys fs p, by simp⟩
    | some par => exact ⟨mdOf sys fs p, by simp⟩



/-- The cache-push at the top of `_scan_path`. -/
def cachePush (σ : BackupState) (p : SysPath) : BackupState :=
  { σ with scan_cache := σ.scan_cache ++ [p] }

theorem scan_path_cached (sys : Sys) (fs : FSTree) (e : Excl) (t : Option FSTree)
    (p : SysPath) (σ : BackupState) (h : p ∈ σ.scan_cache) :
    scan_path sys fs e t p σ = σ := by
  rw [scan_path]
  simp [h]

theorem scan_path_excluded (sys : Sys) (fs : FSTree) (e : Excl) (t : Option FSTree)
    (p : SysPath) (σ : BackupState) (h1 : p ∉ σ.scan_cache)
    (h2 : is_path_excluded e p = true) :
    scan_path sys fs e t p σ = cachePush σ p := by
  rw [scan_path]
  simp [h1, h2, cachePush]

theorem scan_path_mdnone (sys : Sys) (fs : FSTree) (e : Excl) (t : Option FSTree)
    (p : SysPath) (σ : BackupState) (h1 : p ∉ σ.scan_cache)
    (h2 : is_path_excluded e p = false)
    (h3 : (scan_path_metadata sys fs p (cachePush σ p)).2 = none) :
    scan_path sys fs e t p σ = (scan_path_metadata sys fs p (cachePush σ p)).1 := by
  rw [scan_path]
  simp only [if_neg h1, h2, Bool.false_eq_true, if_false, cachePush] at h3 ⊢
  rw [h3]

theorem scan_path_file (sys : Sys) (fs : FSTree) (e : Excl) (t : Option FSTree)
    (p : SysPath) (σ : BackupState) (md : ArchiveMetadata) (h1 : p ∉ σ.scan_cache)
    (h2 : is_path_excluded e p = false)
    (h3 : (scan_path_metadata sys fs p (cachePush σ p)).2 = some md)
    (h4 : S_ISDIR md.mode = false) :
    scan_path sys fs e t p σ =
      { (scan_path_metadata sys fs p (cachePush σ p)).1 with
        result := resultAdd (scan_path_metadata sys fs p (cachePush σ p)).1.result p } := by
  rw [scan_path]
  simp only [if_neg h1, h2, Bool.false_eq_true, if_false, cachePush] at h3 ⊢
  rw [h3]
  simp [h4]

theorem scan_path_dir_tnone (sys : Sys) (fs : FSTree) (e : Excl)
    (p : SysPath) (σ : BackupState) (md : ArchiveMetadata) (h1 : p ∉ σ.scan_cache)
    (h2 : is_path_excluded e p = false)
    (h3 : (scan_path_metadata sys fs p (cachePush σ p)).2 = some md)
    (h4 : S_ISDIR md.mode = true) :
    scan_path sys fs e none p σ = (scan_path_metadata sys fs p (cachePush σ p)).1 := by
  rw [scan_path]
  simp only [if_neg h1, h2, Bool.false_eq_true, if_false, cachePush] at h3 ⊢
  rw [h3]
  simp [h4]

theorem scan_path_dir_nokids (sys : Sys) (fs : FSTree) (e : Excl)
    (p : SysPath) (σ : BackupState) (md : ArchiveMetadata) (st : Option StatResult)
    (h1 : p ∉ σ.scan_cache) (h2 : is_path_excluded e p = false)
    (h3 : (scan_path_metadata sys fs p (cachePush σ p)).2 = some md)
    (h4 : S_ISDIR md.mode = true) :
    scan_path sys fs e (some (.mk st none)) p σ
      = (scan_path_metadata sys fs p (cachePush σ p)).1 := by
  rw [scan_path]
  simp only [if_neg h1, h2, Bool.false_eq_true, if_false, cachePush] at h3 ⊢
  rw [h3]
  simp [h4]

theorem scan_path_dir (sys : Sys) (fs : FSTree) (e : Excl)
    (p : SysPath) (σ : BackupState) (md : ArchiveMetadata) (st : Option StatResult)
    (cs : List (String × FSTree))
    (h1 : p ∉ σ.scan_cache) (h2 : is_path_excluded e p = false)
    (h3 : (scan_path_metadata sys fs p (cachePush σ p)).2 = some md)
    (h4 : S_ISDIR md.mode = true) :
    scan_path sys fs e (some (.mk st (some cs))) p σ =
      (let σ2 := scan_children sys fs e cs p
          (scan_path_metadata sys fs p (cachePush σ p)).1
       if cs.all (fun c => decide ((p ++ [c.1]) ∈ σ2.result)) then
         { σ2 with result :=
            resultAdd (cs.foldl (fun r c => resultDiscard r (p ++ [c.1])) σ2.result) p }
       else σ2) := by
  rw [scan_path]
  simp only [if_neg h1, h2, Bool.false_eq_true, if_false, cachePush] at h3 ⊢
  rw [h3]
  simp [h4]

theorem scan_children_nil (sys : Sys) (fs : FSTree) (e : Excl) (p : SysPath)
    (σ : BackupState) : scan_children sys fs e [] p σ = σ := by
  rw [scan_children]

theorem scan_children_cons (sys : Sys) (fs : FSTree) (e : Excl) (n : String)
    (c : FSTree) (rest : List (String × FSTree)) (p : SysPath) (σ : BackupState) :
    scan_children sys fs e ((n, c) :: rest) p σ
      = scan_children sys fs e rest p (scan_path sys fs e (some c) (p ++ [n]) σ) := by
  rw [scan_children]



/-- The basic run invariants of `_scan_path`: map values are probe-determined,
the worthy set never holds an excluded path, every non-excluded visited path
has a metadata entry; and the walk only grows the map and the visit cache. -/
def InvB (sys : Sys) (fs : FSTree) (e : Excl) (σ : BackupState) : Prop :=
  AmConsistent sys fs σ.archive_metadata
  ∧ (∀ x ∈ σ.result, is_path_excluded e x = false)
  ∧ (∀ x ∈ σ.scan_cache, is_path_excluded e x = false →
      ∃ v, (x, v) ∈ σ.archive_metadata)

theorem scan_basic (sys : Sys) (fs : FSTree) (e : Excl) :
    (∀ (t : Option FSTree) (p : SysPath) (σ : BackupState), InvB sys fs e σ →
      InvB sys fs e (scan_path sys fs e t p σ)
      ∧ (∀ kv ∈ σ.archive_metadata, kv ∈ (scan_path sys fs e t p σ).archive_metadata)
      ∧ (∀ x ∈ σ.scan_cache, x ∈ (scan_path sys fs e t p σ).scan_cache)
      ∧ p ∈ (scan_path sys fs e t p σ).scan_cache)
    ∧ (∀ (cs : List (String × FSTree)) (p : SysPath) (σ : BackupState), InvB sys fs e σ →
      InvB sys fs e (scan_children sys fs e cs p σ)
      ∧ (∀ kv ∈ σ.archive_metadata, kv ∈ (scan_children sys fs e cs p σ).archive_metadata)
      ∧ (∀ x ∈ σ.scan_cache, x ∈ (scan_children sys fs e cs p σ).scan_cache)) := by
  refine scan_path.mutual_induct sys fs e
    (fun t p σ => InvB sys fs e σ →
      InvB sys fs e (scan_path sys fs e t p σ)
      ∧ (∀ kv ∈ σ.archive_metadata, kv ∈ (scan_path sys fs e t p σ).archive_metadata)
      ∧ (∀ x ∈ σ.scan_cache, x ∈ (scan_path sys fs e t p σ).scan_cache)
      ∧ p ∈ (scan_path sys fs e t p σ).scan_cache)
    (fun cs p σ => InvB sys fs e σ →
      InvB sys fs e (scan_children sys fs e cs p σ)
      ∧ (∀ kv ∈ σ.archive_metadata, kv ∈ (scan_children sys fs e cs p σ).archive_metadata)
      ∧ (∀ x ∈ σ.scan_cache, x ∈ (scan_children sys fs e cs p σ).scan_cache))
    ?_ ?_ ?_ ?_ ?_ ?_ ?_ ?_ ?_ ?_
  · -- cached
    intro t p σ hin hInv
    rw [scan_path_cached sys fs e t p σ hin]
    exact ⟨hInv, fun kv h => h, fun x h => h, hin⟩
  · -- excluded
    intro t p σ hin hex hInv
    rw [scan_path_excluded sys fs e t p σ hin hex]
    obtain ⟨h1, h2, h3⟩ := hInv
    refine ⟨⟨h1, h2, ?_⟩, fun kv h => h, ?_, ?_⟩
    · intro x hx hxe
      rcases List.mem_append.mp hx with hx | hx
      · exact h3 x hx hxe
      · simp at hx
        subst hx
        rw [hex] at hxe
        cases hxe
    · intro x hx
      exact List.mem_append.mpr (Or.inl hx)
    · exact List.mem_append.mpr (Or.inr (by simp))
  · -- metadata none
    intro t p σ hin σ1 hex sm hnone hInv
    have hexf : is_path_excluded e p = false := by
      cases h : is_path_excluded e p
      · rfl
      · exact absurd h hex
    rw [scan_path_mdnone sys fs e t p σ hin hexf hnone]
    obtain ⟨h1, h2, h3⟩ := hInv
    have hframe := spm_frame sys fs p (cachePush σ p)
    have hmono := spm_am_mono sys fs p (cachePush σ p)
    have hcons := (spm_consistent sys fs p (cachePush σ p) h1).1
    refine ⟨⟨hcons, ?_, ?_⟩, ?_, ?_, ?_⟩
    · intro x hx
      rw [hframe.1] at hx
      exact h2 x hx
    · intro x hx hxe
      rw [hframe.2] at hx
      rcases List.mem_append.mp hx with hx | hx
      · obtain ⟨v, hv⟩ := h3 x hx hxe
        exact ⟨v, hmono _ hv⟩
      · simp at hx
        rw [hx]
        exact spm_key_present sys fs p (cachePush σ p)
    · exact fun kv h => hmono kv h
    · intro x hx
      rw [hframe.2]
      exact List.mem_append.mpr (Or.inl hx)
    · rw [hframe.2]
      exact List.mem_append.mpr (Or.inr (by simp))
  · -- dir with t = none
    intro p σ hin σ1 hex sm md hmd hdir hInv
    have hexf : is_path_excluded e p = false := by
      cases h : is_path_excluded e p
      · rfl
      · exact absurd h hex
    rw [scan_path_dir_tnone sys fs e p σ md hin hexf hmd hdir]
    obtain ⟨h1, h2, h3⟩ := hInv
    have hframe := spm_frame sys fs p (cachePush σ p)
    have hmono := spm_am_mono sys fs p (cachePush σ p)
    have hcons := (spm_consistent sys fs p (cachePush σ p) h1).1
    refine ⟨⟨hcons, ?_, ?_⟩, ?_, ?_, ?_⟩
    · intro x hx
      rw [hframe.1] at hx
      exact h2 x hx
    · intro x hx hxe
      rw [hframe.2] at hx
      rcases List.mem_append.mp hx with hx | hx
      · obtain ⟨v, hv⟩ := h3 x hx hxe
        exact ⟨v, hmono _ hv⟩
      · simp at hx
        rw [hx]
        exact spm_key_present sys fs p (cachePush σ p)
    · exact fun kv h => hmono kv h
    · intro x hx
      rw [hframe.2]
      exact List.mem_append.mpr (Or.inl hx)
    · rw [hframe.2]
      exact List.mem_append.mpr (Or.inr (by simp))
  · -- dir with children listing unavailable
    intro p σ hin σ1 hex sm md hmd hdir st hInv
    have hexf : is_path_excluded e p = false := by
      cases h : is_path_excluded e p
      · rfl
      · exact absurd h hex
    rw [scan_path_dir_nokids sys fs e p σ md st hin hexf hmd hdir]
    obtain ⟨h1, h2, h3⟩ := hInv
    have hframe := spm_frame sys fs p (cachePush σ p)
    have hmono := spm_am_mono sys fs p (cachePush σ p)
    have hcons := (spm_consistent sys fs p (cachePush σ p) h1).1
    refine ⟨⟨hcons, ?_, ?_⟩, ?_, ?_, ?_⟩
    · intro x hx
      rw [hframe.1] at hx
      exact h2 x hx
    · intro x hx hxe
      rw [hframe.2] at hx
      rcases List.mem_append.mp hx with hx | hx
      · obtain ⟨v, hv⟩ := h3 x hx hxe
        exact ⟨v, hmono _ hv⟩
      · simp at hx
        rw [hx]
        exact spm_key_present sys fs p (cachePush σ p)
    · exact fun kv h => hmono kv h
    · intro x hx
      rw [hframe.2]
      exact List.mem_append.mpr (Or.inl hx)
    · rw [hframe.2]
      exact List.mem_append.mpr (Or.inr (by simp))
  · -- dir, all children worthy
    intro p σ hin σ1 hex sm md hmd hdir st cs σ2 hall ih hInv
    have hsm : sm = scan_path_metadata sys fs p (cachePush σ p) := rfl
    have hσ2 : σ2 = scan_children sys fs e cs p
        (scan_path_metadata sys fs p (cachePush σ p)).1 := rfl
    rw [hsm] at hmd ih
    rw [hσ2] at hall
    have hexf : is_path_excluded e p = false := by
      cases h : is_path_excluded e p
      · rfl
      · exact absurd h hex
    rw [scan_path_dir sys fs e p σ md st cs hin hexf hmd hdir]
    simp only
    obtain ⟨h1, h2, h3⟩ := hInv
    have hframe := spm_frame sys fs p (cachePush σ p)
    have hmono := spm_am_mono sys fs p (cachePush σ p)
    have hcons := (spm_consistent sys fs p (cachePush σ p) h1).1
    have hInv1 : InvB sys fs e (scan_path_metadata sys fs p (cachePush σ p)).1 := by
      refine ⟨hcons, ?_, ?_⟩
      · intro x hx
        rw [hframe.1] at hx
        exact h2 x hx
      · intro x hx hxe
        rw [hframe.2] at hx
        rcases List.mem_append.mp hx with hx | hx
        · obtain ⟨v, hv⟩ := h3 x hx hxe
          exact ⟨v, hmono _ hv⟩
        · simp at hx
          rw [hx]
          exact spm_key_present sys fs p (cachePush σ p)
    obtain ⟨ihInv, ihAm, ihCache⟩ := ih hInv1
    rw [if_pos hall]
    obtain ⟨g1, g2, g3⟩ := ihInv
    refine ⟨⟨g1, ?_, g3⟩, ?_, ?_, ?_⟩
    · intro x hx
      rcases (mem_resultAdd _ _ _).mp hx with hx | hx
      · exact g2 x (mem_discardAll cs p _ x hx)
      · subst hx
        exact hexf
    · intro kv hkv
      exact ihAm kv (hmono kv hkv)
    · intro x hx
      refine ihCache x ?_
      rw [hframe.2]
      exact List.mem_append.mpr (Or.inl hx)
    · refine ihCache p ?_
      rw [hframe.2]
      exact List.mem_append.mpr (Or.inr (by simp))
  · -- dir, some child unworthy
    intro p σ hin σ1 hex sm md hmd hdir st cs σ2 hall ih hInv
    have hsm : sm = scan_path_metadata sys fs p (cachePush σ p) := rfl
    have hσ2 : σ2 = scan_children sys fs e cs p
        (scan_path_metadata sys fs p (cachePush σ p)).1 := rfl
    rw [hsm] at hmd ih
    rw [hσ2] at hall
    have hexf : is_path_excluded e p = false := by
      cases h : is_path_excluded e p
      · rfl
      · exact absurd h hex
    rw [scan_path_dir sys fs e p σ md st cs hin hexf hmd hdir]
    simp only
    obtain ⟨h1, h2, h3⟩ := hInv
    have hframe := spm_frame sys fs p (cachePush σ p)
    have hmono := spm_am_mono sys fs p (cachePush σ p)
    have hcons := (spm_consistent sys fs p (cachePush σ p) h1).1
    have hInv1 : InvB sys fs e (scan_path_metadata sys fs p (cachePush σ p)).1 := by
      refine ⟨hcons, ?_, ?_⟩
      · intro x hx
        rw [hframe.1] at hx
        exact h2 x hx
      · intro x hx hxe
        rw [hframe.2] at hx
        rcases List.mem_append.mp hx with hx | hx
        · obtain ⟨v, hv⟩ := h3 x hx hxe
          exact ⟨v, hmono _ hv⟩
        · simp at hx
          rw [hx]
          exact spm_key_present sys fs p (cachePush σ p)
    obtain ⟨ihInv, ihAm, ihCache⟩ := ih hInv1
    rw [if_neg hall]
    refine ⟨ihInv, ?_, ?_, ?_⟩
    · intro kv hkv
      exact ihAm kv (hmono kv hkv)
    · intro x hx
      refine ihCache x ?_
      rw [hframe.2]
      exact List.mem_append.mpr (Or.inl hx)
    · refine ihCache p ?_
      rw [hframe.2]
      exact List.mem_append.mpr (Or.inr (by simp))
  · -- non-directory: add to the worthy set
    intro t p σ hin σ1 hex sm md hmd hndir hInv
    have hexf : is_path_excluded e p = false := by
      cases h : is_path_excluded e p
      · rfl
      · exact absurd h hex
    have hdirf : S_ISDIR md.mode = false := by
      cases h : S_ISDIR md.mode
      · rfl
      · exact absurd h hndir
    rw [scan_path_file sys fs e t p σ md hin hexf hmd hdirf]
    obtain ⟨h1, h2, h3⟩ := hInv
    have hframe := spm_frame sys fs p (cachePush σ p)
    have hmono := spm_am_mono sys fs p (cachePush σ p)
    have hcons := (spm_consistent sys fs p (cachePush σ p) h1).1
    refine ⟨⟨hcons, ?_, ?_⟩, ?_, ?_, ?_⟩
    · intro x hx
      rcases (mem_resultAdd _ _ _).mp hx with hx | hx
      · rw [hframe.1] at hx
        exact h2 x hx
      · subst hx
        exact hexf
    · intro x hx hxe
      rw [hframe.2] at hx
      rcases List.mem_append.mp hx with hx | hx
      · obtain ⟨v, hv⟩ := h3 x hx hxe
        exact ⟨v, hmono _ hv⟩
      · simp at hx
        rw [hx]
        exact spm_key_present sys fs p (cachePush σ p)
    · exact fun kv h => hmono kv h
    · intro x hx
      rw [hframe.2]
      exact List.mem_append.mpr (Or.inl hx)
    · rw [hframe.2]
      exact List.mem_append.mpr (Or.inr (by simp))
  · -- children: nil
    intro p σ hInv
    rw [scan_children_nil]
    exact ⟨hInv, fun kv h => h, fun x h => h⟩
  · -- children: cons
    intro p σ n c rest ih1 ih2 hInv
    rw [scan_children_cons]
    obtain ⟨p1, p2, p3, _⟩ := ih1 hInv
    obtain ⟨q1, q2, q3⟩ := ih2 p1
    exact ⟨q1, fun kv h => q2 kv (p2 kv h), fun x h => q3 x (p3 x h)⟩

theorem foldl_scan_inv (sys : Sys) (fs : FSTree) (e : Excl) (l : List SysPath)
    (σ : BackupState) (h : InvB sys fs e σ) :
    InvB sys fs e (l.foldl (fun σ r => scan_path sys fs e (fs.resolve r) r σ) σ) := by
  induction l generalizing σ with
  | nil => simpa using h
  | cons r rest ih =>
    exact ih _ (((scan_basic sys fs e).1 _ _ _ h).1)

theorem backup_scan_inv (sys : Sys) (fs : FSTree) (e : Excl) (tracked : List SysPath) :
    InvB sys fs e (backup_scan sys fs e tracked) := by
  rw [backup_scan]
  exact foldl_scan_inv sys fs e tracked _ ⟨by simp [AmConsistent], by simp, by simp⟩

theorem ArchiveMetadata.beq_refl (a : ArchiveMetadata) :
    ArchiveMetadata.beq a a = true := by
  simp [ArchiveMetadata.beq]

/-- A probe-consistent map compares equal to itself under dict equality with
`ArchiveMetadata.__eq__`, duplicates notwithstanding (duplicate keys carry
identical probe-determined values). -/
theorem am_dict_eq_self (sys : Sys) (fs : FSTree)
    (m : List (SysPath × Option ArchiveMetadata)) (hc : AmConsistent sys fs m) :
    am_dict_eq (strip_none m) (strip_none m) = true := by
  rw [am_dict_eq, Bool.and_eq_true]
  constructor
  · rw [List.all_eq_true]
    intro kv hkv
    have hkv2 : (kv.1, kv.2) ∈ strip_none m := by
      obtain ⟨a, b⟩ := kv
      exact hkv
    obtain ⟨w, hw⟩ := alistGet_isSome_of_mem _ kv.1 kv.2 hkv2
    have hwmem := alistGet_mem _ _ _ hw
    have h1 : (some kv.2 : Option ArchiveMetadata) = mdOf sys fs kv.1 :=
      hc (kv.1, some kv.2) ((mem_strip_none m kv.1 kv.2).mp hkv2)
    have h2 : (some w : Option ArchiveMetadata) = mdOf sys fs kv.1 :=
      hc (kv.1, some w) ((mem_strip_none m kv.1 w).mp hwmem)
    have : w = kv.2 := by
      rw [← h1] at h2
      exact (Option.some_inj.mp h2)
    subst this
    simp [hw, ArchiveMetadata.beq_refl]
  · rw [List.all_eq_true]
    intro kv hkv
    have hkv2 : (kv.1, kv.2) ∈ strip_none m := by
      obtain ⟨a, b⟩ := kv
      exact hkv
    obtain ⟨w, hw⟩ := alistGet_isSome_of_mem _ kv.1 kv.2 hkv2
    simp [hw]

/-- C1: backup is idempotent.  (1) A `backup(force=False)` run whose freshly
computed ArchiveMetadata map (null entries stripped) equals the persisted map
under `ArchiveMetadata.__eq__` dict equality writes no archive, deletes
nothing, and leaves the persisted map in place.  (2) Running `backup(False)`
twice with no filesystem change in between produces no second archive write.
(3) `backup(force=True)` always removes the pre-existing archive file,
replaces the persisted map with the fresh one, and regenerates the archive,
changed or not. -/
theorem C1_backup_idempotence (sys : Sys) (fs : FSTree) (e : Excl)
    (tracked : List SysPath) (persisted : List (SysPath × ArchiveMetadata)) :
    (am_dict_eq (strip_none (backup_scan sys fs e tracked).archive_metadata)
        persisted = true →
      backup_run sys fs e tracked persisted false
        = { persisted := persisted, archive_written := false,
            archive_deleted := false,
            worthy := (backup_scan sys fs e tracked).result })
    ∧ (backup_run sys fs e tracked
        (backup_run sys fs e tracked persisted false).persisted
        false).archive_written = false
    ∧ ((backup_run sys fs e tracked persisted true).archive_deleted = true
        ∧ (backup_run sys fs e tracked persisted true).archive_written = true
        ∧ (backup_run sys fs e tracked persisted true).persisted
            = strip_none (backup_scan sys fs e tracked).archive_metadata) := by
  refine ⟨?_, ?_, ?_, ?_, ?_⟩
  · intro h
    simp [backup_run, h]
  · by_cases h : am_dict_eq
        (strip_none (backup_scan sys fs e tracked).archive_metadata) persisted = true
    · simp [backup_run, h]
    · have hself := am_dict_eq_self sys fs _ (backup_scan_inv sys fs e tracked).1
      simp [backup_run, h, hself]
  · simp [backup_run]
  · simp [backup_run]
  · simp [backup_run]

/-- Unfold lemma: `_scan_path_metadata` on a cached path. -/
theorem spm_cached (sys : Sys) (fs : FSTree) (p : SysPath) (σ : BackupState)
    (md : Option ArchiveMetadata) (h : alistGet σ.archive_metadata p = some md) :
    scan_path_metadata sys fs p σ = (σ, md) := by
  rw [scan_path_metadata, h]

/-- Unfold lemma: `_scan_path_metadata` on an uncached top-level path. -/
theorem spm_root (sys : Sys) (fs : FSTree) (p : SysPath) (σ : BackupState)
    (h1 : alistGet σ.archive_metadata p = none) (h2 : get_parent p = none) :
    scan_path_metadata sys fs p σ
      = ({ σ with archive_metadata := σ.archive_metadata ++ [(p, mdOf sys fs p)] },
         mdOf sys fs p) := by
  rw [scan_path_metadata, h1]
  split
  · rename_i md hmd
    cases hmd
  · split
    · rename_i par hpar
      rw [h2] at hpar
      cases hpar
    · rfl

/-- Unfold lemma: `_scan_path_metadata` on an uncached nested path. -/
theorem spm_step (sys : Sys) (fs : FSTree) (p par : SysPath) (σ : BackupState)
    (h1 : alistGet σ.archive_metadata p = none) (h2 : get_parent p = some par) :
    scan_path_metadata sys fs p σ
      = (let σ1 := (scan_path_metadata sys fs par σ).1
         ({ σ1 with archive_metadata := σ1.archive_metadata ++ [(p, mdOf sys fs p)] },
          mdOf sys fs p)) := by
  rw [scan_path_metadata, h1]
  split
  · rename_i md hmd
    cases hmd
  · split
    · rename_i par2 hpar
      rw [h2] at hpar
      cases hpar
      rfl
    · rename_i hpar
      rw [h2] at hpar
      cases hpar

/-- A directory that has at least one excluded child — in particular one whose
only contents are excluded — is never added to the worthy set by the walk. -/
theorem scan_bad_dir (sys : Sys) (fs : FSTree) (e : Excl) (b : SysPath)
    (hwf : fs.wfB = true)
    (hmdb : ∃ mdb, mdOf sys fs b = some mdb ∧ S_ISDIR mdb.mode = true)
    (hkids : ∃ node cs0, fs.resolve b = some node ∧ node.children = some cs0
      ∧ ∃ nc ∈ cs0, is_path_excluded e (b ++ [nc.1]) = true) :
    (∀ (t : Option FSTree) (p : SysPath) (σ : BackupState),
      t = fs.resolve p → InvB sys fs e σ → b ∉ σ.result →
      b ∉ (scan_path sys fs e t p σ).result)
    ∧ (∀ (cs : List (String × FSTree)) (p : SysPath) (σ : BackupState),
      (∀ nc ∈ cs, fs.resolve (p ++ [nc.1]) = some nc.2) → InvB sys fs e σ →
      b ∉ σ.result → b ∉ (scan_children sys fs e cs p σ).result) := by
  refine scan_path.mutual_induct sys fs e
    (fun t p σ => t = fs.resolve p → InvB sys fs e σ → b ∉ σ.result →
      b ∉ (scan_path sys fs e t p σ).result)
    (fun cs p σ => (∀ nc ∈ cs, fs.resolve (p ++ [nc.1]) = some nc.2) →
      InvB sys fs e σ → b ∉ σ.result →
      b ∉ (scan_children sys fs e cs p σ).result)
    ?_ ?_ ?_ ?_ ?_ ?_ ?_ ?_ ?_ ?_
  · -- cached
    intro t p σ hin ht hInv hb
    rw [scan_path_cached sys fs e t p σ hin]
    exact hb
  · -- excluded
    intro t p σ hin hex ht hInv hb
    rw [scan_path_excluded sys fs e t p σ hin hex]
    exact hb
  · -- metadata none
    intro t p σ hin σ1 hex sm hnone ht hInv hb
    have hexf : is_path_excluded e p = false := by
      cases h : is_path_excluded e p
      · rfl
      · exact absurd h hex
    rw [scan_path_mdnone sys fs e t p σ hin hexf hnone]
    rw [(spm_frame sys fs p (cachePush σ p)).1]
    exact hb
  · -- dir, t = none
    intro p σ hin σ1 hex sm md hmd hdir ht hInv hb
    have hexf : is_path_excluded e p = false := by
      cases h : is_path_excluded e p
      · rfl
      · exact absurd h hex
    rw [scan_path_dir_tnone sys fs e p σ md hin hexf hmd hdir]
    rw [(spm_frame sys fs p (cachePush σ p)).1]
    exact hb
  · -- dir, children unavailable
    intro p σ hin σ1 hex sm md hmd hdir st ht hInv hb
    have hexf : is_path_excluded e p = false := by
      cases h : is_path_excluded e p
      · rfl
      · exact absurd h hex
    rw [scan_path_dir_nokids sys fs e p σ md st hin hexf hmd hdir]
    rw [(spm_frame sys fs p (cachePush σ p)).1]
    exact hb
  · -- dir, all children worthy
    intro p σ hin σ1 hex sm md hmd hdir st cs σ2 hall ih ht hInv hb
    have hsm : sm = scan_path_metadata sys fs p (cachePush σ p) := rfl
    have hσ2 : σ2 = scan_children sys fs e cs p
        (scan_path_metadata sys fs p (cachePush σ p)).1 := rfl
    rw [hsm] at hmd ih
    rw [hσ2] at hall
    have hexf : is_path_excluded e p = false := by
      cases h : is_path_excluded e p
      · rfl
      · exact absurd h hex
    rw [scan_path_dir sys fs e p σ md st cs hin hexf hmd hdir]
    simp only
    rw [if_pos hall]
    -- invariants after the metadata scan and the children walk
    have hframe := spm_frame sys fs p (cachePush σ p)
    have hInv1 : InvB sys fs e (scan_path_metadata sys fs p (cachePush σ p)).1 := by
      obtain ⟨h1, h2, h3⟩ := hInv
      have hmono := spm_am_mono sys fs p (cachePush σ p)
      refine ⟨(spm_consistent sys fs p (cachePush σ p) h1).1, ?_, ?_⟩
      · intro x hx
        rw [hframe.1] at hx
        exact h2 x hx
      · intro x hx hxe
        rw [hframe.2] at hx
        rcases List.mem_append.mp hx with hx | hx
        · obtain ⟨v, hv⟩ := h3 x hx hxe
          exact ⟨v, hmono _ hv⟩
        · simp at hx
          rw [hx]
          exact spm_key_present sys fs p (cachePush σ p)
    have hInv2 : InvB sys fs e (scan_children sys fs e cs p
        (scan_path_metadata sys fs p (cachePush σ p)).1) :=
      ((scan_basic sys fs e).2 cs p _ hInv1).1
    -- the children are coherent with the tree
    have hchild : ∀ nc ∈ cs, fs.resolve (p ++ [nc.1]) = some nc.2 := by
      intro nc hnc
      have hnode : fs.resolve p = some (.mk st (some cs)) := ht.symm
      have hnd := (wfB_children (.mk st (some cs)) cs
        (wfB_resolve fs p _ hwf hnode) rfl).1
      obtain ⟨n, c⟩ := nc
      exact resolve_snoc fs p _ cs n c hnode rfl hnd hnc
    by_cases hpb : p = b
    · -- the scanned directory is the bad one: impossible, since its excluded
      -- child can never be in the worthy set
      exfalso
      subst hpb
      obtain ⟨node, cs0, hres, hchl, nc, hncm, hnce⟩ := hkids
      obtain rfl : FSTree.mk st (some cs) = node := Option.some_inj.mp (ht.trans hres)
      have hcs0 : cs0 = cs := by
        simpa [FSTree.children] using hchl.symm
      subst hcs0
      rw [List.all_eq_true] at hall
      have := hall nc hncm
      simp only [decide_eq_true_eq] at this
      have hexcl := hInv2.2.1 (p ++ [nc.1]) this
      rw [hnce] at hexcl
      cases hexcl
    · -- a different directory: its addition cannot add the bad path
      intro hmem
      rcases (mem_resultAdd _ _ _).mp hmem with hmem | hmem
      · have hb2 : b ∉ (scan_children sys fs e cs p
            (scan_path_metadata sys fs p (cachePush σ p)).1).result := by
          refine ih hchild hInv1 ?_
          rw [hframe.1]
          exact hb
        exact hb2 (mem_discardAll cs p _ b hmem)
      · exact hpb hmem.symm
  · -- dir, some child unworthy
    intro p σ hin σ1 hex sm md hmd hdir st cs σ2 hall ih ht hInv hb
    have hsm : sm = scan_path_metadata sys fs p (cachePush σ p) := rfl
    have hσ2 : σ2 = scan_children sys fs e cs p
        (scan_path_metadata sys fs p (cachePush σ p)).1 := rfl
    rw [hsm] at hmd ih
    rw [hσ2] at hall
    have hexf : is_path_excluded e p = false := by
      cases h : is_path_excluded e p
      · rfl
      · exact absurd h hex
    rw [scan_path_dir sys fs e p σ md st cs hin hexf hmd hdir]
    simp only
    rw [if_neg hall]
    have hframe := spm_frame sys fs p (cachePush σ p)
    have hInv1 : InvB sys fs e (scan_path_metadata sys fs p (cachePush σ p)).1 := by
      obtain ⟨h1, h2, h3⟩ := hInv
      have hmono := spm_am_mono sys fs p (cachePush σ p)
      refine ⟨(spm_consistent sys fs p (cachePush σ p) h1).1, ?_, ?_⟩
      · intro x hx
        rw [hframe.1] at hx
        exact h2 x hx
      · intro x hx hxe
        rw [hframe.2] at hx
        rcases List.mem_append.mp hx with hx | hx
        · obtain ⟨v, hv⟩ := h3 x hx hxe
          exact ⟨v, hmono _ hv⟩
        · simp at hx
          rw [hx]
          exact spm_key_present sys fs p (cachePush σ p)
    have hchild : ∀ nc ∈ cs, fs.resolve (p ++ [nc.1]) = some nc.2 := by
      intro nc hnc
      have hnode : fs.resolve p = some (.mk st (some cs)) := ht.symm
      have hnd := (wfB_children (.mk st (some cs)) cs
        (wfB_resolve fs p _ hwf hnode) rfl).1
      obtain ⟨n, c⟩ := nc
      exact resolve_snoc fs p _ cs n c hnode rfl hnd hnc
    refine ih hchild hInv1 ?_
    rw [hframe.1]
    exact hb
  · -- non-directory
    intro t p σ hin σ1 hex sm md hmd hndir ht hInv hb
    have hsm : sm = scan_path_metadata sys fs p (cachePush σ p) := rfl
    rw [hsm] at hmd
    have hexf : is_path_excluded e p = false := by
      cases h : is_path_excluded e p
      · rfl
      · exact absurd h hex
    have hdirf : S_ISDIR md.mode = false := by
      cases h : S_ISDIR md.mode
      · rfl
      · exact absurd h hndir
    rw [scan_path_file sys fs e t p σ md hin hexf hmd hdirf]
    intro hmem
    rcases (mem_resultAdd _ _ _).mp hmem with hmem | hmem
    · rw [(spm_frame sys fs p (cachePush σ p)).1] at hmem
      exact hb hmem
    · -- the scanned path is the bad directory but has non-directory metadata
      rw [hmem] at hmdb
      obtain ⟨mdb, hmdb1, hmdb2⟩ := hmdb
      have hcons2 := (spm_consistent sys fs p (cachePush σ p) hInv.1).2
      rw [hmd] at hcons2
      rw [hmdb1] at hcons2
      obtain rfl : md = mdb := Option.some_inj.mp hcons2
      rw [hmdb2] at hdirf
      cases hdirf
  · -- children: nil
    intro p σ hch hInv hb
    rw [scan_children_nil]
    exact hb
  · -- children: cons
    intro p σ n c rest ih1 ih2 hch hInv hb
    rw [scan_children_cons]
    have hc1 := hch (n, c) (List.mem_cons_self _ _)
    have hInv2 := ((scan_basic sys fs e).1 (some c) (p ++ [n]) σ hInv).1
    refine ih2 (fun nc hnc => hch nc (List.mem_cons_of_mem _ hnc)) ?_ ?_
    · exact hInv2
    · exact ih1 hc1.symm hInv hb

/-- No metadata-map key can appear strictly below an excluded path: the walk
never descends past an exclusion, so the parent-probing chain never starts
from a path strictly under one. -/
theorem scan_no_key_under_excluded (sys : Sys) (fs : FSTree) (e : Excl)
    (conf : SysPath) (hce : is_path_excluded e conf = true) :
    (∀ (t : Option FSTree) (p : SysPath) (σ : BackupState),
      ¬ (pfx conf p ∧ conf ≠ p) → (∀ v, (conf, v) ∉ σ.archive_metadata) →
      ∀ v, (conf, v) ∉ (scan_path sys fs e t p σ).archive_metadata)
    ∧ (∀ (cs : List (String × FSTree)) (p : SysPath) (σ : BackupState),
      ¬ pfx conf p → (∀ v, (conf, v) ∉ σ.archive_metadata) →
      ∀ v, (conf, v) ∉ (scan_children sys fs e cs p σ).archive_metadata) := by
  have hspm : ∀ (p : SysPath) (σ : BackupState),
      ¬ (pfx conf p ∧ conf ≠ p) → is_path_excluded e p = false →
      (∀ v, (conf, v) ∉ σ.archive_metadata) →
      ∀ v, (conf, v) ∉ (scan_path_metadata sys fs p σ).1.archive_metadata := by
    intro p σ hq hexf hnk v hv
    rcases spm_keys_pfx sys fs p σ (conf, v) hv with hold | hpfx
    · exact hnk v hold
    · by_cases hcp : conf = p
      · rw [hcp] at hce
        rw [hce] at hexf
        cases hexf
      · exact hq ⟨hpfx, hcp⟩
  refine scan_path.mutual_induct sys fs e
    (fun t p σ => ¬ (pfx conf p ∧ conf ≠ p) →
      (∀ v, (conf, v) ∉ σ.archive_metadata) →
      ∀ v, (conf, v) ∉ (scan_path sys fs e t p σ).archive_metadata)
    (fun cs p σ => ¬ pfx conf p →
      (∀ v, (conf, v) ∉ σ.archive_metadata) →
      ∀ v, (conf, v) ∉ (scan_children sys fs e cs p σ).archive_metadata)
    ?_ ?_ ?_ ?_ ?_ ?_ ?_ ?_ ?_ ?_
  · intro t p σ hin hq hnk
    rw [scan_path_cached sys fs e t p σ hin]
    exact hnk
  · intro t p σ hin hex hq hnk
    rw [scan_path_excluded sys fs e t p σ hin hex]
    exact hnk
  · intro t p σ hin σ1 hex sm hnone hq hnk
    have hexf : is_path_excluded e p = false := by
      cases h : is_path_excluded e p
      · rfl
      · exact absurd h hex
    rw [scan_path_mdnone sys fs e t p σ hin hexf hnone]
    exact hspm p (cachePush σ p) hq hexf hnk
  · intro p σ hin σ1 hex sm md hmd hdir hq hnk
    have hexf : is_path_excluded e p = false := by
      cases h : is_path_excluded e p
      · rfl
      · exact absurd h hex
    rw [scan_path_dir_tnone sys fs e p σ md hin hexf hmd hdir]
    exact hspm p (cachePush σ p) hq hexf hnk
  · intro p σ hin σ1 hex sm md hmd hdir st hq hnk
    have hexf : is_path_excluded e p = false := by
      cases h : is_path_excluded e p
      · rfl
      · exact absurd h hex
    rw [scan_path_dir_nokids sys fs e p σ md st hin hexf hmd hdir]
    exact hspm p (cachePush σ p) hq hexf hnk
  · intro p σ hin σ1 hex sm md hmd hdir st cs σ2 hall ih hq hnk
    have hsm : sm = scan_path_metadata sys fs p (cachePush σ p) := rfl
    have hσ2 : σ2 = scan_children sys fs e cs p
        (scan_path_metadata sys fs p (cachePush σ p)).1 := rfl
    rw [hsm] at hmd ih
    rw [hσ2] at hall
    have hexf : is_path_excluded e p = false := by
      cases h : is_path_excluded e p
      · rfl
      · exact absurd h hex
    rw [scan_path_dir sys fs e p σ md st cs hin hexf hmd hdir]
    simp only
    rw [if_pos hall]
    have hnp : ¬ pfx conf p := by
      intro hpfx
      by_cases hcp : conf = p
      · rw [hcp] at hce
        rw [hce] at hexf
        cases hexf
      · exact hq ⟨hpfx, hcp⟩
    exact ih hnp (hspm p (cachePush σ p) hq hexf hnk)
  · intro p σ hin σ1 hex sm md hmd hdir st cs σ2 hall ih hq hnk
    have hsm : sm = scan_path_metadata sys fs p (cachePush σ p) := rfl
    have hσ2 : σ2 = scan_children sys fs e cs p
        (scan_path_metadata sys fs p (cachePush σ p)).1 := rfl
    rw [hsm] at hmd ih
    rw [hσ2] at hall
    have hexf : is_path_excluded e p = false := by
      cases h : is_path_excluded e p
      · rfl
      · exact absurd h hex
    rw [scan_path_dir sys fs e p σ md st cs hin hexf hmd hdir]
    simp only
    rw [if_neg hall]
    have hnp : ¬ pfx conf p := by
      intro hpfx
      by_cases hcp : conf = p
      · rw [hcp] at hce
        rw [hce] at hexf
        cases hexf
      · exact hq ⟨hpfx, hcp⟩
    exact ih hnp (hspm p (cachePush σ p) hq hexf hnk)
  · intro t p σ hin σ1 hex sm md hmd hndir hq hnk
    have hsm : sm = scan_path_metadata sys fs p (cachePush σ p) := rfl
    rw [hsm] at hmd
    have hexf : is_path_excluded e p = false := by
      cases h : is_path_excluded e p
      · rfl
      · exact absurd h hex
    have hdirf : S_ISDIR md.mode = false := by
      cases h : S_ISDIR md.mode
      · rfl
      · exact absurd h hndir
    rw [scan_path_file sys fs e t p σ md hin hexf hmd hdirf]
    exact hspm p (cachePush σ p) hq hexf hnk
  · intro p σ hq hnk
    rw [scan_children_nil]
    exact hnk
  · intro p σ n c rest ih1 ih2 hq hnk
    rw [scan_children_cons]
    have hq1 : ¬ (pfx conf (p ++ [n]) ∧ conf ≠ p ++ [n]) := by
      rintro ⟨hpfx, hne⟩
      rcases pfx_snoc_cases conf p n hpfx with h | h
      · exact hq h
      · exact hne h
    exact ih2 hq (ih1 hq1 hnk)

theorem foldl_scan_cache_mono (sys : Sys) (fs : FSTree) (e : Excl)
    (l : List SysPath) (σ : BackupState) (hInv : InvB sys fs e σ) (x : SysPath)
    (hx : x ∈ σ.scan_cache) :
    x ∈ (l.foldl (fun σ r => scan_path sys fs e (fs.resolve r) r σ) σ).scan_cache := by
  induction l generalizing σ with
  | nil => simpa using hx
  | cons r rest ih =>
    have h := (scan_basic sys fs e).1 (fs.resolve r) r σ hInv
    exact ih _ h.1 (h.2.2.1 x hx)

/-- Every tracked path ends up in the visit cache of the walk. -/
theorem backup_scan_cache (sys : Sys) (fs : FSTree) (e : Excl)
    (tracked : List SysPath) (r : SysPath) (hr : r ∈ tracked) :
    r ∈ (backup_scan sys fs e tracked).scan_cache := by
  obtain ⟨l1, l2, rfl⟩ := List.append_of_mem hr
  rw [backup_scan, List.foldl_append, List.foldl_cons]
  have hInv1 : InvB sys fs e
      (l1.foldl (fun σ r => scan_path sys fs e (fs.resolve r) r σ) ⟨[], [], []⟩) :=
    foldl_scan_inv sys fs e l1 _ ⟨by simp [AmConsistent], by simp, by simp⟩
  have hstep := (scan_basic sys fs e).1 (fs.resolve r) r _ hInv1
  exact foldl_scan_cache_mono sys fs e l2 _ hstep.1 r hstep.2.2.2

/-- A non-excluded tracked path whose probe succeeds retains its own entry in
the stripped (persisted) metadata map, whatever its descendants contribute. -/
theorem tracked_key_in_fresh (sys : Sys) (fs : FSTree) (e : Excl)
    (tracked : List SysPath) (r : SysPath) (md : ArchiveMetadata)
    (hr : r ∈ tracked) (hex : is_path_excluded e r = false)
    (hmd : mdOf sys fs r = some md) :
    (r, md) ∈ strip_none (backup_scan sys fs e tracked).archive_metadata := by
  have hInv := backup_scan_inv sys fs e tracked
  obtain ⟨v, hv⟩ := hInv.2.2 r (backup_scan_cache sys fs e tracked r hr) hex
  have hval := hInv.1 (r, v) hv
  rw [mem_strip_none]
  simp only at hval
  rw [hval] at hv
  rw [hmd] at hv
  exact hv

theorem mem_discardAll_iff (cs : List (String × FSTree)) (p : SysPath)
    (l : List SysPath) (x : SysPath) :
    x ∈ cs.foldl (fun r c => resultDiscard r (p ++ [c.1])) l
      ↔ x ∈ l ∧ ∀ nc ∈ cs, x ≠ p ++ [nc.1] := by
  induction cs generalizing l with
  | nil => simp
  | cons c rest ih =>
    rw [List.foldl_cons, ih]
    rw [mem_resultDiscard]
    constructor
    · rintro ⟨⟨hx, hne⟩, hall⟩
      refine ⟨hx, ?_⟩
      intro nc hnc
      rcases List.mem_cons.mp hnc with rfl | hnc
      · exact hne
      · exact hall nc hnc
    · rintro ⟨hx, hall⟩
      exact ⟨⟨hx, hall c (List.mem_cons_self _ _)⟩,
        fun nc hnc => hall nc (List.mem_cons_of_mem _ hnc)⟩

/-- Scanning a run of children that are all supported non-directory files:
each one is appended to the worthy set and the visit cache. -/
theorem scan_children_all_files (sys : Sys) (fs : FSTree) (e : Excl) (p : SysPath)
    (cs : List (String × FSTree)) (hnd : (cs.map Prod.fst).Nodup)
    (hprops : ∀ nc ∈ cs, is_path_excluded e (p ++ [nc.1]) = false
        ∧ fs.resolve (p ++ [nc.1]) = some nc.2
        ∧ ∃ cst, nc.2.st = some cst ∧ is_supported_type cst = true
            ∧ S_ISDIR cst.st_mode = false) :
    ∀ σ, AmConsistent sys fs σ.archive_metadata →
      (∀ nc ∈ cs, (p ++ [nc.1]) ∉ σ.scan_cache) →
      (∀ nc ∈ cs, (p ++ [nc.1]) ∉ σ.result) →
      (scan_children sys fs e cs p σ).result
          = σ.result ++ cs.map (fun nc => p ++ [nc.1])
      ∧ (scan_children sys fs e cs p σ).scan_cache
          = σ.scan_cache ++ cs.map (fun nc => p ++ [nc.1])
      ∧ AmConsistent sys fs (scan_children sys fs e cs p σ).archive_metadata := by
  induction cs with
  | nil =>
    intro σ hc _ _
    rw [scan_children_nil]
    simp [hc]
  | cons nc rest ih =>
    intro σ hc hcache hres
    obtain ⟨n, c⟩ := nc
    obtain ⟨hex, hresv, cst, hst, hsup, hndir⟩ := hprops (n, c) (List.mem_cons_self _ _)
    rw [scan_children_cons]
    -- evaluate the child's metadata probe
    have hmd : mdOf sys fs (p ++ [n]) = some (generate_archive_metadata sys (p ++ [n]) cst) := by
      cases c with
      | mk cst2 kids =>
        simp only [FSTree.st] at hst
        simp [mdOf, statPath, hresv, FSTree.st, hst, hsup]
    have hmode : (generate_archive_metadata sys (p ++ [n]) cst).mode = cst.st_mode := rfl
    have hcin : (p ++ [n]) ∉ σ.scan_cache := hcache (n, c) (List.mem_cons_self _ _)
    have hsm2 : (scan_path_metadata sys fs (p ++ [n]) (cachePush σ (p ++ [n]))).2
        = some (generate_archive_metadata sys (p ++ [n]) cst) := by
      rw [(spm_consistent sys fs (p ++ [n]) (cachePush σ (p ++ [n])) hc).2]
      exact hmd
    have hstep := scan_path_file sys fs e (some c) (p ++ [n]) σ
      (generate_archive_metadata sys (p ++ [n]) cst) hcin hex hsm2
      (by rw [hmode]; exact hndir)
    rw [hstep]
    have hframe := spm_frame sys fs (p ++ [n]) (cachePush σ (p ++ [n]))
    have hcons1 := (spm_consistent sys fs (p ++ [n]) (cachePush σ (p ++ [n])) hc).1
    -- the state after the child step
    have hresEq : (scan_path_metadata sys fs (p ++ [n])
        (cachePush σ (p ++ [n]))).1.result = σ.result := hframe.1
    have hcacheEq : (scan_path_metadata sys fs (p ++ [n])
        (cachePush σ (p ++ [n]))).1.scan_cache = σ.scan_cache ++ [p ++ [n]] := hframe.2
    have hrin : (p ++ [n]) ∉ σ.result := hres (n, c) (List.mem_cons_self _ _)
    have hadd : resultAdd (scan_path_metadata sys fs (p ++ [n])
        (cachePush σ (p ++ [n]))).1.result (p ++ [n]) = σ.result ++ [p ++ [n]] := by
      rw [hresEq, resultAdd, if_neg hrin]
    rw [List.map_cons, List.nodup_cons] at hnd
    have hdistinct : ∀ nc2 ∈ rest, p ++ [nc2.1] ≠ p ++ [n] := by
      intro nc2 hnc2 heq
      have : nc2.1 = n := by
        have := List.append_inj' heq rfl
        simpa using this.2
      exact hnd.1 (this ▸ List.mem_map.mpr ⟨nc2, hnc2, rfl⟩)
    have := ih hnd.2
      (fun nc2 hnc2 => hprops nc2 (List.mem_cons_of_mem _ hnc2))
      { archive_metadata := (scan_path_metadata sys fs (p ++ [n])
          (cachePush σ (p ++ [n]))).1.archive_metadata,
        result := resultAdd (scan_path_metadata sys fs (p ++ [n])
          (cachePush σ (p ++ [n]))).1.result (p ++ [n]),
        scan_cache := (scan_path_metadata sys fs (p ++ [n])
          (cachePush σ (p ++ [n]))).1.scan_cache }
      hcons1
      (by
        intro nc2 hnc2
        simp only [hcacheEq]
        intro hmem
        rcases List.mem_append.mp hmem with hmem | hmem
        · exact hcache nc2 (List.mem_cons_of_mem _ hnc2) hmem
        · simp at hmem
          exact hdistinct nc2 hnc2 (by rw [hmem]))
      (by
        intro nc2 hnc2
        simp only [hadd]
        intro hmem
        rcases List.mem_append.mp hmem with hmem | hmem
        · exact hres nc2 (List.mem_cons_of_mem _ hnc2) hmem
        · simp at hmem
          exact hdistinct nc2 hnc2 (by rw [hmem]))
    obtain ⟨r1, r2, r3⟩ := this
    refine ⟨?_, ?_, r3⟩
    · rw [r1]
      simp only [hadd]
      simp
    · rw [r2]
      simp only [hcacheEq]
      simp

/-- A tracked directory whose children are all non-excluded supported files is
added to the worthy set in place of its children: the walk of that single
root produces exactly the directory as its worthy set. -/
theorem backup_scan_dir_all_files (sys : Sys) (fs : FSTree) (e : Excl)
    (p : SysPath) (st : StatResult) (cs : List (String × FSTree))
    (hres : fs.resolve p = some (.mk (some st) (some cs)))
    (hsup : is_supported_type st = true) (hdir : S_ISDIR st.st_mode = true)
    (hex : is_path_excluded e p = false)
    (hnd : (cs.map Prod.fst).Nodup)
    (hprops : ∀ nc ∈ cs, is_path_excluded e (p ++ [nc.1]) = false
        ∧ fs.resolve (p ++ [nc.1]) = some nc.2
        ∧ ∃ cst, nc.2.st = some cst ∧ is_supported_type cst = true
            ∧ S_ISDIR cst.st_mode = false) :
    (backup_scan sys fs e [p]).result = [p] := by
  rw [backup_scan, List.foldl_cons, List.foldl_nil, hres]
  have hmd : mdOf sys fs p = some (generate_archive_metadata sys p st) := by
    simp [mdOf, statPath, hres, FSTree.st, hsup]
  have σ0 : BackupState := ⟨[], [], []⟩
  have hsm2 : (scan_path_metadata sys fs p
      (cachePush ⟨[], [], []⟩ p)).2 = some (generate_archive_metadata sys p st) := by
    rw [(spm_consistent sys fs p (cachePush ⟨[], [], []⟩ p)
      (by simp [AmConsistent, cachePush])).2]
    exact hmd
  rw [scan_path_dir sys fs e p ⟨[], [], []⟩ (generate_archive_metadata sys p st)
    (some st) cs (by simp) hex hsm2 hdir]
  simp only
  have hframe := spm_frame sys fs p (cachePush ⟨[], [], []⟩ p)
  have hcons := (spm_consistent sys fs p (cachePush ⟨[], [], []⟩ p)
    (by simp [AmConsistent, cachePush])).1
  have hkids := scan_children_all_files sys fs e p cs hnd hprops
    (scan_path_metadata sys fs p (cachePush ⟨[], [], []⟩ p)).1 hcons
    (by
      intro nc hnc
      rw [hframe.2]
      intro hmem
      simp [cachePush] at hmem)
    (by
      intro nc hnc
      rw [hframe.1]
      intro hmem
      simp [cachePush] at hmem)
  obtain ⟨r1, r2, _⟩ := hkids
  have hresnil : (scan_path_metadata sys fs p (cachePush ⟨[], [], []⟩ p)).1.result = [] := by
    rw [hframe.1]
    rfl
  rw [hresnil] at r1
  simp only [List.nil_append] at r1
  have hall : (cs.all fun c => decide ((p ++ [c.1]) ∈ (scan_children sys fs e cs p
      (scan_path_metadata sys fs p (cachePush ⟨[], [], []⟩ p)).1).result)) = true := by
    rw [List.all_eq_true]
    intro nc hnc
    rw [r1]
    simp only [decide_eq_true_eq]
    exact List.mem_map.mpr ⟨nc, hnc, rfl⟩
  rw [if_pos hall]
  have hempty : cs.foldl (fun r c => resultDiscard r (p ++ [c.1]))
      (scan_children sys fs e cs p
        (scan_path_metadata sys fs p (cachePush ⟨[], [], []⟩ p)).1).result = [] := by
    rw [List.eq_nil_iff_forall_not_mem]
    intro x hx
    rw [mem_discardAll_iff] at hx
    obtain ⟨hx1, hx2⟩ := hx
    rw [r1] at hx1
    obtain ⟨nc, hnc, rfl⟩ := List.mem_map.mp hx1
    exact hx2 nc hnc rfl
  rw [hempty]
  simp [resultAdd]

theorem foldl_scan_bad (sys : Sys) (fs : FSTree) (e : Excl) (b : SysPath)
    (hwf : fs.wfB = true)
    (hmdb : ∃ mdb, mdOf sys fs b = some mdb ∧ S_ISDIR mdb.mode = true)
    (hkids : ∃ node cs0, fs.resolve b = some node ∧ node.children = some cs0
      ∧ ∃ nc ∈ cs0, is_path_excluded e (b ++ [nc.1]) = true)
    (l : List SysPath) (σ : BackupState) (hInv : InvB sys fs e σ)
    (hb : b ∉ σ.result) :
    b ∉ (l.foldl (fun σ r => scan_path sys fs e (fs.resolve r) r σ) σ).result := by
  induction l generalizing σ with
  | nil => simpa using hb
  | cons r rest ih =>
    refine ih _ (((scan_basic sys fs e).1 _ _ _ hInv).1) ?_
    exact (scan_bad_dir sys fs e b hwf hmdb hkids).1 (fs.resolve r) r σ rfl hInv hb

/-- A directory with an excluded child is never in the final worthy set. -/
theorem backup_scan_bad_dir (sys : Sys) (fs : FSTree) (e : Excl)
    (tracked : List SysPath) (b : SysPath) (hwf : fs.wfB = true)
    (hmdb : ∃ mdb, mdOf sys fs b = some mdb ∧ S_ISDIR mdb.mode = true)
    (hkids : ∃ node cs0, fs.resolve b = some node ∧ node.children = some cs0
      ∧ ∃ nc ∈ cs0, is_path_excluded e (b ++ [nc.1]) = true) :
    b ∉ (backup_scan sys fs e tracked).result := by
  rw [backup_scan]
  exact foldl_scan_bad sys fs e b hwf hmdb hkids tracked _
    ⟨by simp [AmConsistent], by simp, by simp⟩ (by simp)

/-- The worthy set of a run does not depend on the force flag or the persisted
map. -/
theorem backup_run_worthy (sys : Sys) (fs : FSTree) (e : Excl)
    (tracked : List SysPath) (persisted : List (SysPath × ArchiveMetadata))
    (force : Bool) :
    (backup_run sys fs e tracked persisted force).worthy
      = (backup_scan sys fs e tracked).result := by
  rw [backup_run]
  split
  · rfl
  · rfl

/-- An excluded path is never in the worthy set. -/
theorem excluded_not_worthy (sys : Sys) (fs : FSTree) (e : Excl)
    (tracked : List SysPath) (x : SysPath) (hx : is_path_excluded e x = true) :
    x ∉ (backup_scan sys fs e tracked).result := by
  intro hmem
  have := (backup_scan_inv sys fs e tracked).2.1 x hmem
  rw [hx] at this
  cases this

theorem foldl_no_key (sys : Sys) (fs : FSTree) (e : Excl) (conf : SysPath)
    (hce : is_path_excluded e conf = true) (l : List SysPath)
    (htr : ∀ r ∈ l, ¬ (pfx conf r ∧ conf ≠ r)) (σ : BackupState)
    (hnk : ∀ v, (conf, v) ∉ σ.archive_metadata) :
    ∀ v, (conf, v) ∉
      (l.foldl (fun σ r => scan_path sys fs e (fs.resolve r) r σ) σ).archive_metadata := by
  induction l generalizing σ with
  | nil => simpa using hnk
  | cons r rest ih =>
    refine ih (fun r2 h2 => htr r2 (List.mem_cons_of_mem _ h2)) _ ?_
    exact (scan_no_key_under_excluded sys fs e conf hce).1 (fs.resolve r) r σ
      (htr r (List.mem_cons_self _ _)) hnk

/-- When no tracked path lies strictly below an excluded path, that excluded
path never becomes a key of the metadata map. -/
theorem backup_scan_no_key (sys : Sys) (fs : FSTree) (e : Excl)
    (tracked : List SysPath) (conf : SysPath)
    (hce : is_path_excluded e conf = true)
    (htr : ∀ r ∈ tracked, ¬ (pfx conf r ∧ conf ≠ r)) :
    ∀ v, (conf, v) ∉ (backup_scan sys fs e tracked).archive_metadata := by
  rw [backup_scan]
  exact foldl_no_key sys fs e conf hce tracked htr _ (by simp)

/-- Map entries are exactly the successful probes of their keys. -/
theorem fresh_entries_probe (sys : Sys) (fs : FSTree) (e : Excl)
    (tracked : List SysPath) (k : SysPath) (v : ArchiveMetadata)
    (h : (k, v) ∈ strip_none (backup_scan sys fs e tracked).archive_metadata) :
    mdOf sys fs k = some v := by
  rw [mem_strip_none] at h
  have := (backup_scan_inv sys fs e tracked).1 (k, some v) h
  exact this.symm

/-- System database for the concrete runs: invoking user is uid/gid 0. -/
def c2Sys : Sys := ⟨0, 0, fun _ => none, fun _ => none, fun _ => none, fun _ => none⟩

/-- A regular file. -/
def fileNode : FSTree := .mk (some ⟨33188, 0, 0, 0, 0, 1, 10⟩) none

/-- Concrete filesystem: `/d` is a directory whose only content `/d/e` is
excluded; `/g` is a directory with excluded `/g/e` and archivable `/g/f`. -/
def c2Fs : FSTree :=
  .mk (some ⟨16877, 0, 0, 0, 0, 1, 1⟩)
    (some [("d", .mk (some ⟨16877, 0, 0, 0, 0, 1, 2⟩) (some [("e", fileNode)])),
           ("g", .mk (some ⟨16877, 0, 0, 0, 0, 1, 3⟩)
              (some [("e", fileNode), ("f", fileNode)]))])

/-- Exclusions for the concrete runs: `/d/e` and `/g/e`. -/
def c2Excl : Excl := ⟨[["d", "e"], ["g", "e"]], []⟩

/-- Tracked roots for the concrete runs. -/
def c2Tracked : List SysPath := [["d"], ["g"]]

/-- The probe value of `/d`. -/
def c2DMd : ArchiveMetadata :=
  { path := "d/", group := none, mode := 16877, mtime_ns := 0, size := 0, user := none }

/-- The probe value of `/g`. -/
def c2GMd : ArchiveMetadata :=
  { path := "g/", group := none, mode := 16877, mtime_ns := 0, size := 0, user := none }

/-- The subtree at `/d`. -/
def c2DNode : FSTree := .mk (some ⟨16877, 0, 0, 0, 0, 1, 2⟩) (some [("e", fileNode)])

/-- The subtree at `/g`. -/
def c2GNode : FSTree :=
  .mk (some ⟨16877, 0, 0, 0, 0, 1, 3⟩) (some [("e", fileNode), ("f", fileNode)])

theorem c2Fs_wf : c2Fs.wfB = true := by
  simp [c2Fs, fileNode, FSTree.wfB, wfChildren]

theorem c2_d_mdOf : mdOf c2Sys c2Fs ["d"] = some c2DMd := by rfl

/-- C2 counterexample: in the concrete run, the tracked directory `/d`, whose
only content is the excluded `/d/e`, nevertheless appears in the persisted
ArchiveMetadata map (refuting "never appears ... in the persisted
ArchiveMetadata map" and the descendant-pruning iff); and the tracked
directory `/g`, which has exactly one non-excluded descendant `/g/f`, does not
appear in the worthy set (refuting "does appear in the worthy set, along with
that descendant"). -/
theorem C2_counterexample :
    (["d"], c2DMd) ∈ (backup_run c2Sys c2Fs c2Excl c2Tracked [] false).persisted
    ∧ ["g"] ∉ (backup_run c2Sys c2Fs c2Excl c2Tracked [] false).worthy := by
  have hd : (["d"], c2DMd)
      ∈ strip_none (backup_scan c2Sys c2Fs c2Excl c2Tracked).archive_metadata :=
    tracked_key_in_fresh c2Sys c2Fs c2Excl c2Tracked ["d"] c2DMd
      (by simp [c2Tracked]) (by decide) c2_d_mdOf
  constructor
  · have hne : am_dict_eq
        (strip_none (backup_scan c2Sys c2Fs c2Excl c2Tracked).archive_metadata)
        [] = false := by
      cases h : am_dict_eq
          (strip_none (backup_scan c2Sys c2Fs c2Excl c2Tracked).archive_metadata) [] with
      | false => rfl
      | true =>
        exfalso
        rw [am_dict_eq, Bool.and_eq_true] at h
        have := (List.all_eq_true.mp h.1) _ hd
        simp [alistGet] at this
    rw [backup_run]
    rw [hne]
    simp only [Bool.not_false, Bool.or_true, if_true]
    exact hd
  · rw [backup_run_worthy]
    refine backup_scan_bad_dir c2Sys c2Fs c2Excl c2Tracked ["g"] c2Fs_wf ?_ ?_
    · exact ⟨c2GMd, by rfl, by decide⟩
    · refine ⟨c2GNode, [("e", fileNode), ("f", fileNode)], ?_, ?_, ?_⟩
      · rfl
      · rfl
      · exact ⟨("e", fileNode), by simp, by decide⟩

/-- C2 (amended): directory pruning in the backup walk.
(1) A tracked (or any) directory with at least one excluded child — in
particular one whose only contents are excluded paths — never appears in the
worthy set of any run.  (2) It does, however, keep its own ArchiveMetadata
entry in the freshly computed map whenever it is tracked, non-excluded and its
probe succeeds.  (3) Map entries are not pruned by surviving descendants:
an entry exists for a key exactly with the value its own probe returned, and
the only entries dropped before persistence are the failed (null) probes.
(4) A tracked directory whose children are all non-excluded supported files
appears in the worthy set in place of its children: the walk of that root
yields exactly the directory, its children being subsumed. -/
theorem C2_directory_pruning_amended :
    (∀ (sys : Sys) (fs : FSTree) (e : Excl) (tracked : List SysPath)
        (persisted : List (SysPath × ArchiveMetadata)) (force : Bool) (b : SysPath),
      fs.wfB = true →
      (∃ mdb, mdOf sys fs b = some mdb ∧ S_ISDIR mdb.mode = true) →
      (∃ node cs0, fs.resolve b = some node ∧ node.children = some cs0
        ∧ ∃ nc ∈ cs0, is_path_excluded e (b ++ [nc.1]) = true) →
      b ∉ (backup_run sys fs e tracked persisted force).worthy)
    ∧ (∀ (sys : Sys) (fs : FSTree) (e : Excl) (tracked : List SysPath)
        (r : SysPath) (md : ArchiveMetadata),
      r ∈ tracked → is_path_excluded e r = false → mdOf sys fs r = some md →
      (r, md) ∈ strip_none (backup_scan sys fs e tracked).archive_metadata)
    ∧ (∀ (sys : Sys) (fs : FSTree) (e : Excl) (tracked : List SysPath)
        (k : SysPath) (v : ArchiveMetadata),
      (k, v) ∈ strip_none (backup_scan sys fs e tracked).archive_metadata →
      mdOf sys fs k = some v)
    ∧ (∀ (sys : Sys) (fs : FSTree) (e : Excl) (p : SysPath) (st : StatResult)
        (cs : List (String × FSTree)),
      fs.resolve p = some (.mk (some st) (some cs)) →
      is_supported_type st = true → S_ISDIR st.st_mode = true →
      is_path_excluded e p = false → (cs.map Prod.fst).Nodup →
      (∀ nc ∈ cs, is_path_excluded e (p ++ [nc.1]) = false
        ∧ fs.resolve (p ++ [nc.1]) = some nc.2
        ∧ ∃ cst, nc.2.st = some cst ∧ is_supported_type cst = true
            ∧ S_ISDIR cst.st_mode = false) →
      (backup_scan sys fs e [p]).result = [p]) := by
  refine ⟨?_, ?_, ?_, ?_⟩
  · intro sys fs e tracked persisted force b hwf hmdb hkids
    rw [backup_run_worthy]
    exact backup_scan_bad_dir sys fs e tracked b hwf hmdb hkids
  · exact fun sys fs e tracked r md h1 h2 h3 =>
      tracked_key_in_fresh sys fs e tracked r md h1 h2 h3
  · exact fun sys fs e tracked k v h => fresh_entries_probe sys fs e tracked k v h
  · exact fun sys fs e p st cs h1 h2 h3 h4 h5 h6 =>
      backup_scan_dir_all_files sys fs e p st cs h1 h2 h3 h4 h5 h6

/-- C2 witness: the amended statement instantiated on the concrete run — `/d`
(with its excluded-only content) is not worthy, while its own entry is in the
fresh map. -/
theorem C2_directory_pruning_amended_witness :
    ["d"] ∉ (backup_run c2Sys c2Fs c2Excl c2Tracked [] false).worthy
    ∧ (["d"], c2DMd)
        ∈ strip_none (backup_scan c2Sys c2Fs c2Excl c2Tracked).archive_metadata := by
  constructor
  · refine C2_directory_pruning_amended.1 c2Sys c2Fs c2Excl c2Tracked [] false
      ["d"] c2Fs_wf ?_ ?_
    · exact ⟨c2DMd, c2_d_mdOf, by decide⟩
    · refine ⟨c2DNode, [("e", fileNode)], ?_, ?_, ?_⟩
      · rfl
      · rfl
      · exact ⟨("e", fileNode), by simp, by decide⟩
  · exact C2_directory_pruning_amended.2.1 c2Sys c2Fs c2Excl c2Tracked ["d"] c2DMd
      (by simp [c2Tracked]) (by decide) c2_d_mdOf

/-- C1 witness: with no tracked paths the fresh map is empty; a run against an
empty persisted map is a strict no-op. -/
theorem C1_backup_idempotence_witness :
    backup_run c2Sys c2Fs c2Excl [] [] false
      = { persisted := [], archive_written := false, archive_deleted := false,
          worthy := [] } :=
  (C1_backup_idempotence c2Sys c2Fs c2Excl [] []).1 (by rfl)


/-! ## The restore engine (`RestoreHandler`)

The archive (`zipfile.ZipFile`) is a tree of members addressed by the
slash-separated components of their names; a member record carries its exact
name string, the mode word `external_attr >> 16`, the payload size and the
payload itself (`none` models a member whose extraction/read raises).
`RestoreHandler` state is threaded explicitly: the live filesystem tree with a
side map of file contents, the `(st_dev, st_ino)` loop-detection cache, the
`restore_cache` and `system_dirs` sets, and the log of announcements
(`[C]`/`[D]`/`[M]` lines and stderr reports).  The list `visited` is pure
instrumentation: it records each key the moment `_check_loop` admits it.
Recursion along archive children is bounded in the source by the finite
archive metadata map (every recursed-into path is one of its keys); the model
makes that bound explicit as a fuel parameter which `restore_run` seeds from
the map's longest key.  The staging tree `mkdtemp` creates under `tmp_root`
is disjoint from the live tree and discarded after the run; the model keeps
it outside the live filesystem and records staging work only through its
announcements and failure reports. -/

/-- `repository.dao.BackupStrategy`. -/
inductive BackupStrategy where
  | Auto
  | BackupOnly
  | Manual
deriving Repr, DecidableEq

/-- A `zipfile.ZipInfo` member record: the exact stored name, the mode word
`external_attr >> 16`, `file_size`, and the payload (`none` when reading or
extracting this member raises). -/
structure ZInfo where
  filename : String
  mode : Nat
  size : Nat
  content : Option (List Nat)
deriving Repr, DecidableEq

/-- The archive as a tree of members; children are listed in sorted order
(`zipfile.Path.iterdir` output is sorted by the caller). -/
inductive ZipTree where
  | mk (info : Option ZInfo) (kids : List (String × ZipTree))
deriving Repr

/-- The member record at this archive node, if the name is stored. -/
def ZipTree.info : ZipTree → Option ZInfo
  | .mk i _ => i

/-- The children of this archive node. -/
def ZipTree.kids : ZipTree → List (String × ZipTree)
  | .mk _ c => c

/-- Descend to the archive node addressed by a component list. -/
def ZipTree.find : ZipTree → List String → Option ZipTree
  | t, [] => some t
  | t, n :: rest =>
    match (t.kids.find? (fun c => c.1 == n)).map (·.2) with
    | none => none
    | some c => ZipTree.find c rest

/-- Split a character list at the separators. -/
def splitComps : List Char → List Char → List (List Char)
  | [], acc => [acc.reverse]
  | c :: rest, acc =>
    if c = '/' then acc.reverse :: splitComps rest []
    else splitComps rest (c :: acc)

/-- The slash-separated components of an archive member name (directory names
carry a trailing separator, which contributes no component). -/
def parseArchivePath (s : String) : List String :=
  ((splitComps s.data []).map (fun l => String.mk l)).filter (fun c => c ≠ "")

/-- `zipfile.ZipFile.getinfo`: the member stored under exactly this name
(`none` models the `KeyError`). -/
def zipGetinfo (z : ZipTree) (s : String) : Option ZInfo :=
  match z.find (parseArchivePath s) with
  | none => none
  | some node =>
    match node.info with
    | none => none
    | some i => if i.filename == s then some i else none

/-- The member names directly under an archive directory
(`zipfile.Path(...).iterdir`); `none` models the lookup raising. -/
def zipChildNames (z : ZipTree) (s : String) : Option (List String) :=
  (z.find (parseArchivePath s)).map (fun node => node.kids.map Prod.fst)

/-- `archive_service.RestorePath`: the dataclass fields, with the
`scanned`/`system_stat_result` memo pair made explicit. -/
structure RestorePath where
  system_path : SysPath
  strategy : BackupStrategy
  archive_info : Option ZInfo := none
  archive_metadata : Option ArchiveMetadata := none
  scanned : Bool := false
  system_stat_result : Option StatResult := none
deriving Repr, DecidableEq

/-- `RestorePath.exists_on_archive`. -/
def RestorePath.exists_on_archive (rp : RestorePath) : Bool :=
  rp.archive_info.isSome

/-- `RestorePath.exists_on_system`. -/
def RestorePath.exists_on_system (rp : RestorePath) : Bool :=
  rp.system_stat_result.isSome

/-- `RestorePath.archive_path` (`archive_info.filename`; only read under
`exists_on_archive`). -/
def RestorePath.archive_path (rp : RestorePath) : String :=
  (rp.archive_info.map (·.filename)).getD ""

/-- `RestorePath.has_format_conflict`. -/
def RestorePath.has_format_conflict (rp : RestorePath) : Bool :=
  match rp.archive_metadata, rp.system_stat_result with
  | some md, some st => S_IFMT md.mode != S_IFMT st.st_mode
  | _, _ => false

/-- `RestorePath.has_same_format`. -/
def RestorePath.has_same_format (rp : RestorePath) : Bool :=
  match rp.archive_metadata, rp.system_stat_result with
  | some md, some st => S_IFMT md.mode == S_IFMT st.st_mode
  | _, _ => false

/-- `RestorePath.is_changed`. -/
def RestorePath.is_changed (rp : RestorePath) : Bool :=
  match rp.archive_metadata, rp.system_stat_result with
  | none, _ => true
  | _, none => true
  | some md, some st => S_ISDIR md.mode || md.is_data_different st

/-- `RestorePath.is_dir_on_archive` (`ZipInfo.is_dir`: a trailing separator in
the stored name). -/
def RestorePath.is_dir_on_archive (rp : RestorePath) : Bool :=
  match rp.archive_info with
  | some i => i.filename.data.getLast? == some '/'
  | none => false

/-- `RestorePath.is_dir_on_system`. -/
def RestorePath.is_dir_on_system (rp : RestorePath) : Bool :=
  match rp.system_stat_result with
  | some st => S_ISDIR st.st_mode
  | none => false

/-- `RestorePath.reset_system_metadata`. -/
def RestorePath.reset_system_metadata (rp : RestorePath) : RestorePath :=
  { rp with scanned := false, system_stat_result := none }

/-- `RestorePath.set_removed`. -/
def RestorePath.set_removed (rp : RestorePath) : RestorePath :=
  { rp with system_stat_result := none }

/-- `RestorePath.get_parent`: a fresh `BackupOnly` path one component up,
when one exists. -/
def RestorePath.get_parent (rp : RestorePath) : Option RestorePath :=
  if 2 ≤ rp.system_path.length then
    some { system_path := rp.system_path.dropLast, strategy := .BackupOnly }
  else none

instance : Inhabited BackupStrategy := ⟨.Auto⟩

instance : Inhabited ZipTree := ⟨.mk none []⟩

instance : Inhabited RestorePath := ⟨⟨[], .Auto, none, none, false, none⟩⟩

/-- An announcement or report of the restore walk: a `[C] path` line, a
`[D] path` line, a `[M] tmp path` line, or an exception printed to stderr. -/
inductive REvent where
  | created (p : SysPath)
  | deleted (p : SysPath)
  | manual (tmp : SysPath) (p : SysPath)
  | reported
deriving Repr, DecidableEq

/-- The immutable inputs of a restore run: system database, open archive,
expanded persisted `ArchiveMetadata` map, tracked paths with strategies, the
handler exclusion set, the two flags, the detected diff checker and the
staging root. -/
structure REnv where
  sys : Sys
  zip : ZipTree
  amMap : List (SysPath × ArchiveMetadata)
  tracked : List (SysPath × BackupStrategy)
  e : Excl
  dry_run : Bool
  interactive : Bool
  has_diff_checker : Bool
  tmp_root : SysPath

/-- The mutable state of a restore run: the live filesystem with its side
content map, `inode_cache`, `restore_cache`, `system_dirs`, the announcement
log, a fresh-inode counter for created nodes, and the `visited`
instrumentation (keys newly admitted by `_check_loop`). -/
structure RState where
  fs : FSTree
  contents : List (SysPath × List Nat)
  inode_cache : List (Nat × Nat)
  restore_cache : List SysPath
  system_dirs : List SysPath
  events : List REvent
  next_ino : Nat
  visited : List (Nat × Nat)

instance : Inhabited RState := ⟨⟨.mk none none, [], [], [], [], [], 0, []⟩⟩

/-- Append a stderr report to the log. -/
def report (σ : RState) : RState :=
  { σ with events := σ.events ++ [.reported] }

/-- Boolean path-prefix test. -/
def pfxB (a b : SysPath) : Bool := List.isPrefixOf a b

/-- Remove the directory entry at a path (no-op when absent; removing the
root is outside the walk). -/
def removeAt : FSTree → SysPath → FSTree
  | t, [] => t
  | .mk st cs, [n] => .mk st (cs.map (fun l => l.filter (fun c => !(c.1 == n))))
  | .mk st cs, n :: m :: rest =>
    .mk st (cs.map (List.map (fun c =>
      if c.1 == n then (c.1, removeAt c.2 (m :: rest)) else c)))

/-- Replace or create the directory entry at a path (no-op when an ancestor
is missing). -/
def setAt : FSTree → SysPath → FSTree → FSTree
  | _, [], node => node
  | .mk st cs, [n], node =>
    .mk st (cs.map (fun l =>
      if l.any (fun c => c.1 == n) then
        l.map (fun c => if c.1 == n then (n, node) else c)
      else l ++ [(n, node)]))
  | .mk st cs, n :: m :: rest, node =>
    .mk st (cs.map (List.map (fun c =>
      if c.1 == n then (c.1, setAt c.2 (m :: rest) node) else c)))

/-- Rewrite the stat data at a path in place. -/
def setStatAt : FSTree → SysPath → (StatResult → StatResult) → FSTree
  | .mk st cs, [], f => .mk (st.map f) cs
  | .mk st cs, n :: rest, f =>
    .mk st (cs.map (List.map (fun c =>
      if c.1 == n then (c.1, setStatAt c.2 rest f) else c)))

/-- Set a key in the content map. -/
def contentsSet (m : List (SysPath × List Nat)) (k : SysPath) (v : List Nat) :
    List (SysPath × List Nat) :=
  if m.any (fun kv => kv.1 == k) then
    m.map (fun kv => if kv.1 == k then (k, v) else kv)
  else m ++ [(k, v)]

/-- `common.utils.remove` of an existing path: the subtree and every content
entry under it disappear (no-op when the path is absent). -/
def silent_remove (σ : RState) (p : SysPath) : RState :=
  { σ with
      fs := removeAt σ.fs p
      contents := σ.contents.filter (fun kv => pfxB p kv.1 = false) }

/-- `RestoreHandler._remove` on a path: announce `[D]`, then (wet runs only)
delete the subtree and drop the path from `system_dirs`. -/
def remove_step (env : REnv) (p : SysPath) (σ : RState) : RState :=
  let σ1 := { σ with events := σ.events ++ [.deleted p] }
  if env.dry_run then σ1
  else { (silent_remove σ1 p) with
    system_dirs := σ1.system_dirs.filter (fun q => decide (q ≠ p)) }

/-- `RestoreHandler._remove`: the state step plus `set_removed` on the path
object. -/
def handler_remove (env : REnv) (rp : RestorePath) (σ : RState) :
    RestorePath × RState :=
  (rp.set_removed, remove_step env rp.system_path σ)

/-- `_resolve_system_user` on the `Option String` owners stored in
`ArchiveMetadata`: `None` or an unknown name resolve to the invoking real
uid. -/
def resolve_user_id (sys : Sys) (u : Option String) : Nat :=
  match u with
  | none => sys.real_uid
  | some n => (sys.user_ids n).getD sys.real_uid

/-- `_resolve_system_group` on stored owners. -/
def resolve_group_id (sys : Sys) (g : Option String) : Nat :=
  match g with
  | none => sys.real_gid
  | some n => (sys.group_ids n).getD sys.real_gid

/-- The net effect of `common.utils.chstat` with this metadata on a stat:
`chmod` replaces the twelve permission bits when they differ, `chown` sets
the resolved owner, `utime` sets `mtime_ns` exactly when the floor seconds
differ. -/
def chstatApply (sys : Sys) (md : ArchiveMetadata) (st : StatResult) :
    StatResult :=
  { st with
    st_mode :=
      if md.mode &&& 0o7777 == st.st_mode &&& 0o7777 then st.st_mode
      else S_IFMT st.st_mode + (md.mode &&& 0o7777),
    st_uid := resolve_user_id sys md.user,
    st_gid := resolve_group_id sys md.group,
    st_mtime_ns :=
      if md.mtime_ns.fdiv (10 ^ 9) == st.st_mtime_ns.fdiv (10 ^ 9) then
        st.st_mtime_ns
      else md.mtime_ns }

/-- `RestoreHandler._scan_system_metadata`: fill the memo pair from the live
filesystem; a stat error or an unsupported type raises (`none`). -/
def scan_system_metadata (σ : RState) (rp : RestorePath) :
    Option RestorePath :=
  if rp.scanned then some rp
  else
    match σ.fs.resolve rp.system_path with
    | none => some { rp with scanned := true, system_stat_result := none }
    | some node =>
      match node.st with
      | none => none
      | some r =>
        if is_supported_type r then
          some { rp with scanned := true, system_stat_result := some r }
        else none

/-- `RestoreHandler._check_loop`: no stat, no check; a repeated
`(st_dev, st_ino)` key answers `true`; a new key is cached (and logged in the
`visited` instrumentation) and answers `false`. -/
def check_loop (σ : RState) (rp : RestorePath) : Bool × RState :=
  match rp.system_stat_result with
  | none => (false, σ)
  | some st =>
    let key := (st.st_dev, st.st_ino)
    if key ∈ σ.inode_cache then (true, σ)
    else (false, { σ with
      inode_cache := key :: σ.inode_cache
      visited := σ.visited ++ [key] })

/-- `RestoreHandler._chstat` (the flag is `false` when it raises, with the
state untouched): skipped wholesale on dry runs; otherwise scan and apply the
archived metadata to the live stat. -/
def handler_chstat (env : REnv) (rp : RestorePath) (σ : RState) :
    RestorePath × RState × Bool :=
  if env.dry_run then (rp, σ, true)
  else
    match scan_system_metadata σ rp with
    | none => (rp, σ, false)
    | some rp =>
      match rp.archive_metadata with
      | none => (rp, σ, false)
      | some md =>
        match rp.system_stat_result with
        | some st0 =>
          (rp.reset_system_metadata,
            { σ with
                fs := setStatAt σ.fs rp.system_path
                  (fun _ => chstatApply env.sys md st0) },
            true)
        | none =>
          match σ.fs.resolve rp.system_path with
          | none => (rp, σ, false)
          | some node =>
            match node.st with
            | none => (rp, σ, false)
            | some st0 =>
              (rp.reset_system_metadata,
                { σ with
                    fs := setStatAt σ.fs rp.system_path
                      (fun _ => chstatApply env.sys md st0) },
                true)

/-- `RestoreHandler._scan_archive_info`: look the path up in the expanded
metadata map and in the archive; when the member is found, the map entry's
mode and size are overwritten from the member record. -/
def scan_archive_info (env : REnv) (rp : RestorePath) : RestorePath :=
  match alistGet env.amMap rp.system_path with
  | none => { rp with archive_info := none, archive_metadata := none }
  | some md =>
    match zipGetinfo env.zip md.path with
    | none => { rp with archive_info := none, archive_metadata := some md }
    | some i =>
      { rp with
          archive_info := some i
          archive_metadata := some { md with mode := i.mode, size := i.size } }

/-- The handler tracked-path dict: each tracked path pre-resolved against the
archive at `__init__`. -/
def tracked_restore_paths (env : REnv) : List (SysPath × RestorePath) :=
  env.tracked.map (fun t =>
    (t.1, scan_archive_info env { system_path := t.1, strategy := t.2 }))

/-- `RestoreHandler._refresh_restore_path`: a fresh copy of the pre-resolved
tracked object, else a fresh archive resolution. -/
def refresh_restore_path (env : REnv) (rp : RestorePath) : RestorePath :=
  match alistGet (tracked_restore_paths env) rp.system_path with
  | some t => t
  | none => scan_archive_info env rp

/-- `RestoreHandler._get_children_on_archive`: the member names under the
path archive directory, each turned into a refreshed child restore path
(inheriting the strategy); `none` when the archive listing raises. -/
def get_children_on_archive (env : REnv) (rp : RestorePath) :
    Option (List RestorePath) :=
  (zipChildNames env.zip rp.archive_path).map (fun names =>
    names.map (fun n => refresh_restore_path env
      { system_path := rp.system_path ++ [n], strategy := rp.strategy }))

/-- `RestoreHandler._get_children_on_system`: the live directory entries,
each refreshed; `none` when the listing raises. -/
def get_children_on_system (env : REnv) (σ : RState) (rp : RestorePath) :
    Option (List RestorePath) :=
  match σ.fs.resolve rp.system_path with
  | none => none
  | some node =>
    match node.children with
    | none => none
    | some cs => some (cs.map (fun c => refresh_restore_path env
        { system_path := rp.system_path ++ [c.1], strategy := rp.strategy }))

/-- A Python dict built by insertion with last-value-wins, keyed by
`system_path`. -/
def rpDict (l : List RestorePath) : List (SysPath × RestorePath) :=
  l.foldl (fun m rp =>
    if m.any (fun kv => kv.1 == rp.system_path) then
      m.map (fun kv => if kv.1 == rp.system_path then (kv.1, rp) else kv)
    else m ++ [(rp.system_path, rp)]) []

/-- The stat of a directory `common.utils.mkdir` creates (after the trailing
`chstat`): mode from the archived metadata (or the default creation mode),
resolved owner, archived mtime, the next fresh inode on device 0. -/
def mkdirStat (env : REnv) (σ : RState) (md : Option ArchiveMetadata) :
    StatResult :=
  match md with
  | none => ⟨0o40755, 0, 0, env.sys.real_uid, env.sys.real_gid, 0, σ.next_ino⟩
  | some m =>
    ⟨0o40000 + (m.mode &&& 0o7777), m.mtime_ns, 0,
      resolve_user_id env.sys m.user, resolve_group_id env.sys m.group,
      0, σ.next_ino⟩

/-- `common.utils.mkdir` (the flag is `false` when the stat raises, with the
state untouched): an existing non-directory is unlinked first; an existing
directory only gets the trailing `chstat`; otherwise the directory is created
and stat-ed per the metadata. -/
def utils_mkdir (env : REnv) (σ : RState) (p : SysPath)
    (md : Option ArchiveMetadata) : RState × Bool :=
  match σ.fs.resolve p with
  | none =>
    ({ σ with
        fs := setAt σ.fs p (.mk (some (mkdirStat env σ md)) (some []))
        next_ino := σ.next_ino + 1 }, true)
  | some node =>
    match node.st with
    | none => (σ, false)
    | some st =>
      if S_ISDIR st.st_mode then
        match md with
        | none =>
          ({ σ with
              fs := setStatAt σ.fs p (fun s =>
                { s with st_uid := env.sys.real_uid
                         st_gid := env.sys.real_gid }) }, true)
        | some m =>
          ({ σ with
              fs := setStatAt σ.fs p (fun _ => chstatApply env.sys m st) },
            true)
      else
        ({ σ with
            fs := setAt σ.fs p (.mk (some (mkdirStat env σ md)) (some []))
            contents := σ.contents.filter (fun kv => pfxB p kv.1 = false)
            next_ino := σ.next_ino + 1 }, true)

/-- `RestoreHandler._mkdir`: announce `[C]`, then (wet runs only) create the
directory and reset the memo pair; on a raise (flag `false`) the announcement
stays. -/
def handler_mkdir (env : REnv) (rp : RestorePath) (σ : RState) :
    RestorePath × RState × Bool :=
  let σ1 := { σ with events := σ.events ++ [.created rp.system_path] }
  if env.dry_run then (rp, σ1, true)
  else
    let u := utils_mkdir env σ1 rp.system_path rp.archive_metadata
    if u.2 then (rp.reset_system_metadata, u.1, true) else (rp, u.1, false)

/-- `RestoreHandler._makedirs` (fuel-bounded on the parent chain; the flag is
`false` when it raises, the state keeping everything done so far): a path in
`system_dirs` is trusted; a missing path builds its parents first and then
`_mkdir`s itself; the path is recorded in `system_dirs` either way. -/
def makedirs (env : REnv) : Nat → RestorePath → RState →
    RestorePath × RState × Bool
  | 0, rp, σ => (rp, σ, true)
  | fuel + 1, rp, σ =>
    if rp.system_path ∈ σ.system_dirs then (rp, σ, true)
    else
      match scan_system_metadata σ rp with
      | none => (rp, σ, false)
      | some rp =>
        if rp.exists_on_system then
          (rp, { σ with system_dirs := resultAdd σ.system_dirs rp.system_path },
            true)
        else
          let pres : RState × Bool :=
            match rp.get_parent with
            | none => (σ, true)
            | some par =>
              let m := makedirs env fuel (refresh_restore_path env par) σ
              (m.2.1, m.2.2)
          if pres.2 = false then (rp, pres.1, false)
          else
            let mk := handler_mkdir env rp pres.1
            if mk.2.2 = false then (mk.1, mk.2.1, false)
            else
              (mk.1,
                { mk.2.1 with
                    system_dirs := resultAdd mk.2.1.system_dirs
                      mk.1.system_path }, true)

mutual
/-- `RestoreHandler._prune_path` over the live subtree at the path: tracked
or excluded paths are refused outright; a path present in the archive is
kept; a vanished path counts as pruned; a directory is removed (bottom-up,
after its children) only when every child pruned; errors are reported and
refuse pruning. -/
def prune_path (env : REnv) (t : Option FSTree) (rp : RestorePath)
    (σ : RState) : Bool × RState :=
  if decide (rp.system_path ∈ env.tracked.map Prod.fst)
      || is_path_excluded env.e rp.system_path then (false, σ)
  else
    match t with
    | none => if rp.exists_on_archive then (false, σ) else (true, σ)
    | some (.mk none _) => (false, report σ)
    | some (.mk (some st) kids) =>
      if is_supported_type st = false then (false, report σ)
      else if rp.exists_on_archive then (false, σ)
      else if S_ISDIR st.st_mode then
        match kids with
        | none => (false, report σ)
        | some cs =>
          let r := prune_children env rp.system_path rp.strategy cs σ
          if r.1 then (true, remove_step env rp.system_path r.2)
          else (false, r.2)
      else (true, remove_step env rp.system_path σ)
termination_by sizeOf t

/-- The pruning pass over a listed children snapshot: every child flag is
computed (no short-circuit), then conjoined. -/
def prune_children (env : REnv) (p : SysPath) (strat : BackupStrategy) :
    List (String × FSTree) → RState → Bool × RState
  | [], σ => (true, σ)
  | (n, sub) :: rest, σ =>
    let child := refresh_restore_path env
      { system_path := p ++ [n], strategy := strat }
    let r1 := prune_path env (some sub) child σ
    let r2 := prune_children env p strat rest r1.2
    (r1.1 && r2.1, r2.2)
termination_by cs => sizeOf cs
end

/-- The sibling staging name of a live path: the final component with the
`.backup-pro.tmp` suffix appended. -/
def tmpName (p : SysPath) : SysPath :=
  p.dropLast ++ [(p.getLast?.getD "") ++ ".backup-pro.tmp"]

/-- The wet write phase of `_restore_file`, after the `[C]` announcement: a
symlink member is read, the live path removed (`_remove`, announcing `[D]`)
and the link planted; any other member is fully copied to the `tmpName`
sibling, the live path silently removed and the copy moved into place — a
copy failure removes the sibling again and reports, touching nothing else. -/
def restore_file_write (env : REnv) (rp : RestorePath) (σ : RState) :
    RestorePath × RState :=
  match rp.archive_metadata with
  | none => (rp, report σ)
  | some md =>
    if S_ISLNK md.mode then
      match rp.archive_info with
      | none => (rp, report σ)
      | some i =>
        match i.content with
        | none => (rp, report σ)
        | some target =>
          let s := handler_remove env rp σ
          let st : StatResult :=
            ⟨0o120777, 0, target.length, env.sys.real_uid,
              env.sys.real_gid, 0, s.2.next_ino⟩
          let σ2 := { s.2 with
            fs := setAt s.2.fs s.1.system_path (.mk (some st) none)
            contents := contentsSet s.2.contents s.1.system_path target
            next_ino := s.2.next_ino + 1 }
          (s.1.reset_system_metadata, σ2)
    else
      let tmp := tmpName rp.system_path
      match rp.archive_info with
      | none => (rp, report (silent_remove σ tmp))
      | some i =>
        match i.content with
        | none =>
          let σ1 := { σ with
            fs := setAt σ.fs tmp
              (.mk (some ⟨0o100644, 0, 0, env.sys.real_uid,
                env.sys.real_gid, 0, σ.next_ino⟩) none)
            contents := contentsSet σ.contents tmp []
            next_ino := σ.next_ino + 1 }
          (rp, report (silent_remove σ1 tmp))
        | some bytes =>
          let fst : StatResult :=
            ⟨0o100644, 0, bytes.length, env.sys.real_uid,
              env.sys.real_gid, 0, σ.next_ino⟩
          let σ1 := { σ with
            fs := setAt σ.fs tmp (.mk (some fst) none)
            contents := contentsSet σ.contents tmp bytes
            next_ino := σ.next_ino + 1 }
          let σ2 := silent_remove σ1 rp.system_path
          let σ3 := { σ2 with
            fs := setAt (removeAt σ2.fs tmp) rp.system_path
              (.mk (some fst) none)
            contents := contentsSet
              (σ2.contents.filter (fun kv => pfxB tmp kv.1 = false))
              rp.system_path bytes }
          (rp.reset_system_metadata, σ3)

/-- `RestoreHandler._restore_file`: scan; create missing parents (or return
untouched when the live file is unchanged); announce `[C]`; then, wet runs
only, run the write phase.  Every failure is reported and aborts the rest of
the body. -/
def restore_file (env : REnv) (fuel : Nat) (rp0 : RestorePath) (σ0 : RState) :
    RestorePath × RState :=
  match scan_system_metadata σ0 rp0 with
  | none => (rp0, report σ0)
  | some rp =>
    if rp.exists_on_system then
      if rp.is_changed then
        let σ := { σ0 with events := σ0.events ++ [.created rp.system_path] }
        if env.dry_run then (rp, σ) else restore_file_write env rp σ
      else (rp, σ0)
    else
      let m : RState × Bool :=
        match rp.get_parent with
        | none => (σ0, true)
        | some par =>
          let r := makedirs env fuel (refresh_restore_path env par) σ0
          (r.2.1, r.2.2)
      if m.2 = false then (rp, report m.1)
      else
        let σ := { m.1 with events := m.1.events ++ [.created rp.system_path] }
        if env.dry_run then (rp, σ) else restore_file_write env rp σ

/-- `any(...)` over archive children, short-circuiting, with the per-child
check passed in. -/
def ipc_any (rec : RestorePath → RState → Bool × RState) :
    List RestorePath → RState → Bool × RState
  | [], σ => (false, σ)
  | c :: rest, σ =>
    let r := rec c σ
    if r.1 then (true, r.2) else ipc_any rec rest r.2

/-- `RestoreHandler._is_path_changed` (fuel-bounded along archive children):
a directory member is changed when any archive child is (short-circuiting); a
file member by `is_changed`; any failure reports and counts as changed. -/
def is_path_changed (env : REnv) : Nat → RestorePath → RState →
    Bool × RState
  | 0, _, σ => (true, σ)
  | fuel + 1, rp, σ =>
    match scan_system_metadata σ rp with
    | none => (true, report σ)
    | some rp =>
      if rp.is_dir_on_archive then
        match get_children_on_archive env rp with
        | none => (true, report σ)
        | some kids => ipc_any (is_path_changed env fuel) kids σ
      else (rp.is_changed, σ)

/-- `RestoreHandler._extract_tmp_path`: staging lives outside the live tree;
the model records only its failure reports (a missing member or failing read
aborts a subtree extraction with a report). -/
def extract_tmp (env : REnv) : Nat → RestorePath → RState → RState
  | 0, _, σ => σ
  | fuel + 1, rp, σ =>
    match rp.archive_info with
    | none => report σ
    | some i =>
      match i.content with
      | none => report σ
      | some _ =>
        if rp.is_dir_on_archive then
          match get_children_on_archive env rp with
          | none => report σ
          | some kids => kids.foldl (fun σ c => extract_tmp env fuel c σ) σ
        else σ

/-- `RestoreHandler._restore_metadata` (via `_check_diff`, wet runs only):
re-apply archived metadata over same-format paths, recursing along archive
children. -/
def restore_metadata (env : REnv) : Nat → RestorePath → RState → RState
  | 0, _, σ => σ
  | fuel + 1, rp, σ =>
    match scan_system_metadata σ rp with
    | none => report σ
    | some rp =>
      if rp.has_same_format then
        let c := handler_chstat env rp σ
        if c.2.2 = false then report c.2.1
        else
          if c.1.is_dir_on_archive then
            match get_children_on_archive env c.1 with
            | none => report c.2.1
            | some kids =>
              kids.foldl (fun σ d => restore_metadata env fuel d σ) c.2.1
          else c.2.1
      else σ

/-- `RestoreHandler._restore_manually`: nothing to do when the path is
unchanged; otherwise announce `[M]` with the staging location and, wet runs
only, extract into staging and (when a diff checker is configured) run it and
re-apply metadata. -/
def restore_manually (env : REnv) (fuel : Nat) (rp : RestorePath)
    (σ0 : RState) : RState :=
  let r := is_path_changed env fuel rp σ0
  if r.1 = false then r.2
  else
    let σ := { r.2 with
      events := r.2.events ++
        [.manual (env.tmp_root ++ parseArchivePath rp.archive_path)
          rp.system_path] }
    if env.dry_run then σ
    else
      let σ := extract_tmp env fuel rp σ
      if env.has_diff_checker then restore_metadata env fuel rp σ else σ

/-- The reconciliation phase of `_restore_dir`, after the directory exists
(`rec` is the recursion into archive children): list the archive children
into a dict; when the directory pre-existed, prune live children missing from
the dict; recurse into the archive children.  Failures report and abort the
rest. -/
def restore_dir_go (env : REnv) (rec : RestorePath → RState → RState)
    (rp : RestorePath) (σ : RState) (prune_dir : Bool) :
    RestorePath × RState :=
  match get_children_on_archive env rp with
  | none => (rp, report σ)
  | some kids =>
    let dict := rpDict kids
    if prune_dir then
      match get_children_on_system env σ rp with
      | none => (rp, report σ)
      | some syskids =>
        let σ2 := syskids.foldl (fun σ c =>
          if dict.any (fun kv => kv.1 == c.system_path) then σ
          else (prune_path env (σ.fs.resolve c.system_path) c σ).2) σ
        (rp, (dict.map Prod.snd).foldl (fun σ c => rec c σ) σ2)
    else
      (rp, (dict.map Prod.snd).foldl (fun σ c => rec c σ) σ)

/-- `RestoreHandler._restore_dir`, with the recursion into archive children
passed in as `rec`: scan; create the directory when missing (re-scanning
after), else mark it for pruning; then reconcile. -/
def restore_dir_g (env : REnv) (rec : RestorePath → RState → RState)
    (fuel : Nat) (rp0 : RestorePath) (σ0 : RState) : RestorePath × RState :=
  match scan_system_metadata σ0 rp0 with
  | none => (rp0, report σ0)
  | some rp1 =>
    if rp1.exists_on_system then restore_dir_go env rec rp1 σ0 true
    else
      match makedirs env fuel rp1 σ0 with
      | (_, σm, false) => (rp1, report σm)
      | (rpm, σm, true) =>
        match scan_system_metadata σm rpm with
        | none => (rpm, report σm)
        | some rp2 => restore_dir_go env rec rp2 σm false

/-- The silent `_chstat` closing `_restore_path`: a raise is reported. -/
def chstat_tail (env : REnv) (s : RestorePath × RState) : RState :=
  match handler_chstat env s.1 s.2 with
  | (_, σ2, true) => σ2
  | (_, σ2, false) => report σ2

/-- The action phase of `_restore_path`, after the loop check and conflict
removal: restore manually, or as a directory or file followed by the silent
`_chstat`. -/
def restore_path_act (env : REnv) (rec : RestorePath → RState → RState)
    (fuel : Nat) (rp : RestorePath) (σ : RState) : RState :=
  if env.interactive || rp.strategy == .Manual then
    restore_manually env fuel rp σ
  else if rp.is_dir_on_archive then
    chstat_tail env (restore_dir_g env rec fuel rp σ)
  else chstat_tail env (restore_file env fuel rp σ)

/-- `RestoreHandler._restore_path` (fuel-bounded along archive children):
skip cached, `BackupOnly` or excluded paths; scan; skip paths absent from the
archive or caught by the loop check; remove a format conflict; then act. -/
def restore_path (env : REnv) : Nat → RestorePath → RState → RState
  | 0, _, σ => σ
  | fuel + 1, rp0, σ0 =>
    if rp0.system_path ∈ σ0.restore_cache then σ0
    else
      let σ := { σ0 with
        restore_cache := σ0.restore_cache ++ [rp0.system_path] }
      if rp0.strategy == .BackupOnly
          || is_path_excluded env.e rp0.system_path then σ
      else
        match scan_system_metadata σ rp0 with
        | none => report σ
        | some rp =>
          if rp.exists_on_archive = false then σ
          else
            match check_loop σ rp with
            | (true, σ2) => σ2
            | (false, σ2) =>
              if rp.has_format_conflict then
                match handler_remove env rp σ2 with
                | (rp2, σ3) =>
                  restore_path_act env (restore_path env fuel) fuel rp2 σ3
              else restore_path_act env (restore_path env fuel) fuel rp σ2

/-- `RestoreHandler._restore_dir` proper: `restore_dir_g` with the recursion
tied to `restore_path` at the same fuel. -/
def restore_dir (env : REnv) (fuel : Nat) : RestorePath → RState →
    RestorePath × RState :=
  restore_dir_g env (restore_path env fuel) fuel

/-- The length of the longest key of the metadata map: every path the walk
recurses into through archive children is a key, so this bounds the nesting
depth. -/
def maxKeyLen (m : List (SysPath × ArchiveMetadata)) : Nat :=
  m.foldl (fun a kv => max a kv.1.length) 0

/-- The fuel `restore_run` seeds: enough for the archive-children nesting and
the parent chains of `_makedirs`. -/
def restore_fuel (env : REnv) : Nat := maxKeyLen env.amMap + 2

/-- The initial state of a restore run over a live filesystem. -/
def init_rstate (fs : FSTree) : RState :=
  ⟨fs, [], [], [], [], [], 1000000, []⟩

/-- `RestoreHandler.restore`: walk every pre-resolved tracked path. -/
def restore_run (env : REnv) (fs : FSTree) : RState :=
  (tracked_restore_paths env).foldl
    (fun σ t => restore_path env (restore_fuel env) t.2 σ) (init_rstate fs)


/-- The live-filesystem projection of a restore state. -/
def fsOf (σ : RState) : FSTree × List (SysPath × List Nat) :=
  (σ.fs, σ.contents)

/-- The loop-detection projection of a restore state. -/
def inoOf (σ : RState) : List (Nat × Nat) × List (Nat × Nat) :=
  (σ.inode_cache, σ.visited)

/-- State extension along a walk step: the loop caches are untouched and the
log only grows. -/
def PresIE (σ σ2 : RState) : Prop :=
  inoOf σ2 = inoOf σ ∧ ∃ Δ, σ2.events = σ.events ++ Δ

theorem PresIE.same (σ : RState) : PresIE σ σ := ⟨rfl, [], by simp⟩

theorem PresIE.compose {a b c : RState} (h1 : PresIE a b) (h2 : PresIE b c) :
    PresIE a c := by
  obtain ⟨e1, Δ1, hΔ1⟩ := h1
  obtain ⟨e2, Δ2, hΔ2⟩ := h2
  exact ⟨e2.trans e1, Δ1 ++ Δ2, by rw [hΔ2, hΔ1, List.append_assoc]⟩

theorem presIE_report (σ : RState) : PresIE σ (report σ) :=
  ⟨rfl, [.reported], rfl⟩

theorem presIE_silent_remove (σ : RState) (p : SysPath) :
    PresIE σ (silent_remove σ p) := ⟨rfl, [], by simp [silent_remove]⟩

theorem presIE_remove_step (env : REnv) (p : SysPath) (σ : RState) :
    PresIE σ (remove_step env p σ) := by
  rw [remove_step]
  split
  · exact ⟨rfl, [.deleted p], rfl⟩
  · exact ⟨rfl, [.deleted p], rfl⟩

theorem presIE_utils_mkdir (env : REnv) (σ : RState) (p : SysPath)
    (md : Option ArchiveMetadata) : PresIE σ (utils_mkdir env σ p md).1 := by
  rw [utils_mkdir]
  split
  · exact ⟨rfl, [], by simp⟩
  · split
    · exact PresIE.same σ
    · split
      · split
        · exact ⟨rfl, [], by simp⟩
        · exact ⟨rfl, [], by simp⟩
      · exact ⟨rfl, [], by simp⟩

theorem presIE_handler_mkdir (env : REnv) (rp : RestorePath) (σ : RState) :
    PresIE σ (handler_mkdir env rp σ).2.1 := by
  have hbase : PresIE σ
      { σ with events := σ.events ++ [REvent.created rp.system_path] } :=
    ⟨rfl, [.created rp.system_path], rfl⟩
  simp only [handler_mkdir]
  have h2 := presIE_utils_mkdir env
    { σ with events := σ.events ++ [REvent.created rp.system_path] }
    rp.system_path rp.archive_metadata
  split
  · exact hbase
  · split
    · exact hbase.compose h2
    · exact hbase.compose h2

theorem presIE_handler_chstat (env : REnv) (rp : RestorePath) (σ : RState) :
    PresIE σ (handler_chstat env rp σ).2.1 := by
  rw [handler_chstat]
  split
  · exact PresIE.same σ
  · split
    · exact PresIE.same σ
    · split
      · exact PresIE.same σ
      · split
        · exact ⟨rfl, [], by simp⟩
        · split
          · exact PresIE.same σ
          · split
            · exact PresIE.same σ
            · exact ⟨rfl, [], by simp⟩

theorem handler_chstat_dry (env : REnv) (rp : RestorePath) (σ : RState)
    (hd : env.dry_run = true) :
    handler_chstat env rp σ = (rp, σ, true) := by
  rw [handler_chstat, hd]
  rfl

theorem presIE_makedirs (env : REnv) (fuel : Nat) (rp : RestorePath)
    (σ : RState) : PresIE σ (makedirs env fuel rp σ).2.1 := by
  induction fuel generalizing rp σ with
  | zero => exact PresIE.same σ
  | succ fuel ih =>
    simp only [makedirs]
    split
    · exact PresIE.same σ
    · cases hs : scan_system_metadata σ rp with
      | none => simp only [hs]; exact PresIE.same σ
      | some rp1 =>
        simp only [hs]
        split
        · exact ⟨rfl, [], by simp⟩
        · cases hp : rp1.get_parent with
          | none =>
            simp only [hp]
            have hmk := presIE_handler_mkdir env rp1 σ
            split
            · simp at *
            · split
              · exact hmk
              · exact hmk.compose ⟨rfl, [], by simp⟩
          | some par =>
            simp only [hp]
            have hrec := ih (refresh_restore_path env par) σ
            have hmk := presIE_handler_mkdir env rp1
              (makedirs env fuel (refresh_restore_path env par) σ).2.1
            split
            · exact hrec
            · split
              · exact hrec.compose hmk
              · exact (hrec.compose hmk).compose ⟨rfl, [], by simp⟩

theorem fsOf_remove_step_dry (env : REnv) (p : SysPath) (σ : RState)
    (hd : env.dry_run = true) : fsOf (remove_step env p σ) = fsOf σ := by
  rw [remove_step]
  simp only [hd, if_true]
  rfl

theorem fsOf_makedirs_dry (env : REnv) (fuel : Nat) (rp : RestorePath)
    (σ : RState) (hd : env.dry_run = true) :
    fsOf (makedirs env fuel rp σ).2.1 = fsOf σ := by
  induction fuel generalizing rp σ with
  | zero => rfl
  | succ fuel ih =>
    simp only [makedirs]
    split
    · rfl
    · cases hs : scan_system_metadata σ rp with
      | none => simp only [hs]
      | some rp1 =>
        simp only [hs]
        split
        · rfl
        · have hmkd : ∀ σx : RState,
              fsOf (handler_mkdir env rp1 σx).2.1 = fsOf σx := by
            intro σx
            simp only [handler_mkdir, hd, if_true]
            rfl
          cases hp : rp1.get_parent with
          | none =>
            simp only [hp]
            split
            · simp at *
            · split
              · exact hmkd σ
              · exact hmkd σ
          | some par =>
            simp only [hp]
            have hrec := ih (refresh_restore_path env par) σ
            split
            · exact hrec
            · split
              · exact (hmkd _).trans hrec
              · exact (hmkd _).trans hrec

/-- The single walk-step contract: loop caches untouched, the live tree
untouched on dry runs, the log only growing. -/
def StepOK (env : REnv) (σ σ2 : RState) : Prop :=
  inoOf σ2 = inoOf σ ∧ (env.dry_run = true → fsOf σ2 = fsOf σ)
    ∧ ∃ Δ, σ2.events = σ.events ++ Δ

theorem StepOK.stay (env : REnv) (σ : RState) : StepOK env σ σ :=
  ⟨rfl, fun _ => rfl, [], by simp⟩

theorem StepOK.glue {env : REnv} {a b c : RState} (h1 : StepOK env a b)
    (h2 : StepOK env b c) : StepOK env a c := by
  obtain ⟨i1, f1, Δ1, hΔ1⟩ := h1
  obtain ⟨i2, f2, Δ2, hΔ2⟩ := h2
  exact ⟨i2.trans i1, fun hd => (f2 hd).trans (f1 hd), Δ1 ++ Δ2,
    by rw [hΔ2, hΔ1, List.append_assoc]⟩

theorem StepOK.of_parts {env : REnv} {a b : RState} (h1 : PresIE a b)
    (h2 : env.dry_run = true → fsOf b = fsOf a) : StepOK env a b :=
  ⟨h1.1, h2, h1.2⟩

theorem stepOK_report (env : REnv) (σ : RState) : StepOK env σ (report σ) :=
  ⟨rfl, fun _ => rfl, [.reported], rfl⟩

theorem stepOK_remove_step (env : REnv) (p : SysPath) (σ : RState) :
    StepOK env σ (remove_step env p σ) :=
  .of_parts (presIE_remove_step env p σ) (fsOf_remove_step_dry env p σ)

theorem stepOK_handler_chstat (env : REnv) (rp : RestorePath) (σ : RState) :
    StepOK env σ (handler_chstat env rp σ).2.1 :=
  .of_parts (presIE_handler_chstat env rp σ)
    (fun hd => by rw [handler_chstat_dry env rp σ hd])

theorem stepOK_handler_mkdir (env : REnv) (rp : RestorePath) (σ : RState) :
    StepOK env σ (handler_mkdir env rp σ).2.1 :=
  .of_parts (presIE_handler_mkdir env rp σ)
    (fun hd => by simp only [handler_mkdir, hd, if_true]; rfl)

theorem stepOK_makedirs (env : REnv) (fuel : Nat) (rp : RestorePath)
    (σ : RState) : StepOK env σ (makedirs env fuel rp σ).2.1 :=
  .of_parts (presIE_makedirs env fuel rp σ) (fsOf_makedirs_dry env fuel rp σ)

/-- A fold whose steps satisfy a reflexive-transitive relation satisfies
it. -/
theorem foldl_rel {α : Type} (R : RState → RState → Prop)
    (hrefl : ∀ σ, R σ σ) (htrans : ∀ a b c, R a b → R b c → R a c)
    (f : RState → α → RState) (l : List α) (σ : RState)
    (h : ∀ σ c, c ∈ l → R σ (f σ c)) : R σ (l.foldl f σ) := by
  induction l generalizing σ with
  | nil => exact hrefl σ
  | cons c rest ih =>
    rw [List.foldl_cons]
    exact htrans _ _ _ (h σ c (List.mem_cons_self _ _))
      (ih _ (fun σ d hd => h σ d (List.mem_cons_of_mem _ hd)))

theorem stepOK_restore_file_write (env : REnv) (rp : RestorePath)
    (σ : RState) (hw : env.dry_run = false) :
    StepOK env σ (restore_file_write env rp σ).2 := by
  have hrep : ∀ σx : RState, PresIE σx (report σx) := presIE_report
  simp only [restore_file_write]
  split
  · exact .of_parts (hrep σ) (fun hd => by rw [hd] at hw; cases hw)
  · split
    · split
      · exact .of_parts (hrep σ) (fun hd => by rw [hd] at hw; cases hw)
      · split
        · exact .of_parts (hrep σ) (fun hd => by rw [hd] at hw; cases hw)
        · refine .of_parts ?_ (fun hd => by rw [hd] at hw; cases hw)
          refine (presIE_remove_step env rp.system_path σ).compose ?_
          exact ⟨rfl, [], by simp [handler_remove]⟩
    · split
      · exact .of_parts ⟨rfl, [.reported], by simp [report, silent_remove]⟩
          (fun hd => by rw [hd] at hw; cases hw)
      · split
        · exact .of_parts ⟨rfl, [.reported], by simp [report, silent_remove]⟩
            (fun hd => by rw [hd] at hw; cases hw)
        · exact .of_parts ⟨rfl, [], by simp [silent_remove]⟩
            (fun hd => by rw [hd] at hw; cases hw)

theorem stepOK_restore_file (env : REnv) (fuel : Nat) (rp : RestorePath)
    (σ : RState) : StepOK env σ (restore_file env fuel rp σ).2 := by
  have hev : ∀ σx : RState, ∀ q, StepOK env σx
      { σx with events := σx.events ++ [REvent.created q] } :=
    fun σx q => ⟨rfl, fun _ => rfl, [.created q], rfl⟩
  simp only [restore_file]
  split
  · exact stepOK_report env σ
  · rename_i rp1 hs
    split
    · split
      · split
        · exact hev σ rp1.system_path
        · rename_i hwet
          refine (hev σ rp1.system_path).glue ?_
          exact stepOK_restore_file_write env rp1 _ (by simpa using hwet)
      · exact StepOK.stay env σ
    · cases hp : rp1.get_parent with
      | none =>
        simp only [hp]
        split
        · simp at *
        · split
          · exact hev σ rp1.system_path
          · rename_i hwet
            refine (hev σ rp1.system_path).glue ?_
            exact stepOK_restore_file_write env rp1 _ (by simpa using hwet)
      | some par =>
        simp only [hp]
        have hmd := stepOK_makedirs env fuel (refresh_restore_path env par) σ
        split
        · exact hmd.glue (stepOK_report env _)
        · split
          · exact (hmd.glue (hev _ rp1.system_path))
          · rename_i hwet
            refine (hmd.glue (hev _ rp1.system_path)).glue ?_
            exact stepOK_restore_file_write env rp1 _ (by simpa using hwet)

theorem pp_guard (env : REnv) (t : Option FSTree) (rp : RestorePath)
    (σ : RState)
    (h : (decide (rp.system_path ∈ env.tracked.map Prod.fst)
      || is_path_excluded env.e rp.system_path) = true) :
    prune_path env t rp σ = (false, σ) := by
  rw [prune_path.eq_def]
  simp only [h]
  rfl

theorem pp_none (env : REnv) (rp : RestorePath) (σ : RState)
    (h : (decide (rp.system_path ∈ env.tracked.map Prod.fst)
      || is_path_excluded env.e rp.system_path) = false) :
    prune_path env none rp σ
      = (if rp.exists_on_archive then (false, σ) else (true, σ)) := by
  rw [prune_path.eq_def]
  simp only [h]
  rfl

theorem pp_stat_err (env : REnv) (kids : Option (List (String × FSTree)))
    (rp : RestorePath) (σ : RState)
    (h : (decide (rp.system_path ∈ env.tracked.map Prod.fst)
      || is_path_excluded env.e rp.system_path) = false) :
    prune_path env (some (.mk none kids)) rp σ = (false, report σ) := by
  rw [prune_path.eq_def]
  simp only [h]
  rfl

theorem pp_unsupported (env : REnv) (st : StatResult)
    (kids : Option (List (String × FSTree))) (rp : RestorePath) (σ : RState)
    (h : (decide (rp.system_path ∈ env.tracked.map Prod.fst)
      || is_path_excluded env.e rp.system_path) = false)
    (hu : is_supported_type st = false) :
    prune_path env (some (.mk (some st) kids)) rp σ = (false, report σ) := by
  rw [prune_path.eq_def]
  simp only [h, hu]
  rfl

theorem pp_on_archive (env : REnv) (st : StatResult)
    (kids : Option (List (String × FSTree))) (rp : RestorePath) (σ : RState)
    (h : (decide (rp.system_path ∈ env.tracked.map Prod.fst)
      || is_path_excluded env.e rp.system_path) = false)
    (hu : is_supported_type st = true) (ha : rp.exists_on_archive = true) :
    prune_path env (some (.mk (some st) kids)) rp σ = (false, σ) := by
  rw [prune_path.eq_def]
  simp only [h, hu, ha]
  rfl

theorem pp_dir_kids_none (env : REnv) (st : StatResult) (rp : RestorePath)
    (σ : RState)
    (h : (decide (rp.system_path ∈ env.tracked.map Prod.fst)
      || is_path_excluded env.e rp.system_path) = false)
    (hu : is_supported_type st = true) (ha : rp.exists_on_archive = false)
    (hdir : S_ISDIR st.st_mode = true) :
    prune_path env (some (.mk (some st) none)) rp σ = (false, report σ) := by
  rw [prune_path.eq_def]
  simp only [h, hu, ha, hdir]
  rfl

theorem pp_dir (env : REnv) (st : StatResult) (cs : List (String × FSTree))
    (rp : RestorePath) (σ : RState)
    (h : (decide (rp.system_path ∈ env.tracked.map Prod.fst)
      || is_path_excluded env.e rp.system_path) = false)
    (hu : is_supported_type st = true) (ha : rp.exists_on_archive = false)
    (hdir : S_ISDIR st.st_mode = true) :
    prune_path env (some (.mk (some st) (some cs))) rp σ
      = (if (prune_children env rp.system_path rp.strategy cs σ).1 then
          (true, remove_step env rp.system_path
            (prune_children env rp.system_path rp.strategy cs σ).2)
        else (false, (prune_children env rp.system_path rp.strategy cs σ).2))
    := by
  rw [prune_path.eq_def]
  simp only [h, hu, ha, hdir]
  rfl

theorem pp_file (env : REnv) (st : StatResult)
    (kids : Option (List (String × FSTree))) (rp : RestorePath) (σ : RState)
    (h : (decide (rp.system_path ∈ env.tracked.map Prod.fst)
      || is_path_excluded env.e rp.system_path) = false)
    (hu : is_supported_type st = true) (ha : rp.exists_on_archive = false)
    (hdir : S_ISDIR st.st_mode = false) :
    prune_path env (some (.mk (some st) kids)) rp σ
      = (true, remove_step env rp.system_path σ) := by
  rw [prune_path.eq_def]
  simp only [h, hu, ha, hdir]
  rfl

theorem pc_nil (env : REnv) (p : SysPath) (strat : BackupStrategy)
    (σ : RState) : prune_children env p strat [] σ = (true, σ) := by
  rw [prune_children.eq_def]

theorem pc_cons (env : REnv) (p : SysPath) (strat : BackupStrategy)
    (n : String) (sub : FSTree) (rest : List (String × FSTree)) (σ : RState) :
    prune_children env p strat ((n, sub) :: rest) σ
      = ((prune_path env (some sub)
            (refresh_restore_path env { system_path := p ++ [n]
                                        strategy := strat }) σ).1
          && (prune_children env p strat rest
                (prune_path env (some sub)
                  (refresh_restore_path env { system_path := p ++ [n]
                                              strategy := strat }) σ).2).1,
         (prune_children env p strat rest
            (prune_path env (some sub)
              (refresh_restore_path env { system_path := p ++ [n]
                                          strategy := strat }) σ).2).2) := by
  rw [prune_children.eq_def]

theorem stepOK_prune (env : REnv) :
    (∀ (t : Option FSTree) (rp : RestorePath) (σ : RState),
      StepOK env σ (prune_path env t rp σ).2)
    ∧ (∀ (p : SysPath) (strat : BackupStrategy)
        (cs : List (String × FSTree)) (σ : RState),
      StepOK env σ (prune_children env p strat cs σ).2) := by
  refine prune_path.mutual_induct env
    (fun t rp σ => StepOK env σ (prune_path env t rp σ).2)
    (fun p strat cs σ => StepOK env σ (prune_children env p strat cs σ).2)
    ?_ ?_ ?_ ?_ ?_ ?_ ?_ ?_ ?_ ?_ ?_ ?_
  · intro t rp σ hg
    rw [pp_guard env t rp σ hg]
    exact StepOK.stay env σ
  · intro rp σ hg ha
    rw [pp_none env rp σ (by simpa using hg), ha]
    exact StepOK.stay env σ
  · intro rp σ hg ha
    rw [pp_none env rp σ (by simpa using hg)]
    rw [show rp.exists_on_archive = false by simpa using ha]
    exact StepOK.stay env σ
  · intro rp σ hg kids
    rw [pp_stat_err env kids rp σ (by simpa using hg)]
    exact stepOK_report env σ
  · intro rp σ hg st kids hu
    rw [pp_unsupported env st kids rp σ (by simpa using hg) hu]
    exact stepOK_report env σ
  · intro rp σ hg st kids hu ha
    rw [pp_on_archive env st kids rp σ (by simpa using hg)
      (by simpa using hu) ha]
    exact StepOK.stay env σ
  · intro rp σ hg st hu ha hdir
    rw [pp_dir_kids_none env st rp σ (by simpa using hg) (by simpa using hu)
      (by simpa using ha) hdir]
    exact stepOK_report env σ
  · intro rp σ hg st hu ha hdir cs r hr ih
    rw [pp_dir env st cs rp σ (by simpa using hg) (by simpa using hu)
      (by simpa using ha) hdir]
    have hr2 : (prune_children env rp.system_path rp.strategy cs σ).1 = true
      := hr
    rw [if_pos hr2]
    exact ih.glue (stepOK_remove_step env rp.system_path _)
  · intro rp σ hg st hu ha hdir cs r hr ih
    rw [pp_dir env st cs rp σ (by simpa using hg) (by simpa using hu)
      (by simpa using ha) hdir]
    have hr2 : ¬((prune_children env rp.system_path rp.strategy cs σ).1
      = true) := hr
    rw [if_neg hr2]
    exact ih
  · intro rp σ hg st kids hu ha hdir
    rw [pp_file env st kids rp σ (by simpa using hg) (by simpa using hu)
      (by simpa using ha) (by simpa using hdir)]
    exact stepOK_remove_step env rp.system_path σ
  · intro p strat σ
    rw [pc_nil]
    exact StepOK.stay env σ
  · intro p strat n sub rest σ child r1 ih1 ih1b ih2
    rw [pc_cons]
    exact ih1b.glue ih2

theorem stepOK_handler_remove (env : REnv) (rp : RestorePath) (σ : RState) :
    StepOK env σ (handler_remove env rp σ).2 :=
  stepOK_remove_step env rp.system_path σ

theorem stepOK_ipc_any (env : REnv)
    (rec : RestorePath → RState → Bool × RState)
    (hrec : ∀ c σ, StepOK env σ (rec c σ).2) :
    ∀ (l : List RestorePath) (σ : RState),
    StepOK env σ (ipc_any rec l σ).2 := by
  intro l
  induction l with
  | nil => intro σ; exact StepOK.stay env σ
  | cons c rest ih =>
    intro σ
    rw [ipc_any]
    split
    · exact hrec c σ
    · exact (hrec c σ).glue (ih _)

theorem stepOK_is_path_changed (env : REnv) (fuel : Nat) (rp : RestorePath)
    (σ : RState) : StepOK env σ (is_path_changed env fuel rp σ).2 := by
  induction fuel generalizing rp σ with
  | zero => exact StepOK.stay env σ
  | succ fuel ih =>
    rw [is_path_changed]
    split
    · exact stepOK_report env σ
    · split
      · split
        · exact stepOK_report env σ
        · exact stepOK_ipc_any env _ (fun c σ => ih c σ) _ σ
      · exact StepOK.stay env σ

theorem stepOK_extract_tmp (env : REnv) (fuel : Nat) (rp : RestorePath)
    (σ : RState) : StepOK env σ (extract_tmp env fuel rp σ) := by
  induction fuel generalizing rp σ with
  | zero => exact StepOK.stay env σ
  | succ fuel ih =>
    rw [extract_tmp]
    split
    · exact stepOK_report env σ
    · split
      · exact stepOK_report env σ
      · split
        · split
          · exact stepOK_report env σ
          · exact foldl_rel (StepOK env) (StepOK.stay env)
              (fun a b c => StepOK.glue) _ _ σ (fun σ c _ => ih c σ)
        · exact StepOK.stay env σ

theorem stepOK_restore_metadata (env : REnv) (fuel : Nat) (rp : RestorePath)
    (σ : RState) : StepOK env σ (restore_metadata env fuel rp σ) := by
  induction fuel generalizing rp σ with
  | zero => exact StepOK.stay env σ
  | succ fuel ih =>
    rw [restore_metadata]
    cases hsc : scan_system_metadata σ rp with
    | none => exact stepOK_report env σ
    | some rp1 =>
      simp only [hsc]
      have hch := stepOK_handler_chstat env rp1 σ
      split
      · split
        · exact hch.glue (stepOK_report env _)
        · split
          · split
            · exact hch.glue (stepOK_report env _)
            · refine hch.glue ?_
              exact foldl_rel (StepOK env) (StepOK.stay env)
                (fun a b c => StepOK.glue) _ _ _ (fun σ c _ => ih c σ)
          · exact hch
      · exact StepOK.stay env σ

theorem stepOK_restore_manually (env : REnv) (fuel : Nat) (rp : RestorePath)
    (σ : RState) : StepOK env σ (restore_manually env fuel rp σ) := by
  have hipc := stepOK_is_path_changed env fuel rp σ
  rw [restore_manually]
  split
  · exact hipc
  · have hev : StepOK env σ
        { (is_path_changed env fuel rp σ).2 with
          events := (is_path_changed env fuel rp σ).2.events ++
            [.manual (env.tmp_root ++ parseArchivePath rp.archive_path)
              rp.system_path] } :=
      hipc.glue ⟨rfl, fun _ => rfl, [_], rfl⟩
    split
    · exact hev
    · split
      · exact (hev.glue (stepOK_extract_tmp env fuel rp _)).glue
          (stepOK_restore_metadata env fuel rp _)
      · exact hev.glue (stepOK_extract_tmp env fuel rp _)

/-- The loop-safety invariant: every visited key was cached, and no key is
visited twice. -/
def InvC4 (σ : RState) : Prop :=
  σ.visited.Nodup ∧ ∀ k ∈ σ.visited, k ∈ σ.inode_cache

/-- The whole-walk contract: loop safety is preserved, the live tree is
untouched on dry runs, the log only grows. -/
def WalkOK (env : REnv) (σ σ2 : RState) : Prop :=
  (InvC4 σ → InvC4 σ2) ∧ (env.dry_run = true → fsOf σ2 = fsOf σ)
    ∧ ∃ Δ, σ2.events = σ.events ++ Δ

theorem WalkOK.keep (env : REnv) (σ : RState) : WalkOK env σ σ :=
  ⟨id, fun _ => rfl, [], by simp⟩

theorem WalkOK.join {env : REnv} {a b c : RState} (h1 : WalkOK env a b)
    (h2 : WalkOK env b c) : WalkOK env a c := by
  obtain ⟨i1, f1, Δ1, hΔ1⟩ := h1
  obtain ⟨i2, f2, Δ2, hΔ2⟩ := h2
  exact ⟨fun h => i2 (i1 h), fun hd => (f2 hd).trans (f1 hd), Δ1 ++ Δ2,
    by rw [hΔ2, hΔ1, List.append_assoc]⟩

theorem StepOK.walk {env : REnv} {a b : RState} (h : StepOK env a b) :
    WalkOK env a b := by
  obtain ⟨hio, hfs, hΔ⟩ := h
  refine ⟨?_, hfs, hΔ⟩
  intro hinv
  have h1 : b.inode_cache = a.inode_cache := congrArg Prod.fst hio
  have h2 : b.visited = a.visited := congrArg Prod.snd hio
  rw [InvC4, h1, h2]
  exact hinv

theorem walkOK_check_loop (env : REnv) (σ : RState) (rp : RestorePath) :
    WalkOK env σ (check_loop σ rp).2 := by
  simp only [check_loop]
  split
  · exact WalkOK.keep env σ
  · split
    · exact WalkOK.keep env σ
    · rename_i st hmem
      refine ⟨?_, fun _ => rfl, [], by simp⟩
      intro ⟨hnd, hsub⟩
      constructor
      · simp only [List.nodup_append, List.nodup_cons]
        refine ⟨hnd, by simp, ?_⟩
        intro a ha hb
        simp only [List.mem_singleton] at hb
        exact hmem (hb ▸ hsub a ha)
      · intro k hk
        simp only [List.mem_append, List.mem_singleton] at hk
        rcases hk with hk | hk
        · exact List.mem_cons_of_mem _ (hsub k hk)
        · rw [hk]; exact List.mem_cons_self _ _

theorem walkOK_restore_dir_go (env : REnv)
    (rec : RestorePath → RState → RState)
    (hrec : ∀ c σ, WalkOK env σ (rec c σ)) (rp : RestorePath) (σ : RState)
    (pd : Bool) : WalkOK env σ (restore_dir_go env rec rp σ pd).2 := by
  have hfold : ∀ (l : List RestorePath) (σx : RState),
      WalkOK env σx (l.foldl (fun σ c => rec c σ) σx) :=
    fun l σx => foldl_rel (WalkOK env) (WalkOK.keep env)
      (fun a b c => WalkOK.join) _ _ σx (fun σ c _ => hrec c σ)
  have hprune : ∀ (l : List RestorePath)
      (d : List (SysPath × RestorePath)) (σx : RState),
      WalkOK env σx (l.foldl (fun σ c =>
        if d.any (fun kv => kv.1 == c.system_path) then σ
        else (prune_path env (σ.fs.resolve c.system_path) c σ).2) σx) := by
    intro l d σx
    refine foldl_rel (WalkOK env) (WalkOK.keep env)
      (fun a b c => WalkOK.join) _ _ σx (fun σ c _ => ?_)
    split
    · exact WalkOK.keep env σ
    · exact ((stepOK_prune env).1 _ c σ).walk
  simp only [restore_dir_go]
  split
  · exact (stepOK_report env σ).walk
  · split
    · split
      · exact (stepOK_report env σ).walk
      · exact (hprune _ _ _).join (hfold _ _)
    · exact hfold _ _

theorem walkOK_restore_dir_g (env : REnv)
    (rec : RestorePath → RState → RState)
    (hrec : ∀ c σ, WalkOK env σ (rec c σ)) (fuel : Nat) (rp : RestorePath)
    (σ : RState) : WalkOK env σ (restore_dir_g env rec fuel rp σ).2 := by
  rw [restore_dir_g]
  split
  · exact (stepOK_report env σ).walk
  · rename_i rp1 hs
    split
    · exact walkOK_restore_dir_go env rec hrec rp1 σ true
    · rename_i hex
      have hmk := (stepOK_makedirs env fuel rp1 σ).walk
      split
      · rename_i rpm σm hmkeq
        have : σm = (makedirs env fuel rp1 σ).2.1 := by rw [hmkeq]
        rw [this] at *
        exact hmk.join (stepOK_report env _).walk
      · rename_i rpm σm hmkeq
        have hσm : σm = (makedirs env fuel rp1 σ).2.1 := by rw [hmkeq]
        subst hσm
        split
        · exact hmk.join (stepOK_report env _).walk
        · rename_i rp2 hs2
          exact hmk.join (walkOK_restore_dir_go env rec hrec rp2 _ false)

theorem walkOK_chstat_tail (env : REnv) (s : RestorePath × RState) :
    WalkOK env s.2 (chstat_tail env s) := by
  rw [chstat_tail]
  have hch := (stepOK_handler_chstat env s.1 s.2).walk
  split
  · rename_i rp2 σ2 heq
    have : σ2 = (handler_chstat env s.1 s.2).2.1 := by rw [heq]
    subst this
    exact hch
  · rename_i rp2 σ2 heq
    have : σ2 = (handler_chstat env s.1 s.2).2.1 := by rw [heq]
    subst this
    exact hch.join (stepOK_report env _).walk

theorem walkOK_restore_path_act (env : REnv)
    (rec : RestorePath → RState → RState)
    (hrec : ∀ c σ, WalkOK env σ (rec c σ)) (fuel : Nat) (rp : RestorePath)
    (σ : RState) : WalkOK env σ (restore_path_act env rec fuel rp σ) := by
  rw [restore_path_act]
  split
  · exact (stepOK_restore_manually env fuel rp σ).walk
  · split
    · exact (walkOK_restore_dir_g env rec hrec fuel rp σ).join
        (walkOK_chstat_tail env _)
    · exact ((stepOK_restore_file env fuel rp σ).walk).join
        (walkOK_chstat_tail env _)

theorem walkOK_restore_path (env : REnv) (fuel : Nat) (rp : RestorePath)
    (σ : RState) : WalkOK env σ (restore_path env fuel rp σ) := by
  induction fuel generalizing rp σ with
  | zero => exact WalkOK.keep env σ
  | succ fuel ih =>
    simp only [restore_path]
    split
    · exact WalkOK.keep env σ
    · have hcache : WalkOK env σ
          { σ with restore_cache := σ.restore_cache ++ [rp.system_path] } :=
        ⟨id, fun _ => rfl, [], by simp⟩
      split
      · exact hcache
      · split
        · exact hcache.join (stepOK_report env _).walk
        · rename_i rp1 hs
          split
          · exact hcache
          · set σ1 := { σ with
              restore_cache := σ.restore_cache ++ [rp.system_path] } with hσ1
            have hlc := walkOK_check_loop env σ1 rp1
            split
            · rename_i σ2 heq
              have : σ2 = (check_loop σ1 rp1).2 := by rw [heq]
              subst this
              exact hcache.join hlc
            · rename_i σ2 heq
              have hσ2 : σ2 = (check_loop σ1 rp1).2 := by rw [heq]
              subst hσ2
              split
              · refine ((hcache.join hlc).join
                  (stepOK_handler_remove env rp1 _).walk).join ?_
                exact walkOK_restore_path_act env _ (fun c σ => ih c σ)
                  fuel _ _
              · refine (hcache.join hlc).join ?_
                exact walkOK_restore_path_act env _ (fun c σ => ih c σ)
                  fuel rp1 _

theorem walkOK_restore_run (env : REnv) (fs : FSTree) :
    WalkOK env (init_rstate fs) (restore_run env fs) := by
  rw [restore_run]
  exact foldl_rel (WalkOK env) (WalkOK.keep env) (fun a b c => WalkOK.join)
    _ _ _ (fun σ c _ => walkOK_restore_path env (restore_fuel env) c.2 σ)

/-- Across a whole run, no `(st_dev, st_ino)` key is admitted twice. -/
theorem restore_run_visited_nodup (env : REnv) (fs : FSTree) :
    (restore_run env fs).visited.Nodup :=
  ((walkOK_restore_run env fs).1
    ⟨List.nodup_nil, fun k hk => absurd hk (by simp [init_rstate])⟩).1

/-- A dry run leaves the live filesystem untouched. -/
theorem restore_run_dry (env : REnv) (fs : FSTree)
    (hd : env.dry_run = true) :
    (restore_run env fs).fs = fs ∧ (restore_run env fs).contents = [] := by
  have h := (walkOK_restore_run env fs).2.1 hd
  exact ⟨congrArg Prod.fst h, congrArg Prod.snd h⟩

/-- A cached path is skipped outright. -/
theorem restore_path_cached (env : REnv) (fuel : Nat) (rp : RestorePath)
    (σ : RState) (h : rp.system_path ∈ σ.restore_cache) :
    restore_path env (fuel + 1) rp σ = σ := by
  rw [restore_path]
  simp only [h, if_true]

/-- A `BackupOnly` or excluded path only enters the cache; nothing else
happens. -/
theorem restore_path_excluded (env : REnv) (fuel : Nat) (rp : RestorePath)
    (σ : RState) (hnc : rp.system_path ∉ σ.restore_cache)
    (h : (rp.strategy == BackupStrategy.BackupOnly
      || is_path_excluded env.e rp.system_path) = true) :
    restore_path env (fuel + 1) rp σ
      = { σ with restore_cache := σ.restore_cache ++ [rp.system_path] } := by
  simp only [restore_path]
  rw [if_neg hnc, if_pos h]

/-- A path whose live identity repeats a cached `(st_dev, st_ino)` key is
skipped: only the `restore_cache` grows. -/
theorem restore_path_skip (env : REnv) (fuel : Nat) (rp : RestorePath)
    (σ : RState) (st : StatResult) (hnc : rp.system_path ∉ σ.restore_cache)
    (hng : (rp.strategy == BackupStrategy.BackupOnly
      || is_path_excluded env.e rp.system_path) = false)
    (hsc : rp.scanned = true) (hst : rp.system_stat_result = some st)
    (ha : rp.exists_on_archive = true)
    (hmem : (st.st_dev, st.st_ino) ∈ σ.inode_cache) :
    restore_path env (fuel + 1) rp σ
      = { σ with restore_cache := σ.restore_cache ++ [rp.system_path] } := by
  simp only [restore_path]
  rw [if_neg hnc]
  simp only [hng, Bool.false_eq_true, if_false]
  rw [show scan_system_metadata
    { σ with restore_cache := σ.restore_cache ++ [rp.system_path] } rp
      = some rp by rw [scan_system_metadata, if_pos hsc]]
  simp only [ha]
  rw [show check_loop
    { σ with restore_cache := σ.restore_cache ++ [rp.system_path] } rp
      = (true, { σ with
          restore_cache := σ.restore_cache ++ [rp.system_path] }) by
    rw [check_loop, hst]
    simp only [hmem, if_true]]
  rfl

/-- `remove_step` always announces exactly its `[D]` line. -/
theorem remove_step_events (env : REnv) (p : SysPath) (σ : RState) :
    (remove_step env p σ).events = σ.events ++ [.deleted p] := by
  rw [remove_step]
  split <;> rfl

/-- A wet `remove_step` removes the subtree from the live tree. -/
theorem remove_step_wet (env : REnv) (p : SysPath) (σ : RState)
    (hw : env.dry_run = false) :
    (remove_step env p σ).fs = removeAt σ.fs p := by
  rw [remove_step]
  simp only [hw, Bool.false_eq_true, if_false]
  rfl

/-- `_mkdir` always announces exactly its `[C]` line. -/
theorem handler_mkdir_events (env : REnv) (rp : RestorePath) (σ : RState) :
    (handler_mkdir env rp σ).2.1.events
      = σ.events ++ [.created rp.system_path] := by
  have hu : ∀ σx : RState, (utils_mkdir env σx rp.system_path
      rp.archive_metadata).1.events = σx.events := by
    intro σx
    rw [utils_mkdir]
    split
    · rfl
    · split
      · rfl
      · split
        · split <;> rfl
        · rfl
  simp only [handler_mkdir]
  split
  · rfl
  · split
    · exact hu _
    · exact hu _

/-- `_restore_file` never changes the live tree silently: a call that leaves
the log unchanged leaves the tree and contents unchanged (every write or
deletion is preceded by its announcement). -/
theorem restore_file_no_silent (env : REnv) (fuel : Nat) (rp : RestorePath)
    (σ : RState)
    (h : (restore_file env fuel rp σ).2.events = σ.events) :
    fsOf (restore_file env fuel rp σ).2 = fsOf σ := by
  revert h
  simp only [restore_file]
  split
  · intro h
    have hlen := congrArg List.length h
    simp [report] at hlen
  · rename_i rp1 hs
    split
    · split
      · split
        · intro h
          have hlen := congrArg List.length h
          simp at hlen
        · rename_i hwet
          intro h
          obtain ⟨_, _, Δ, hΔ⟩ := stepOK_restore_file_write env rp1
            { σ with events := σ.events ++ [REvent.created rp1.system_path] }
            (by simpa using hwet)
          rw [hΔ] at h
          have hlen := congrArg List.length h
          simp at hlen
      · intro h
        rfl
    · cases hp : rp1.get_parent with
      | none =>
        simp only [hp]
        split
        · intro h
          simp at *
        · split
          · intro h
            have hlen := congrArg List.length h
            simp at hlen
          · rename_i hwet
            intro h
            obtain ⟨_, _, Δ, hΔ⟩ := stepOK_restore_file_write env rp1
              { σ with events := σ.events ++ [REvent.created rp1.system_path] }
              (by simpa using hwet)
            rw [hΔ] at h
            have hlen := congrArg List.length h
            simp at hlen
      | some par =>
        simp only [hp]
        obtain ⟨_, _, Δ0, hΔ0⟩ := stepOK_makedirs env fuel
          (refresh_restore_path env par) σ
        split
        · intro h
          have hlen := congrArg List.length h
          simp only [report, hΔ0] at hlen
          simp at hlen
        · split
          · intro h
            have hlen := congrArg List.length h
            simp only [hΔ0] at hlen
            simp at hlen
          · rename_i hwet
            intro h
            obtain ⟨_, _, Δ, hΔ⟩ := stepOK_restore_file_write env rp1
              { (makedirs env fuel (refresh_restore_path env par) σ).2.1 with
                events := (makedirs env fuel (refresh_restore_path env par)
                  σ).2.1.events ++ [REvent.created rp1.system_path] }
              (by simpa using hwet)
            rw [hΔ] at h
            have hlen := congrArg List.length h
            simp only [hΔ0] at hlen
            simp at hlen


/-- Edit the children list at the end of a spine (the common shape of
`removeAt`/`setAt` one level up). -/
def editAt : FSTree → SysPath → (List (String × FSTree) →
    List (String × FSTree)) → FSTree
  | .mk st cs, [], g => .mk st (cs.map g)
  | .mk st cs, a :: rest, g =>
    .mk st (cs.map (List.map (fun c =>
      if c.1 == a then (c.1, editAt c.2 rest g) else c)))

theorem childLookup_map (l : List (String × FSTree)) (a x : String)
    (f : FSTree → FSTree) :
    childLookup (l.map (fun c => if c.1 == a then (c.1, f c.2) else c)) x
      = if x = a then (childLookup l a).map f else childLookup l x := by
  rw [childLookup, List.find?_map]
  have hp : ((fun c : String × FSTree => c.1 == x) ∘
      (fun c : String × FSTree => if c.1 == a then (c.1, f c.2) else c))
      = fun c : String × FSTree => c.1 == x := by
    funext c
    by_cases h : c.1 = a <;> simp [h]
  rw [hp]
  by_cases hxa : x = a
  · rw [if_pos hxa, hxa, childLookup]
    cases hf : List.find? (fun c : String × FSTree => c.1 == a) l with
    | none => rfl
    | some c =>
      have hc0 := List.find?_some hf
      simp only [] at hc0
      simp [hc0]
      rw [if_pos (show c.1 = a by simpa using hc0)]
  · rw [if_neg hxa, childLookup]
    cases hf : List.find? (fun c : String × FSTree => c.1 == x) l with
    | none => rfl
    | some c =>
      have hc0 := List.find?_some hf
      simp only [] at hc0
      have hcx : c.1 = x := by simpa using hc0
      simp [hcx, hxa]

theorem removeAt_editAt (fs : FSTree) (d : SysPath) (n : String) :
    removeAt fs (d ++ [n]) = editAt fs d
      (fun l => l.filter (fun c => !(c.1 == n))) := by
  induction d generalizing fs with
  | nil => cases fs; rfl
  | cons a rest ih =>
    cases fs with
    | mk st cs =>
      show removeAt (.mk st cs) (a :: (rest ++ [n])) = _
      cases hr : rest ++ [n] with
      | nil => exact absurd hr (by simp)
      | cons b tl =>
        rw [removeAt, editAt]
        congr 1
        cases cs with
        | none => rfl
        | some l =>
          simp only [Option.map]
          congr 1
          refine List.map_congr_left (fun c _ => ?_)
          rw [← hr, ih c.2]

theorem setAt_editAt (fs : FSTree) (d : SysPath) (n : String)
    (node : FSTree) :
    setAt fs (d ++ [n]) node = editAt fs d
      (fun l => if l.any (fun c => c.1 == n) then
          l.map (fun c => if c.1 == n then (n, node) else c)
        else l ++ [(n, node)]) := by
  induction d generalizing fs with
  | nil => cases fs; rfl
  | cons a rest ih =>
    cases fs with
    | mk st cs =>
      show setAt (.mk st cs) (a :: (rest ++ [n])) node = _
      cases hr : rest ++ [n] with
      | nil => exact absurd hr (by simp)
      | cons b tl =>
        rw [setAt, editAt]
        congr 1
        cases cs with
        | none => rfl
        | some l =>
          simp only [Option.map]
          congr 1
          refine List.map_congr_left (fun c _ => ?_)
          rw [← hr, ih c.2]

/-- Resolving the edited spine itself. -/
theorem editAt_resolve_self (fs : FSTree) (d : SysPath)
    (g : List (String × FSTree) → List (String × FSTree)) :
    (editAt fs d g).resolve d
      = (fs.resolve d).map (fun nd => .mk nd.st (nd.children.map g)) := by
  induction d generalizing fs with
  | nil => cases fs; rfl
  | cons a rest ih =>
    cases fs with
    | mk st cs =>
      rw [editAt]
      show FSTree.resolve _ (a :: rest) = _
      simp only [FSTree.resolve]
      cases cs with
      | none => rfl
      | some l =>
        simp only [FSTree.children, Option.map]
        have hcl := childLookup_map l a a (fun t => editAt t rest g)
        simp only [if_pos] at hcl
        rw [hcl]
        cases hf : childLookup l a with
        | none => rfl
        | some c =>
          simp only [Option.map]
          exact ih c

/-- Resolving a path that leaves the edited spine one level below its end is
unaffected, provided the edit preserves the lookup of the first divergent
name. -/
theorem editAt_resolve_off (fs : FSTree) (d : SysPath)
    (g : List (String × FSTree) → List (String × FSTree)) (m : String)
    (r : SysPath) (hg : ∀ l, childLookup (g l) m = childLookup l m) :
    (editAt fs d g).resolve (d ++ m :: r) = fs.resolve (d ++ m :: r) := by
  induction d generalizing fs with
  | nil =>
    cases fs with
    | mk st cs =>
      rw [editAt]
      show FSTree.resolve _ (m :: r) = FSTree.resolve _ (m :: r)
      simp only [FSTree.resolve]
      cases cs with
      | none => rfl
      | some l =>
        simp only [FSTree.children, Option.map]
        rw [hg l]
  | cons a rest ih =>
    cases fs with
    | mk st cs =>
      rw [editAt]
      show FSTree.resolve _ (a :: (rest ++ m :: r)) = _
      simp only [FSTree.resolve]
      cases cs with
      | none => rfl
      | some l =>
        simp only [FSTree.children, Option.map]
        have hcl := childLookup_map l a a (fun t => editAt t rest g)
        simp only [if_pos] at hcl
        rw [hcl]
        cases hf : childLookup l a with
        | none => rfl
        | some c =>
          simp only [Option.map]
          exact ih c

theorem childLookup_filter_self (l : List (String × FSTree)) (n : String) :
    childLookup (l.filter (fun c => !(c.1 == n))) n = none := by
  rw [childLookup, List.find?_filter]
  rw [List.find?_eq_none.mpr]
  · rfl
  · intro c _
    simp

theorem childLookup_filter_ne (l : List (String × FSTree)) (n m : String)
    (h : m ≠ n) :
    childLookup (l.filter (fun c => !(c.1 == n))) m = childLookup l m := by
  rw [childLookup, childLookup, List.find?_filter]
  have hp : (fun c : String × FSTree =>
      decide ((!(c.1 == n)) = true ∧ (c.1 == m) = true))
      = fun c : String × FSTree => c.1 == m := by
    funext c
    by_cases hcm : c.1 = m
    · simp [hcm, h]
    · simp [hcm]
  rw [hp]

theorem childLookup_setChild_self (l : List (String × FSTree)) (n : String)
    (node : FSTree) :
    childLookup (if l.any (fun c => c.1 == n) then
        l.map (fun c => if c.1 == n then (n, node) else c)
      else l ++ [(n, node)]) n = some node := by
  split
  · rename_i hany
    have : childLookup (l.map (fun c =>
        if c.1 == n then (c.1, (fun _ => node) c.2) else c)) n
        = if n = n then (childLookup l n).map (fun _ => node)
          else childLookup l n :=
      childLookup_map l n n (fun _ => node)
    rw [show (l.map (fun c => if c.1 == n then (n, node) else c))
        = l.map (fun c => if c.1 == n then (c.1, (fun _ => node) c.2) else c)
        from ?_]
    · rw [this, if_pos rfl]
      obtain ⟨c, hc, hpc⟩ := List.any_eq_true.mp hany
      rw [childLookup]
      cases hf : List.find? (fun c : String × FSTree => c.1 == n) l with
      | none =>
        rw [List.find?_eq_none] at hf
        exact absurd hpc (by simpa using hf c hc)
      | some c2 => rfl
    · refine List.map_congr_left (fun c _ => ?_)
      by_cases hcn : c.1 = n
      · simp [hcn]
      · simp [hcn]
  · rw [childLookup, List.find?_append]
    rename_i hany
    rw [List.find?_eq_none.mpr]
    · simp
    · intro c hc
      intro hpc
      exact hany (List.any_eq_true.mpr ⟨c, hc, hpc⟩)

theorem childLookup_setChild_ne (l : List (String × FSTree)) (n m : String)
    (node : FSTree) (h : m ≠ n) :
    childLookup (if l.any (fun c => c.1 == n) then
        l.map (fun c => if c.1 == n then (n, node) else c)
      else l ++ [(n, node)]) m = childLookup l m := by
  split
  · rw [show (l.map (fun c => if c.1 == n then (n, node) else c))
        = l.map (fun c => if c.1 == n then (c.1, (fun _ => node) c.2) else c)
        from ?_]
    · rw [childLookup_map l n m (fun _ => node), if_neg h]
    · refine List.map_congr_left (fun c _ => ?_)
      by_cases hcn : c.1 = n
      · simp [hcn]
      · simp [hcn]
  · rw [childLookup, childLookup, List.find?_append]
    rw [show List.find? (fun c : String × FSTree => c.1 == m) [(n, node)]
        = none from by simp [Ne.symm h]]
    simp

/-- The removed path resolves to nothing. -/
theorem resolve_removeAt_snoc (fs : FSTree) (d : SysPath) (n : String) :
    (removeAt fs (d ++ [n])).resolve (d ++ [n]) = none := by
  rw [removeAt_editAt, resolve_append, editAt_resolve_self]
  cases hr : fs.resolve d with
  | none => rfl
  | some nd =>
    simp only [Option.map, Option.bind]
    cases nd with
    | mk st cs =>
      cases cs with
      | none => rfl
      | some l =>
        show FSTree.resolve _ [n] = none
        simp only [FSTree.resolve, FSTree.children, Option.map]
        rw [childLookup_filter_self]

/-- Any nonempty removed path resolves to nothing. -/
theorem resolve_removeAt (fs : FSTree) (p : SysPath) (h : p ≠ []) :
    (removeAt fs p).resolve p = none := by
  have hp : p.dropLast ++ [p.getLast h] = p := List.dropLast_append_getLast h
  rw [← hp]
  exact resolve_removeAt_snoc fs p.dropLast (p.getLast h)

/-- The set path resolves to the new node once its parent directory is
listable. -/
theorem resolve_setAt_snoc (fs : FSTree) (d : SysPath) (n : String)
    (node : FSTree) (st : Option StatResult) (cs : List (String × FSTree))
    (hpar : fs.resolve d = some (.mk st (some cs))) :
    (setAt fs (d ++ [n]) node).resolve (d ++ [n]) = some node := by
  rw [setAt_editAt, resolve_append, editAt_resolve_self, hpar]
  simp only [Option.map, Option.bind, FSTree.st, FSTree.children]
  show FSTree.resolve _ [n] = some node
  simp only [FSTree.resolve, FSTree.children, Option.map]
  rw [childLookup_setChild_self]

/-- Setting a path does not disturb a sibling subtree. -/
theorem resolve_setAt_sib (fs : FSTree) (d : SysPath) (n m : String)
    (node : FSTree) (r : SysPath) (hmn : m ≠ n) :
    (setAt fs (d ++ [n]) node).resolve (d ++ m :: r)
      = fs.resolve (d ++ m :: r) := by
  rw [setAt_editAt]
  exact editAt_resolve_off fs d _ m r
    (fun l => childLookup_setChild_ne l n m node hmn)

/-- Removing a path does not disturb a sibling subtree. -/
theorem resolve_removeAt_sib (fs : FSTree) (d : SysPath) (n m : String)
    (r : SysPath) (hmn : m ≠ n) :
    (removeAt fs (d ++ [n])).resolve (d ++ m :: r)
      = fs.resolve (d ++ m :: r) := by
  rw [removeAt_editAt]
  exact editAt_resolve_off fs d _ m r
    (fun l => childLookup_filter_ne l n m hmn)

/-- Editing below a directory keeps the directory listable (same stat, the
children list transformed). -/
theorem resolve_editAt_parent (fs : FSTree) (d : SysPath)
    (g : List (String × FSTree) → List (String × FSTree))
    (st : Option StatResult) (cs : List (String × FSTree))
    (hpar : fs.resolve d = some (.mk st (some cs))) :
    (editAt fs d g).resolve d = some (.mk st (some (g cs))) := by
  rw [editAt_resolve_self, hpar]
  rfl

theorem alistGet_contentsSet (m : List (SysPath × List Nat)) (k : SysPath)
    (v : List Nat) : alistGet (contentsSet m k v) k = some v := by
  rw [contentsSet]
  split
  · rename_i hany
    induction m with
    | nil => simp at hany
    | cons c rest ih =>
      rw [List.any_cons] at hany
      by_cases hck : c.1 = k
      · rw [List.map_cons, if_pos (by simpa using hck)]
        rw [alistGet, if_pos rfl]
      · rw [List.map_cons, if_neg (by simpa using hck)]
        rw [alistGet, if_neg hck]
        refine ih ?_
        rcases Bool.or_eq_true_iff.mp hany with h1 | h1
        · exact absurd (by simpa using h1) hck
        · exact h1
  · induction m with
    | nil => rw [List.nil_append, alistGet, if_pos rfl]
    | cons c rest ih =>
      rename_i hany
      rw [List.any_cons] at hany
      have hck : ¬(c.1 = k) := by
        intro h
        exact hany (Bool.or_eq_true_iff.mpr (Or.inl (by simpa using h)))
      rw [List.cons_append, alistGet, if_neg hck]
      exact ih (fun h2 => hany (Bool.or_eq_true_iff.mpr (Or.inr h2)))

theorem pfxB_iff (a b : SysPath) : pfxB a b = true ↔ pfx a b := by
  rw [pfxB, List.isPrefixOf_iff_prefix]
  exact Iff.rfl

theorem pfxB_refl (a : SysPath) : pfxB a a = true :=
  (pfxB_iff a a).mpr (pfx_self a)

/-- Writing a fresh key and then dropping everything under it restores the
content map. -/
theorem contents_tmp_roundtrip (m : List (SysPath × List Nat)) (k : SysPath)
    (v : List Nat) (h : ∀ kv ∈ m, pfxB k kv.1 = false) :
    (contentsSet m k v).filter (fun kv => pfxB k kv.1 = false) = m := by
  have hany : m.any (fun kv => kv.1 == k) = false := by
    cases ha : m.any (fun kv => kv.1 == k) with
    | false => rfl
    | true =>
      obtain ⟨kv, hkv, hpk⟩ := List.any_eq_true.mp ha
      have := h kv hkv
      rw [show kv.1 = k by simpa using hpk, pfxB_refl k] at this
      cases this
  rw [contentsSet, hany]
  simp only [Bool.false_eq_true, if_false]
  rw [List.filter_append]
  rw [List.filter_eq_self.mpr (fun kv hkv => by rw [h kv hkv]; rfl)]
  rw [show List.filter (fun kv => pfxB k kv.1 = false) [(k, v)] = [] from ?_]
  · simp
  · simp [pfxB_refl k]

theorem tmpName_snoc (d : SysPath) (n : String) :
    tmpName (d ++ [n]) = d ++ [n ++ ".backup-pro.tmp"] := by
  rw [tmpName]
  simp

theorem tmp_suffix_ne (n : String) : n ++ ".backup-pro.tmp" ≠ n := by
  intro h
  have := congrArg String.length h
  have hlen : (".backup-pro.tmp").length = 15 := by decide
  rw [String.length_append, hlen] at this
  omega

/-- The staging sibling is never the live path itself. -/
theorem tmpName_ne (p : SysPath) (h : p ≠ []) : tmpName p ≠ p := by
  have hp : p.dropLast ++ [p.getLast h] = p := List.dropLast_append_getLast h
  rw [← hp, tmpName_snoc]
  intro he
  have := List.append_inj_right he (by rfl)
  have h2 : p.getLast h ++ ".backup-pro.tmp" = p.getLast h := by
    simpa using this
  exact tmp_suffix_ne _ h2

/-- A path resolving to a listable directory. -/
def dirReady (fs : FSTree) (d : SysPath) : Prop :=
  ∃ st cs, fs.resolve d = some (.mk st (some cs))

theorem dirReady_editAt (fs : FSTree) (d : SysPath)
    (g : List (String × FSTree) → List (String × FSTree))
    (h : dirReady fs d) : dirReady (editAt fs d g) d := by
  obtain ⟨st, cs, hres⟩ := h
  exact ⟨st, g cs, resolve_editAt_parent fs d g st cs hres⟩

theorem dirReady_setAt_snoc (fs : FSTree) (d : SysPath) (n : String)
    (node : FSTree) (h : dirReady fs d) :
    dirReady (setAt fs (d ++ [n]) node) d := by
  rw [setAt_editAt]
  exact dirReady_editAt fs d _ h

theorem dirReady_removeAt_snoc (fs : FSTree) (d : SysPath) (n : String)
    (h : dirReady fs d) : dirReady (removeAt fs (d ++ [n])) d := by
  rw [removeAt_editAt]
  exact dirReady_editAt fs d _ h

theorem resolve_setAt_snoc2 (fs : FSTree) (d : SysPath) (n : String)
    (node : FSTree) (h : dirReady fs d) :
    (setAt fs (d ++ [n]) node).resolve (d ++ [n]) = some node := by
  obtain ⟨st, cs, hres⟩ := h
  exact resolve_setAt_snoc fs d n node st cs hres

/-- The success path of the non-symlink write phase: content fully copied to
the staging sibling, the live path replaced, the sibling gone. -/
theorem rfw_success (env : REnv) (rp : RestorePath) (σ : RState)
    (d : SysPath) (n : String) (md : ArchiveMetadata) (i : ZInfo)
    (bytes : List Nat)
    (hp : rp.system_path = d ++ [n])
    (hmd : rp.archive_metadata = some md) (hln : S_ISLNK md.mode = false)
    (hinfo : rp.archive_info = some i) (hcont : i.content = some bytes)
    (hpar : dirReady σ.fs d) :
    (restore_file_write env rp σ).2.fs.resolve (d ++ [n])
        = some (.mk (some ⟨0o100644, 0, bytes.length, env.sys.real_uid,
            env.sys.real_gid, 0, σ.next_ino⟩) none)
    ∧ alistGet (restore_file_write env rp σ).2.contents (d ++ [n])
        = some bytes
    ∧ (restore_file_write env rp σ).2.fs.resolve (tmpName (d ++ [n])) = none
    ∧ (restore_file_write env rp σ).2.events = σ.events := by
  have hne : n ++ ".backup-pro.tmp" ≠ n := tmp_suffix_ne n
  rw [restore_file_write, hmd]
  simp only [hln, Bool.false_eq_true, if_false, hinfo, hcont, hp,
    tmpName_snoc, silent_remove]
  refine ⟨?_, ?_, ?_, ?_⟩
  · refine resolve_setAt_snoc2 _ d n _ ?_
    exact dirReady_removeAt_snoc _ d _
      (dirReady_removeAt_snoc _ d _ (dirReady_setAt_snoc _ d _ _ hpar))
  · exact alistGet_contentsSet _ _ _
  · rw [show (d ++ [n ++ ".backup-pro.tmp"])
        = d ++ (n ++ ".backup-pro.tmp") :: [] by simp]
    rw [resolve_setAt_sib _ d n (n ++ ".backup-pro.tmp") _ [] hne]
    rw [show (d ++ (n ++ ".backup-pro.tmp") :: [])
        = d ++ [n ++ ".backup-pro.tmp"] by simp]
    exact resolve_removeAt_snoc _ d _
  · trivial

/-- The failure path of the non-symlink write phase: the staging sibling is
removed again, the live path untouched, the error reported. -/
theorem rfw_failure (env : REnv) (rp : RestorePath) (σ : RState)
    (d : SysPath) (n : String) (md : ArchiveMetadata) (i : ZInfo)
    (hp : rp.system_path = d ++ [n])
    (hmd : rp.archive_metadata = some md) (hln : S_ISLNK md.mode = false)
    (hinfo : rp.archive_info = some i) (hcont : i.content = none) :
    (restore_file_write env rp σ).2.fs.resolve (tmpName (d ++ [n])) = none
    ∧ (restore_file_write env rp σ).2.fs.resolve (d ++ [n])
        = σ.fs.resolve (d ++ [n])
    ∧ ((∀ kv ∈ σ.contents, pfxB (tmpName (d ++ [n])) kv.1 = false) →
        (restore_file_write env rp σ).2.contents = σ.contents)
    ∧ (restore_file_write env rp σ).2.events = σ.events ++ [.reported] := by
  have hne : n ++ ".backup-pro.tmp" ≠ n := tmp_suffix_ne n
  rw [restore_file_write, hmd]
  simp only [hln, Bool.false_eq_true, if_false, hinfo, hcont, hp,
    tmpName_snoc, silent_remove, report]
  refine ⟨?_, ?_, ?_, ?_⟩
  · exact resolve_removeAt_snoc _ d _
  · rw [show (d ++ [n]) = d ++ n :: [] by simp]
    rw [resolve_removeAt_sib _ d (n ++ ".backup-pro.tmp") n []
      (fun h => hne h.symm)]
    rw [resolve_setAt_sib _ d (n ++ ".backup-pro.tmp") n _ []
      (fun h => hne h.symm)]
  · intro hclean
    refine contents_tmp_roundtrip σ.contents _ [] ?_
    intro kv hkv
    exact hclean kv hkv
  · trivial


theorem scan_archive_info_path (env : REnv) (rp : RestorePath) :
    (scan_archive_info env rp).system_path = rp.system_path := by
  rw [scan_archive_info]
  split
  · rfl
  · split <;> rfl

/-- Refreshing a restore path never changes which live path it denotes. -/
theorem refresh_system_path (env : REnv) (rp : RestorePath) :
    (refresh_restore_path env rp).system_path = rp.system_path := by
  rw [refresh_restore_path]
  cases hget : alistGet (tracked_restore_paths env) rp.system_path with
  | none => exact scan_archive_info_path env rp
  | some t =>
    have hmem := alistGet_mem _ _ _ hget
    rw [tracked_restore_paths] at hmem
    obtain ⟨tp, _, heq⟩ := List.mem_map.mp hmem
    have h1 : t = scan_archive_info env
        { system_path := tp.1, strategy := tp.2 } :=
      (congrArg Prod.snd heq).symm
    have h2 : tp.1 = rp.system_path := congrArg Prod.fst heq
    rw [h1, scan_archive_info_path, h2]

theorem pfx_append (p r : SysPath) : pfx p (p ++ r) := ⟨r, rfl⟩

theorem pfx_extend (p q : SysPath) (n : String)
    (h : pfx (p ++ [n]) q) : pfx p q := by
  obtain ⟨r, hr⟩ := h
  exact ⟨[n] ++ r, by rw [← hr]; simp⟩

theorem pfx_snoc_ne (p q : SysPath) (n : String)
    (h : pfx (p ++ [n]) q) : q ≠ p := by
  intro he
  have := pfx_length_le _ _ h
  rw [he] at this
  simp at this

/-- Pruning announces only deletions inside the pruned subtree (reports
aside); a refused prune never announces the deletion of its own root; a
children pass announces only deletions strictly below the directory. -/
theorem prune_ev (env : REnv) :
    (∀ (t : Option FSTree) (rp : RestorePath) (σ : RState),
      ∃ Δ, (prune_path env t rp σ).2.events = σ.events ++ Δ
        ∧ (∀ e ∈ Δ, e = .reported
            ∨ ∃ q, e = .deleted q ∧ pfx rp.system_path q)
        ∧ ((prune_path env t rp σ).1 = false →
            ∀ e ∈ Δ, e ≠ .deleted rp.system_path))
    ∧ (∀ (p : SysPath) (strat : BackupStrategy)
        (cs : List (String × FSTree)) (σ : RState),
      ∃ Δ, (prune_children env p strat cs σ).2.events = σ.events ++ Δ
        ∧ (∀ e ∈ Δ, e = .reported
            ∨ ∃ q, e = .deleted q ∧ pfx p q ∧ q ≠ p)) := by
  refine prune_path.mutual_induct env
    (fun t rp σ => ∃ Δ, (prune_path env t rp σ).2.events = σ.events ++ Δ
      ∧ (∀ e ∈ Δ, e = .reported
          ∨ ∃ q, e = .deleted q ∧ pfx rp.system_path q)
      ∧ ((prune_path env t rp σ).1 = false →
          ∀ e ∈ Δ, e ≠ .deleted rp.system_path))
    (fun p strat cs σ => ∃ Δ,
      (prune_children env p strat cs σ).2.events = σ.events ++ Δ
      ∧ (∀ e ∈ Δ, e = .reported
          ∨ ∃ q, e = .deleted q ∧ pfx p q ∧ q ≠ p))
    ?_ ?_ ?_ ?_ ?_ ?_ ?_ ?_ ?_ ?_ ?_ ?_
  · intro t rp σ hg
    rw [pp_guard env t rp σ hg]
    exact ⟨[], by simp, by simp, by simp⟩
  · intro rp σ hg ha
    rw [pp_none env rp σ (by simpa using hg), ha]
    exact ⟨[], by simp, by simp, by simp⟩
  · intro rp σ hg ha
    rw [pp_none env rp σ (by simpa using hg)]
    rw [show rp.exists_on_archive = false by simpa using ha]
    exact ⟨[], by simp, by simp, by simp⟩
  · intro rp σ hg kids
    rw [pp_stat_err env kids rp σ (by simpa using hg)]
    refine ⟨[.reported], rfl, by simp, by simp⟩
  · intro rp σ hg st kids hu
    rw [pp_unsupported env st kids rp σ (by simpa using hg) hu]
    refine ⟨[.reported], rfl, by simp, by simp⟩
  · intro rp σ hg st kids hu ha
    rw [pp_on_archive env st kids rp σ (by simpa using hg)
      (by simpa using hu) ha]
    exact ⟨[], by simp, by simp, by simp⟩
  · intro rp σ hg st hu ha hdir
    rw [pp_dir_kids_none env st rp σ (by simpa using hg) (by simpa using hu)
      (by simpa using ha) hdir]
    refine ⟨[.reported], rfl, by simp, by simp⟩
  · intro rp σ hg st hu ha hdir cs r hr ih
    rw [pp_dir env st cs rp σ (by simpa using hg) (by simpa using hu)
      (by simpa using ha) hdir]
    have hr2 : (prune_children env rp.system_path rp.strategy cs σ).1 = true
      := hr
    rw [if_pos hr2]
    obtain ⟨Δc, hΔc, hprop⟩ := ih
    refine ⟨Δc ++ [.deleted rp.system_path], ?_, ?_, ?_⟩
    · rw [remove_step_events, hΔc, List.append_assoc]
    · intro e he
      rcases List.mem_append.mp he with h1 | h1
      · rcases hprop e h1 with h2 | ⟨q, h2, h3, _⟩
        · exact Or.inl h2
        · exact Or.inr ⟨q, h2, h3⟩
      · rw [List.mem_singleton] at h1
        exact Or.inr ⟨rp.system_path, h1, pfx_self _⟩
    · intro hfalse
      simp at hfalse
  · intro rp σ hg st hu ha hdir cs r hr ih
    rw [pp_dir env st cs rp σ (by simpa using hg) (by simpa using hu)
      (by simpa using ha) hdir]
    have hr2 : ¬((prune_children env rp.system_path rp.strategy cs σ).1
      = true) := hr
    rw [if_neg hr2]
    obtain ⟨Δc, hΔc, hprop⟩ := ih
    refine ⟨Δc, hΔc, ?_, ?_⟩
    · intro e he
      rcases hprop e he with h2 | ⟨q, h2, h3, _⟩
      · exact Or.inl h2
      · exact Or.inr ⟨q, h2, h3⟩
    · intro _ e he
      rcases hprop e he with h2 | ⟨q, h2, h3, h4⟩
      · rw [h2]; simp
      · rw [h2]
        intro hcon
        exact h4 (by simpa using hcon)
  · intro rp σ hg st kids hu ha hdir
    rw [pp_file env st kids rp σ (by simpa using hg) (by simpa using hu)
      (by simpa using ha) (by simpa using hdir)]
    refine ⟨[.deleted rp.system_path], remove_step_events env _ σ, ?_, ?_⟩
    · intro e he
      rw [List.mem_singleton] at he
      exact Or.inr ⟨rp.system_path, he, pfx_self _⟩
    · intro hfalse
      simp at hfalse
  · intro p strat σ
    rw [pc_nil]
    exact ⟨[], by simp, by simp⟩
  · intro p strat n sub rest σ child r1 ih1 ih1b ih2
    rw [pc_cons]
    obtain ⟨Δ1, hΔ1, hp1, _⟩ := ih1b
    obtain ⟨Δ2, hΔ2, hp2⟩ := ih2
    have hcp : (refresh_restore_path env
        { system_path := p ++ [n], strategy := strat }).system_path
        = p ++ [n] := refresh_system_path env _
    refine ⟨Δ1 ++ Δ2, ?_, ?_⟩
    · rw [hΔ2, hΔ1, List.append_assoc]
    · intro e he
      rcases List.mem_append.mp he with h1 | h1
      · rcases hp1 e h1 with h2 | ⟨q, h2, h3⟩
        · exact Or.inl h2
        · rw [hcp] at h3
          exact Or.inr ⟨q, h2, pfx_extend p q n h3, pfx_snoc_ne p q n h3⟩
      · exact hp2 e h1

/-- The pruning pass over listed live children touches exactly the children
missing from the archive dict. -/
theorem prune_fold_filter (env : REnv) (d : List (SysPath × RestorePath))
    (l : List RestorePath) (σ : RState) :
    l.foldl (fun σ c => if d.any (fun kv => kv.1 == c.system_path) then σ
      else (prune_path env (σ.fs.resolve c.system_path) c σ).2) σ
      = (l.filter (fun c =>
          !(d.any (fun kv => kv.1 == c.system_path)))).foldl
          (fun σ c => (prune_path env (σ.fs.resolve c.system_path) c σ).2)
          σ := by
  induction l generalizing σ with
  | nil => rfl
  | cons c rest ih =>
    rw [List.foldl_cons, List.filter_cons]
    by_cases hd : d.any (fun kv => kv.1 == c.system_path)
    · rw [if_pos hd]
      rw [show (!(d.any fun kv => kv.1 == c.system_path)) = false by
        simp [hd]]
      simp only [Bool.false_eq_true, if_false]
      exact ih σ
    · rw [if_neg hd]
      rw [show (!(d.any fun kv => kv.1 == c.system_path)) = true by
        simp [hd]]
      simp only [if_true]
      rw [List.foldl_cons]
      exact ih _


/-- `InvB` survives the metadata probe that `_scan_path` performs right after
pushing the path onto the visit cache. -/
theorem spm_invB (sys : Sys) (fs : FSTree) (e : Excl) (p : SysPath)
    (σ : BackupState) (hInv : InvB sys fs e σ) :
    InvB sys fs e (scan_path_metadata sys fs p (cachePush σ p)).1 := by
  obtain ⟨h1, h2, h3⟩ := hInv
  have hframe := spm_frame sys fs p (cachePush σ p)
  have hmono := spm_am_mono sys fs p (cachePush σ p)
  have hcons := (spm_consistent sys fs p (cachePush σ p)
    (by simpa [cachePush] using h1)).1
  refine ⟨hcons, ?_, ?_⟩
  · rw [hframe.1]
    simpa [cachePush] using h2
  · intro x hx hxe
    rw [hframe.2] at hx
    simp only [cachePush, List.mem_append, List.mem_singleton] at hx
    rcases hx with hx | rfl
    · obtain ⟨v, hv⟩ := h3 x hx hxe
      exact ⟨v, hmono (x, v) (by simpa [cachePush] using hv)⟩
    · exact spm_key_present sys fs x (cachePush σ x)

/-- Whatever branch `_scan_path` takes on a fresh non-excluded path, the map
produced by its metadata probe is contained in the final map. -/
theorem scan_path_spm_mono (sys : Sys) (fs : FSTree) (e : Excl)
    (t : Option FSTree) (p : SysPath) (σ : BackupState) (hInv : InvB sys fs e σ)
    (hin : p ∉ σ.scan_cache) (hex : is_path_excluded e p = false) :
    ∀ kv ∈ (scan_path_metadata sys fs p (cachePush σ p)).1.archive_metadata,
      kv ∈ (scan_path sys fs e t p σ).archive_metadata := by
  intro kv hkv
  cases hsm : (scan_path_metadata sys fs p (cachePush σ p)).2 with
  | none =>
    rw [scan_path_mdnone sys fs e t p σ hin hex hsm]
    exact hkv
  | some md =>
    cases hdir : S_ISDIR md.mode with
    | false =>
      rw [scan_path_file sys fs e t p σ md hin hex hsm hdir]
      exact hkv
    | true =>
      cases t with
      | none =>
        rw [scan_path_dir_tnone sys fs e p σ md hin hex hsm hdir]
        exact hkv
      | some tt =>
        cases tt with
        | mk st kids =>
          cases kids with
          | none =>
            rw [scan_path_dir_nokids sys fs e p σ md st hin hex hsm hdir]
            exact hkv
          | some cs =>
            rw [scan_path_dir sys fs e p σ md st cs hin hex hsm hdir]
            simp only
            have hInv1 := spm_invB sys fs e p σ hInv
            have hmono2 := ((scan_basic sys fs e).2 cs p _ hInv1).2.1 kv hkv
            split
            · exact hmono2
            · exact hmono2

/-- Metadata-map entries survive the remainder of the tracked walk. -/
theorem foldl_scan_am_mono (sys : Sys) (fs : FSTree) (e : Excl)
    (l : List SysPath) (σ : BackupState) (hInv : InvB sys fs e σ)
    (kv : SysPath × Option ArchiveMetadata) (hkv : kv ∈ σ.archive_metadata) :
    kv ∈ (l.foldl (fun σ r => scan_path sys fs e (fs.resolve r) r σ)
      σ).archive_metadata := by
  induction l generalizing σ with
  | nil => simpa using hkv
  | cons r rest ih =>
    have h := (scan_basic sys fs e).1 (fs.resolve r) r σ hInv
    exact ih _ h.1 (h.2.1 kv hkv)

/-- Probing an uncached path first records its parent in the metadata map. -/
theorem spm_parent_key (sys : Sys) (fs : FSTree) (p q : SysPath)
    (σ : BackupState) (h : alistGet σ.archive_metadata p = none)
    (hq : get_parent p = some q) :
    ∃ v, (q, v) ∈ (scan_path_metadata sys fs p σ).1.archive_metadata := by
  rw [scan_path_metadata, h]
  cases hp : get_parent p with
  | none =>
    rw [hp] at hq
    cases hq
  | some par =>
    rw [hp] at hq
    have hpq : par = q := Option.some.inj hq
    subst hpq
    obtain ⟨v, hv⟩ := spm_key_present sys fs par σ
    refine ⟨v, ?_⟩
    simp only [List.mem_append]
    exact Or.inl hv

/-- The parent of a non-excluded tracked path gets its own probe entry in the
persisted metadata map, even if the parent itself is excluded. -/
theorem first_tracked_parent_key (sys : Sys) (fs : FSTree) (e : Excl)
    (r : SysPath) (rest : List SysPath) (q : SysPath) (mdq : ArchiveMetadata)
    (hex : is_path_excluded e r = false)
    (hq : get_parent r = some q) (hmd : mdOf sys fs q = some mdq) :
    (q, mdq) ∈ strip_none (backup_scan sys fs e (r :: rest)).archive_metadata := by
  rw [backup_scan, List.foldl_cons]
  have hInv0 : InvB sys fs e ⟨[], [], []⟩ :=
    ⟨by simp [AmConsistent], by simp, by simp⟩
  have hin : r ∉ (⟨[], [], []⟩ : BackupState).scan_cache := by simp
  have hq0 : alistGet (cachePush ⟨[], [], []⟩ r).archive_metadata r = none := rfl
  obtain ⟨v, hv⟩ := spm_parent_key sys fs r q (cachePush ⟨[], [], []⟩ r) hq0 hq
  have hv1 := scan_path_spm_mono sys fs e (fs.resolve r) r ⟨[], [], []⟩
    hInv0 hin hex (q, v) hv
  have hInv1 := ((scan_basic sys fs e).1 (fs.resolve r) r ⟨[], [], []⟩ hInv0).1
  have hv2 := foldl_scan_am_mono sys fs e rest _ hInv1 (q, v) hv1
  have hInvF := foldl_scan_inv sys fs e rest _ hInv1
  have hval := hInvF.1 (q, v) hv2
  simp only at hval
  rw [mem_strip_none]
  rw [hval] at hv2
  rw [hmd] at hv2
  exact hv2


/-- A trivial user database for the concrete restore runs: every id resolves
to the invoking real ids. -/
def c4Sys : Sys := ⟨0, 0, fun _ => none, fun _ => none, fun _ => none, fun _ => none⟩

/-- An archive holding the directory member `a/` with the directory member
`a/b/` inside. -/
def c4Zip : ZipTree :=
  .mk none [("a", .mk (some ⟨"a/", 0o40755, 0, none⟩)
    [("b", .mk (some ⟨"a/b/", 0o40755, 0, none⟩) [])])]

/-- The stored metadata of `/a`. -/
def c4MdA : ArchiveMetadata := ⟨"a/", none, 0o40755, 0, 0, none⟩

/-- The stored metadata of `/a/b`. -/
def c4MdB : ArchiveMetadata := ⟨"a/b/", none, 0o40755, 0, 0, none⟩

/-- A dry restore of the two-directory archive with `/a` tracked. -/
def c4Env : REnv :=
  { sys := c4Sys
    zip := c4Zip
    amMap := [(["a"], c4MdA), (["a", "b"], c4MdB)]
    tracked := [(["a"], .Auto)]
    e := ⟨[], []⟩
    dry_run := true
    interactive := false
    has_diff_checker := false
    tmp_root := ["tmp"] }

/-- A live tree with a hard-linked cycle under the tracked root: `/a` and
`/a/b` are directories sharing the `(st_dev, st_ino)` identity `(1, 2)`. -/
def c4Fs : FSTree :=
  .mk (some ⟨0o40755, 0, 0, 0, 0, 1, 1⟩)
    (some [("a", .mk (some ⟨0o40755, 0, 0, 0, 0, 1, 2⟩)
      (some [("b", .mk (some ⟨0o40755, 0, 0, 0, 0, 1, 2⟩) (some []))]))])

/-- A pre-scanned restore path whose live identity is the cycle key. -/
def c4SkipRp : RestorePath :=
  ⟨["a"], .Auto, some ⟨"a/", 0o40755, 0, none⟩, some c4MdA, true,
    some ⟨0o40755, 0, 0, 0, 0, 1, 2⟩⟩

/-- A state whose inode cache already holds the cycle key. -/
def c4SkipState : RState := ⟨c4Fs, [], [(1, 2)], [], [], [], 1000000, [(1, 2)]⟩

/-- The archive member `a`: a one-byte regular file. -/
def c7ZI : ZInfo := ⟨"a", 0o100644, 1, some [7]⟩

/-- The one-file archive. -/
def c7Zip : ZipTree := .mk none [("a", .mk (some c7ZI) [])]

/-- The stored metadata of `/a` (matches the member). -/
def c7Md : ArchiveMetadata := ⟨"a", none, 0o100644, 0, 1, none⟩

/-- A wet restore of the one-file archive with `/a` tracked. -/
def c7Env : REnv :=
  { sys := c4Sys
    zip := c7Zip
    amMap := [(["a"], c7Md)]
    tracked := [(["a"], .Auto)]
    e := ⟨[], []⟩
    dry_run := false
    interactive := false
    has_diff_checker := false
    tmp_root := ["tmp"] }

/-- The same restore, dry. -/
def c7DryEnv : REnv := { c7Env with dry_run := true }

/-- A live tree whose `/a` agrees with the archive on format, size and
mtime-second but carries different permission bits (`0o755` against the
archived `0o644`). -/
def c7Fs : FSTree :=
  .mk (some ⟨0o40755, 0, 0, 0, 0, 1, 1⟩)
    (some [("a", .mk (some ⟨0o100755, 0, 1, 0, 0, 1, 2⟩) none)])

/-- A fresh restore path for the unchanged-data live file `/a`. -/
def c7RpW : RestorePath := ⟨["a"], .Auto, some c7ZI, some c7Md, false, none⟩

/-- A manual-strategy restore path absent from both the live tree and the
archive: change detection deems it changed. -/
def c7RpM : RestorePath := ⟨["q"], .Manual, none, none, false, none⟩

/-- `_restore_manually` and its `[M]` line: an unchanged path does nothing
beyond the change detection; a changed path announces `[M]` with the staging
location immediately after the detection — on a dry run that announcement is
the entire effect, and in general everything else follows it in the log. -/
theorem restore_manually_announce (env : REnv) (fuel : Nat)
    (rp : RestorePath) (σ : RState) :
    ((is_path_changed env fuel rp σ).1 = false →
      restore_manually env fuel rp σ = (is_path_changed env fuel rp σ).2)
    ∧ ((is_path_changed env fuel rp σ).1 = true →
      (env.dry_run = true →
        restore_manually env fuel rp σ
          = { (is_path_changed env fuel rp σ).2 with
              events := (is_path_changed env fuel rp σ).2.events ++
                [REvent.manual
                  (env.tmp_root ++ parseArchivePath rp.archive_path)
                  rp.system_path] })
      ∧ ∃ d, (restore_manually env fuel rp σ).events
          = (is_path_changed env fuel rp σ).2.events ++
            [REvent.manual (env.tmp_root ++ parseArchivePath rp.archive_path)
              rp.system_path] ++ d) := by
  rw [restore_manually]
  split
  · rename_i hflag
    constructor
    · intro h
      rfl
    · intro h
      rw [hflag] at h
      cases h
  · rename_i hflag
    constructor
    · intro h
      rw [h] at hflag
      exact absurd rfl hflag
    · intro h
      constructor
      · intro hd
        rw [if_pos hd]
      · split
        · exact ⟨[], by simp⟩
        · split
          · obtain ⟨Δ1, hΔ1⟩ := (stepOK_extract_tmp env fuel rp _).2.2
            obtain ⟨Δ2, hΔ2⟩ := (stepOK_restore_metadata env fuel rp _).2.2
            refine ⟨Δ1 ++ Δ2, ?_⟩
            rw [hΔ2, hΔ1]
            simp
          · obtain ⟨Δ1, hΔ1⟩ := (stepOK_extract_tmp env fuel rp _).2.2
            refine ⟨Δ1, ?_⟩
            rw [hΔ1]

/-- The handler exclusion set with configuration directory `/c` and archive
target `/t`. -/
def c9Excl : Excl := mkHandlerExcl [] [] ["c"] ["t"]

/-- A live tree where the configuration directory `/c` holds the tracked file
`/c/x`. -/
def c9Fs : FSTree :=
  .mk (some ⟨0o40755, 0, 0, 0, 0, 1, 1⟩)
    (some [("c", .mk (some ⟨0o40755, 0, 0, 0, 0, 1, 2⟩)
      (some [("x", .mk (some ⟨0o100644, 0, 1, 0, 0, 1, 3⟩) none)]))])

/-- The probe value of `/c`. -/
def c9MdC : ArchiveMetadata := ⟨"c/", none, 0o40755, 0, 0, none⟩

theorem c9_c_mdOf : mdOf c4Sys c9Fs ["c"] = some c9MdC := by rfl

/-- A restore environment carrying the `c9` exclusion set. -/
def c9REnv : REnv :=
  { sys := c4Sys
    zip := .mk none []
    amMap := []
    tracked := []
    e := c9Excl
    dry_run := true
    interactive := false
    has_diff_checker := false
    tmp_root := ["tmp"] }

/-- A pre-resolved restore path for the staged-write witness. -/
def c10Rp : RestorePath :=
  ⟨["a"], .Auto, some c7ZI, some c7Md, true,
    some ⟨0o100755, 0, 1, 0, 0, 1, 2⟩⟩

/-- A tracked live path for the prune-guard witness. -/
def c6RpT : RestorePath := ⟨["a"], .Auto, none, none, false, none⟩

/-- An unprotected live path present in the archive. -/
def c6RpA : RestorePath :=
  ⟨["z"], .Auto, some ⟨"z", 0o100644, 1, none⟩, none, false, none⟩

/-- An unprotected live path absent from the archive. -/
def c6RpD : RestorePath := ⟨["z"], .Auto, none, none, false, none⟩

/-- C4: restore loop safety.  (1) `_restore_path` skips any path whose live
stat identity repeats a `(st_dev, st_ino)` pair already in the inode cache:
only the restore cache grows.  (2) Across a whole run no identity pair is
admitted by `_check_loop` twice, so each distinct pair is visited at most
once.  (3) On the concrete filesystem with a hard-linked directory cycle
under the tracked root, the run terminates with the shared identity visited
exactly once and the second encounter skipped. -/
theorem C4_loop_safety :
    (∀ (env : REnv) (fuel : Nat) (rp : RestorePath) (σ : RState)
        (st : StatResult),
      rp.system_path ∉ σ.restore_cache →
      (rp.strategy == BackupStrategy.BackupOnly
        || is_path_excluded env.e rp.system_path) = false →
      rp.scanned = true → rp.system_stat_result = some st →
      rp.exists_on_archive = true →
      (st.st_dev, st.st_ino) ∈ σ.inode_cache →
      restore_path env (fuel + 1) rp σ
        = { σ with restore_cache := σ.restore_cache ++ [rp.system_path] })
    ∧ (∀ (env : REnv) (fs : FSTree), (restore_run env fs).visited.Nodup)
    ∧ (restore_run c4Env c4Fs).visited = [(1, 2)]
    ∧ (restore_run c4Env c4Fs).restore_cache = [["a"], ["a", "b"]] := by
  refine ⟨?_, ?_, by decide, by decide⟩
  · exact fun env fuel rp σ st h1 h2 h3 h4 h5 h6 =>
      restore_path_skip env fuel rp σ st h1 h2 h3 h4 h5 h6
  · exact fun env fs => restore_run_visited_nodup env fs

/-- C4 witness: the skip clause applied to the concrete cyclic state — the
repeated identity `(1, 2)` makes the walk pass the path by, growing only the
restore cache. -/
theorem C4_loop_safety_witness :
    ((1, 2) ∈ c4SkipState.inode_cache)
    ∧ restore_path c4Env 1 c4SkipRp c4SkipState
      = { c4SkipState with
          restore_cache := c4SkipState.restore_cache ++ [c4SkipRp.system_path] } :=
  ⟨by decide,
    C4_loop_safety.1 c4Env 0 c4SkipRp c4SkipState ⟨0o40755, 0, 0, 0, 0, 1, 2⟩
      (by decide) (by decide) rfl rfl rfl (by decide)⟩

/-- C6: pruning of an existing live directory during restore.  (1) A live
child that is itself a tracked root or excluded is refused outright: no
state change, no deletion.  (2) A live child present in the archive is kept.
(3) A live directory missing from the archive is removed exactly when every
child was pruned, the children pass running first (bottom-up); otherwise it
is retained, keeping whatever its children pass did.  (4) Each removal
announces its `[D]` line at that point, and (5) on wet runs deletes the
subtree from the live tree.  (6) Every deletion a prune announces lies
within the pruned subtree, and a refused prune never deletes its own root —
so a directory with a protected descendant survives.  (7) The
reconciliation pass of `_restore_dir` prunes exactly the live children
missing from the archive-children dict. -/
theorem C6_restore_pruning :
    (∀ (env : REnv) (t : Option FSTree) (rp : RestorePath) (σ : RState),
      (decide (rp.system_path ∈ env.tracked.map Prod.fst)
        || is_path_excluded env.e rp.system_path) = true →
      prune_path env t rp σ = (false, σ))
    ∧ (∀ (env : REnv) (st : StatResult)
        (kids : Option (List (String × FSTree))) (rp : RestorePath)
        (σ : RState),
      (decide (rp.system_path ∈ env.tracked.map Prod.fst)
        || is_path_excluded env.e rp.system_path) = false →
      is_supported_type st = true → rp.exists_on_archive = true →
      prune_path env (some (.mk (some st) kids)) rp σ = (false, σ))
    ∧ (∀ (env : REnv) (st : StatResult) (cs : List (String × FSTree))
        (rp : RestorePath) (σ : RState),
      (decide (rp.system_path ∈ env.tracked.map Prod.fst)
        || is_path_excluded env.e rp.system_path) = false →
      is_supported_type st = true → rp.exists_on_archive = false →
      S_ISDIR st.st_mode = true →
      prune_path env (some (.mk (some st) (some cs))) rp σ
        = (if (prune_children env rp.system_path rp.strategy cs σ).1 then
            (true, remove_step env rp.system_path
              (prune_children env rp.system_path rp.strategy cs σ).2)
          else (false,
            (prune_children env rp.system_path rp.strategy cs σ).2)))
    ∧ (∀ (env : REnv) (p : SysPath) (σ : RState),
      (remove_step env p σ).events = σ.events ++ [REvent.deleted p])
    ∧ (∀ (env : REnv) (p : SysPath) (σ : RState), env.dry_run = false →
      (remove_step env p σ).fs = removeAt σ.fs p)
    ∧ (∀ (env : REnv) (t : Option FSTree) (rp : RestorePath) (σ : RState),
      ∃ d, (prune_path env t rp σ).2.events = σ.events ++ d
        ∧ (∀ ev ∈ d, ev = REvent.reported
            ∨ ∃ q, ev = REvent.deleted q ∧ pfx rp.system_path q)
        ∧ ((prune_path env t rp σ).1 = false →
            ∀ ev ∈ d, ev ≠ REvent.deleted rp.system_path))
    ∧ (∀ (env : REnv) (d : List (SysPath × RestorePath))
        (l : List RestorePath) (σ : RState),
      l.foldl (fun σ c =>
        if d.any (fun kv => kv.1 == c.system_path) then σ
        else (prune_path env (σ.fs.resolve c.system_path) c σ).2) σ
        = (l.filter (fun c =>
            !(d.any (fun kv => kv.1 == c.system_path)))).foldl
            (fun σ c => (prune_path env (σ.fs.resolve c.system_path) c σ).2)
            σ) := by
  refine ⟨?_, ?_, ?_, ?_, ?_, ?_, ?_⟩
  · exact fun env t rp σ h => pp_guard env t rp σ h
  · exact fun env st kids rp σ h hu ha => pp_on_archive env st kids rp σ h hu ha
  · exact fun env st cs rp σ h hu ha hdir => pp_dir env st cs rp σ h hu ha hdir
  · exact fun env p σ => remove_step_events env p σ
  · exact fun env p σ hw => remove_step_wet env p σ hw
  · exact fun env t rp σ => (prune_ev env).1 t rp σ
  · exact fun env d l σ => prune_fold_filter env d l σ

/-- C6 witness: the clauses applied to the concrete environments — a tracked
root refuses pruning, an archived live file is kept, a directory missing
from the archive reduces to its children pass, and a wet removal deletes the
subtree. -/
theorem C6_restore_pruning_witness :
    (decide (c6RpT.system_path ∈ c4Env.tracked.map Prod.fst)
      || is_path_excluded c4Env.e c6RpT.system_path) = true
    ∧ prune_path c4Env none c6RpT (init_rstate c4Fs)
        = (false, init_rstate c4Fs)
    ∧ prune_path c4Env
        (some (.mk (some ⟨0o100644, 0, 1, 0, 0, 1, 9⟩) none)) c6RpA
        (init_rstate c4Fs) = (false, init_rstate c4Fs)
    ∧ prune_path c4Env
        (some (.mk (some ⟨0o40755, 0, 0, 0, 0, 1, 9⟩) (some []))) c6RpD
        (init_rstate c4Fs)
      = (if (prune_children c4Env c6RpD.system_path c6RpD.strategy []
            (init_rstate c4Fs)).1 then
          (true, remove_step c4Env c6RpD.system_path
            (prune_children c4Env c6RpD.system_path c6RpD.strategy []
              (init_rstate c4Fs)).2)
        else (false, (prune_children c4Env c6RpD.system_path c6RpD.strategy []
            (init_rstate c4Fs)).2))
    ∧ (remove_step c7Env ["a"] (init_rstate c7Fs)).fs
        = removeAt (init_rstate c7Fs).fs ["a"] :=
  ⟨by decide,
    C6_restore_pruning.1 c4Env none c6RpT (init_rstate c4Fs) (by decide),
    C6_restore_pruning.2.1 c4Env ⟨0o100644, 0, 1, 0, 0, 1, 9⟩ none c6RpA
      (init_rstate c4Fs) (by decide) (by decide) rfl,
    C6_restore_pruning.2.2.1 c4Env ⟨0o40755, 0, 0, 0, 0, 1, 9⟩ [] c6RpD
      (init_rstate c4Fs) (by decide) (by decide) rfl (by decide),
    C6_restore_pruning.2.2.2.2.1 c7Env ["a"] (init_rstate c7Fs) rfl⟩

/-- C7 counterexample: metadata application is not announced and dry-run
reporting misses it.  On the concrete one-file archive against a live file
differing only in permission bits, the dry run announces nothing and leaves
the tree alone — but the wet run, with the identical empty log, silently
chmods the live file from `0o755` to the archived `0o644`.  So not every
state-changing action is announced, and the dry run does not report the
change set the wet run acts on. -/
theorem C7_counterexample :
    (restore_run c7DryEnv c7Fs).events = []
    ∧ (restore_run c7DryEnv c7Fs).fs = c7Fs
    ∧ c7Env.dry_run = false
    ∧ (restore_run c7Env c7Fs).events = []
    ∧ statPath (restore_run c7Env c7Fs).fs ["a"]
        = some ⟨0o100644, 0, 1, 0, 0, 1, 2⟩
    ∧ statPath c7Fs ["a"] = some ⟨0o100755, 0, 1, 0, 0, 1, 2⟩ :=
  ⟨by decide, by rfl, rfl, by decide, by decide, by decide⟩

/-- C7 (amended): dry-run framing and announcements.  (1) A dry run leaves
the live tree and its contents untouched.  (2) Every `_remove` announces
exactly its `[D]` line and (3) every `_mkdir` its `[C]` line, before the
action is applied or skipped.  (4) `_restore_manually` of an unchanged path
does nothing beyond the change detection, and (5) of a changed path
announces its `[M]` line (with the staging location) right after the
detection — on a dry run that announcement is the entire effect, and in
general everything else follows it in the log.  (6) `_restore_file` never
changes the live tree silently: a call that leaves the log unchanged leaves
tree and contents unchanged.  The exception is metadata application:
`_chstat` is applied silently on wet runs and skipped without announcement
on dry runs. -/
theorem C7_dry_run_amended :
    (∀ (env : REnv) (fs : FSTree), env.dry_run = true →
      (restore_run env fs).fs = fs ∧ (restore_run env fs).contents = [])
    ∧ (∀ (env : REnv) (p : SysPath) (σ : RState),
      (remove_step env p σ).events = σ.events ++ [REvent.deleted p])
    ∧ (∀ (env : REnv) (rp : RestorePath) (σ : RState),
      (handler_mkdir env rp σ).2.1.events
        = σ.events ++ [REvent.created rp.system_path])
    ∧ (∀ (env : REnv) (fuel : Nat) (rp : RestorePath) (σ : RState),
      (is_path_changed env fuel rp σ).1 = false →
      restore_manually env fuel rp σ = (is_path_changed env fuel rp σ).2)
    ∧ (∀ (env : REnv) (fuel : Nat) (rp : RestorePath) (σ : RState),
      (is_path_changed env fuel rp σ).1 = true →
      (env.dry_run = true →
        restore_manually env fuel rp σ
          = { (is_path_changed env fuel rp σ).2 with
              events := (is_path_changed env fuel rp σ).2.events ++
                [REvent.manual
                  (env.tmp_root ++ parseArchivePath rp.archive_path)
                  rp.system_path] })
      ∧ ∃ d, (restore_manually env fuel rp σ).events
          = (is_path_changed env fuel rp σ).2.events ++
            [REvent.manual (env.tmp_root ++ parseArchivePath rp.archive_path)
              rp.system_path] ++ d)
    ∧ (∀ (env : REnv) (fuel : Nat) (rp : RestorePath) (σ : RState),
      (restore_file env fuel rp σ).2.events = σ.events →
      fsOf (restore_file env fuel rp σ).2 = fsOf σ) := by
  refine ⟨?_, ?_, ?_, ?_, ?_, ?_⟩
  · exact fun env fs hd => restore_run_dry env fs hd
  · exact fun env p σ => remove_step_events env p σ
  · exact fun env rp σ => handler_mkdir_events env rp σ
  · exact fun env fuel rp σ h =>
      (restore_manually_announce env fuel rp σ).1 h
  · exact fun env fuel rp σ h =>
      (restore_manually_announce env fuel rp σ).2 h
  · exact fun env fuel rp σ h => restore_file_no_silent env fuel rp σ h

/-- C7 witness: the amended clauses on the concrete runs — the dry run is a
frame, the unchanged-file `_restore_file` call that logs nothing also
changes nothing, the unchanged manual path announces nothing, and the
changed manual path on a dry run produces exactly its `[M]` line. -/
theorem C7_dry_run_amended_witness :
    c7DryEnv.dry_run = true
    ∧ ((restore_run c7DryEnv c7Fs).fs = c7Fs
        ∧ (restore_run c7DryEnv c7Fs).contents = [])
    ∧ (is_path_changed c7Env 1 c7RpW (init_rstate c7Fs)).1 = false
    ∧ restore_manually c7Env 1 c7RpW (init_rstate c7Fs)
        = (is_path_changed c7Env 1 c7RpW (init_rstate c7Fs)).2
    ∧ (is_path_changed c7DryEnv 1 c7RpM (init_rstate c7Fs)).1 = true
    ∧ restore_manually c7DryEnv 1 c7RpM (init_rstate c7Fs)
        = { (is_path_changed c7DryEnv 1 c7RpM (init_rstate c7Fs)).2 with
            events := (is_path_changed c7DryEnv 1 c7RpM
                (init_rstate c7Fs)).2.events ++
              [REvent.manual
                (c7DryEnv.tmp_root ++ parseArchivePath c7RpM.archive_path)
                c7RpM.system_path] }
    ∧ (restore_file c7Env 1 c7RpW (init_rstate c7Fs)).2.events
        = (init_rstate c7Fs).events
    ∧ fsOf (restore_file c7Env 1 c7RpW (init_rstate c7Fs)).2
        = fsOf (init_rstate c7Fs) :=
  ⟨rfl, C7_dry_run_amended.1 c7DryEnv c7Fs rfl, by decide,
    C7_dry_run_amended.2.2.2.1 c7Env 1 c7RpW (init_rstate c7Fs) (by decide),
    by decide,
    (C7_dry_run_amended.2.2.2.2.1 c7DryEnv 1 c7RpM (init_rstate c7Fs)
      (by decide)).1 rfl,
    by decide,
    C7_dry_run_amended.2.2.2.2.2 c7Env 1 c7RpW (init_rstate c7Fs)
      (by decide)⟩

/-- C9 counterexample: the configuration directory does enter the metadata
map.  With configuration directory `/c` and target `/t` excluded (exclusion
is by exact path) and the file `/c/x` tracked, `/c` is excluded — yet the
backup walk's unconditional ancestor probing records `(/c, its probe)` in
the stripped fresh metadata map, refuting "never scanned into the ...
metadata map". -/
theorem C9_counterexample :
    is_path_excluded c9Excl ["c"] = true
    ∧ (["c"], c9MdC) ∈ strip_none
        (backup_scan c4Sys c9Fs c9Excl [["c", "x"]]).archive_metadata :=
  ⟨by decide,
    first_tracked_parent_key c4Sys c9Fs c9Excl ["c", "x"] [] ["c"] c9MdC
      (by decide) rfl c9_c_mdOf⟩

/-- C9 (amended): the configuration directory and the archive target are
unconditionally in the handler exclusion set of both walks, so (worthy set)
no excluded path ever enters the backup worthy set, (restore) an excluded
path is skipped by `_restore_path` with only the visit cache growing, and an
excluded path always refuses `_prune_path`.  However, exclusion is by exact
path: the unconditional ancestor probing of `_scan_path_metadata` still
records an excluded directory — the configuration directory included — in
the metadata map whenever a non-excluded tracked path lies beneath it. -/
theorem C9_exclusion_amended :
    (∀ (user : List SysPath) (pats : List (SysPath → Bool))
        (conf target : SysPath),
      is_path_excluded (mkHandlerExcl user pats conf target) conf = true
      ∧ is_path_excluded (mkHandlerExcl user pats conf target) target = true)
    ∧ (∀ (sys : Sys) (fs : FSTree) (e : Excl) (tracked : List SysPath)
        (x : SysPath),
      is_path_excluded e x = true →
      x ∉ (backup_scan sys fs e tracked).result)
    ∧ (∀ (env : REnv) (fuel : Nat) (rp : RestorePath) (σ : RState),
      rp.system_path ∉ σ.restore_cache →
      (rp.strategy == BackupStrategy.BackupOnly
        || is_path_excluded env.e rp.system_path) = true →
      restore_path env (fuel + 1) rp σ
        = { σ with restore_cache := σ.restore_cache ++ [rp.system_path] })
    ∧ (∀ (env : REnv) (t : Option FSTree) (rp : RestorePath) (σ : RState),
      is_path_excluded env.e rp.system_path = true →
      prune_path env t rp σ = (false, σ))
    ∧ (∀ (sys : Sys) (fs : FSTree) (e : Excl) (r : SysPath)
        (rest : List SysPath) (q : SysPath) (mdq : ArchiveMetadata),
      is_path_excluded e r = false → get_parent r = some q →
      mdOf sys fs q = some mdq →
      (q, mdq) ∈ strip_none
        (backup_scan sys fs e (r :: rest)).archive_metadata) := by
  refine ⟨?_, ?_, ?_, ?_, ?_⟩
  · intro user pats conf target
    constructor
    · simp [mkHandlerExcl, is_path_excluded]
    · simp [mkHandlerExcl, is_path_excluded]
  · intro sys fs e tracked x hex hx
    have h := (backup_scan_inv sys fs e tracked).2.1 x hx
    rw [hex] at h
    cases h
  · exact fun env fuel rp σ hnc h =>
      restore_path_excluded env fuel rp σ hnc h
  · intro env t rp σ hex
    refine pp_guard env t rp σ ?_
    rw [hex]
    simp
  · exact fun sys fs e r rest q mdq hex hq hmd =>
      first_tracked_parent_key sys fs e r rest q mdq hex hq hmd

/-- C9 witness: the amended clauses on the concrete configuration — `/c` is
excluded, stays out of the worthy set, is skipped and prune-proof on
restore, and still receives its metadata-map entry through the tracked
`/c/x`. -/
theorem C9_exclusion_amended_witness :
    is_path_excluded c9Excl ["c"] = true
    ∧ ["c"] ∉ (backup_scan c4Sys c9Fs c9Excl [["c", "x"]]).result
    ∧ restore_path c9REnv 1 ⟨["c"], .Auto, none, none, false, none⟩
        (init_rstate c9Fs)
      = { init_rstate c9Fs with
          restore_cache := (init_rstate c9Fs).restore_cache ++ [["c"]] }
    ∧ prune_path c9REnv none ⟨["c"], .Auto, none, none, false, none⟩
        (init_rstate c9Fs) = (false, init_rstate c9Fs)
    ∧ (["c"], c9MdC) ∈ strip_none
        (backup_scan c4Sys c9Fs c9Excl (["c", "x"] :: [])).archive_metadata :=
  ⟨by decide,
    C9_exclusion_amended.2.1 c4Sys c9Fs c9Excl [["c", "x"]] ["c"] (by decide),
    C9_exclusion_amended.2.2.1 c9REnv 0 ⟨["c"], .Auto, none, none, false, none⟩
      (init_rstate c9Fs) (by decide) (by decide),
    C9_exclusion_amended.2.2.2.1 c9REnv none
      ⟨["c"], .Auto, none, none, false, none⟩ (init_rstate c9Fs) (by decide),
    C9_exclusion_amended.2.2.2.2 c4Sys c9Fs c9Excl ["c", "x"] [] ["c"] c9MdC
      (by decide) rfl c9_c_mdOf⟩

/-- C10: staged file writes.  (1) Success path of the non-symlink branch of
`_restore_file`: the archived content is fully written to the staging
sibling, the live path is then replaced by a node carrying exactly those
bytes, the sibling is gone afterwards, and nothing further is logged.
(2) Failure path (the member's content read raises): the sibling is removed
again, the live path still resolves to its previous node, side contents are
untouched when no stale staging entries existed, and the error is reported —
no temporary left behind, no half-written live file.  (3) The staging name
is always distinct from the live name: (4) it is the final component with
the `.backup-pro.tmp` suffix appended. -/
theorem C10_tmp_copy :
    (∀ (env : REnv) (rp : RestorePath) (σ : RState) (d : SysPath) (n : String)
        (md : ArchiveMetadata) (i : ZInfo) (bytes : List Nat),
      rp.system_path = d ++ [n] →
      rp.archive_metadata = some md → S_ISLNK md.mode = false →
      rp.archive_info = some i → i.content = some bytes →
      dirReady σ.fs d →
      (restore_file_write env rp σ).2.fs.resolve (d ++ [n])
          = some (.mk (some ⟨0o100644, 0, bytes.length, env.sys.real_uid,
              env.sys.real_gid, 0, σ.next_ino⟩) none)
        ∧ alistGet (restore_file_write env rp σ).2.contents (d ++ [n])
            = some bytes
        ∧ (restore_file_write env rp σ).2.fs.resolve (tmpName (d ++ [n]))
            = none
        ∧ (restore_file_write env rp σ).2.events = σ.events)
    ∧ (∀ (env : REnv) (rp : RestorePath) (σ : RState) (d : SysPath)
        (n : String) (md : ArchiveMetadata) (i : ZInfo),
      rp.system_path = d ++ [n] →
      rp.archive_metadata = some md → S_ISLNK md.mode = false →
      rp.archive_info = some i → i.content = none →
      (restore_file_write env rp σ).2.fs.resolve (tmpName (d ++ [n])) = none
        ∧ (restore_file_write env rp σ).2.fs.resolve (d ++ [n])
            = σ.fs.resolve (d ++ [n])
        ∧ ((∀ kv ∈ σ.contents, pfxB (tmpName (d ++ [n])) kv.1 = false) →
            (restore_file_write env rp σ).2.contents = σ.contents)
        ∧ (restore_file_write env rp σ).2.events = σ.events ++ [.reported])
    ∧ (∀ (p : SysPath), p ≠ [] → tmpName p ≠ p)
    ∧ (∀ (d : SysPath) (n : String),
      tmpName (d ++ [n]) = d ++ [n ++ ".backup-pro.tmp"]) := by
  refine ⟨?_, ?_, ?_, ?_⟩
  · exact fun env rp σ d n md i bytes hp hmd hln hinfo hcont hpar =>
      rfw_success env rp σ d n md i bytes hp hmd hln hinfo hcont hpar
  · exact fun env rp σ d n md i hp hmd hln hinfo hcont =>
      rfw_failure env rp σ d n md i hp hmd hln hinfo hcont
  · exact fun p hp => tmpName_ne p hp
  · exact fun d n => tmpName_snoc d n

/-- C10 witness: the success clause on the concrete one-byte member — the
live `/a` ends up holding the byte, the staging sibling is gone, and the log
is unchanged. -/
theorem C10_tmp_copy_witness :
    S_ISLNK c7Md.mode = false
    ∧ dirReady (init_rstate c7Fs).fs []
    ∧ ((restore_file_write c7Env c10Rp (init_rstate c7Fs)).2.fs.resolve
          ([] ++ ["a"])
        = some (.mk (some ⟨0o100644, 0, ([7] : List Nat).length,
            c7Env.sys.real_uid, c7Env.sys.real_gid, 0,
            (init_rstate c7Fs).next_ino⟩) none)
      ∧ alistGet (restore_file_write c7Env c10Rp
          (init_rstate c7Fs)).2.contents ([] ++ ["a"]) = some [7]
      ∧ (restore_file_write c7Env c10Rp
          (init_rstate c7Fs)).2.fs.resolve (tmpName ([] ++ ["a"])) = none
      ∧ (restore_file_write c7Env c10Rp (init_rstate c7Fs)).2.events
          = (init_rstate c7Fs).events) :=
  ⟨by decide, ⟨_, _, rfl⟩,
    C10_tmp_copy.1 c7Env c10Rp (init_rstate c7Fs) [] "a" c7Md c7ZI [7]
      rfl rfl (by decide) rfl rfl ⟨_, _, rfl⟩⟩

end BackupPro
